import Mathlib

/-!
Data-format sniffing predicates of package `df`.

A shallow embedding of `dataformat.go` (`IsJSON`, `IsYAML`, `IsXML`, `IsHTML`,
`IsPlainText`) together with the parts of the Go standard library the predicates
call (`strings`, `unicode`, `unicode/utf8`, `encoding/json`).

A Go `string` / `[]byte` is a sequence of bytes; a byte is a natural number below 256.
-/

namespace Df

/-- A Go string or byte slice: its bytes, in order. -/
abbrev Bytes := List Nat

/-- The bytes of an ASCII string literal. -/
def lit (s : String) : Bytes := s.toList.map Char.toNat

/-- The byte of an ASCII character. -/
def byte (c : Char) : Nat := c.toNat

/-! ## `unicode/utf8` -/

namespace utf8

/-- The constant `utf8.RuneError` (U+FFFD). -/
def RuneError : Nat := 0xFFFD

/-- The constant `utf8.RuneSelf`: bytes below it are single-byte runes. -/
def RuneSelf : Nat := 0x80

/-- The function `utf8.DecodeRuneInString`: the first rune of `s` and its width in bytes;
`(RuneError, 0)` on the empty string and `(RuneError, 1)` on an invalid encoding. -/
def DecodeRuneInString : Bytes → Nat × Nat
  | [] => (RuneError, 0)
  | s0 :: rest =>
    if s0 < RuneSelf then (s0, 1)
    else if s0 < 0xC2 ∨ 0xF4 < s0 then (RuneError, 1)
    else
      let sz := if s0 < 0xE0 then 2 else if s0 < 0xF0 then 3 else 4
      let lo := if s0 = 0xE0 then 0xA0 else if s0 = 0xF0 then 0x90 else 0x80
      let hi := if s0 = 0xED then 0x9F else if s0 = 0xF4 then 0x8F else 0xBF
      if rest.length + 1 < sz then (RuneError, 1)
      else match rest with
        | [] => (RuneError, 1)
        | s1 :: r1 =>
          if s1 < lo ∨ hi < s1 then (RuneError, 1)
          else if sz ≤ 2 then ((s0 % 32) * 64 + s1 % 64, 2)
          else match r1 with
            | [] => (RuneError, 1)
            | s2 :: r2 =>
              if s2 < 0x80 ∨ 0xBF < s2 then (RuneError, 1)
              else if sz ≤ 3 then ((s0 % 16) * 4096 + (s1 % 64) * 64 + s2 % 64, 3)
              else match r2 with
                | [] => (RuneError, 1)
                | s3 :: _ =>
                  if s3 < 0x80 ∨ 0xBF < s3 then (RuneError, 1)
                  else ((s0 % 8) * 262144 + (s1 % 64) * 4096 + (s2 % 64) * 64 + s3 % 64, 4)

/-- The function `utf8.AppendRune` on an empty buffer: the UTF-8 encoding of the rune `r`,
that of U+FFFD when `r` is a surrogate or out of range. -/
def EncodeRune (r : Nat) : Bytes :=
  if r ≤ 0x7F then [r]
  else if r ≤ 0x7FF then [0xC0 + r / 64, 0x80 + r % 64]
  else if r < 0xD800 ∨ (0xDFFF < r ∧ r ≤ 0xFFFF) then
    [0xE0 + r / 4096, 0x80 + r / 64 % 64, 0x80 + r % 64]
  else if 0xFFFF < r ∧ r ≤ 0x10FFFF then
    [0xF0 + r / 262144, 0x80 + r / 4096 % 64, 0x80 + r / 64 % 64, 0x80 + r % 64]
  else [0xEF, 0xBF, 0xBD]

/-- The function `utf8.RuneStart`: `b` is not a continuation byte. -/
def RuneStart (b : Nat) : Bool := decide (b / 64 % 4 ≠ 2)

/-- The backwards scan of `utf8.DecodeLastRuneInString`: starting at `start`, move down
while `start ≥ lim` and `s[start]` is not a rune start. `none` stands for `start = -1`;
`n` bounds the number of iterations. -/
def lastRuneScan (s : Bytes) (lim : Nat) : Nat → Option Nat → Option Nat
  | 0, st => st
  | _, none => none
  | n + 1, some start =>
    if start < lim then some start
    else if RuneStart (s.getD start 0) then some start
    else lastRuneScan s lim n (if start = 0 then none else some (start - 1))

/-- The function `utf8.DecodeLastRuneInString`: the last rune of `s` and its width. -/
def DecodeLastRuneInString (s : Bytes) : Nat × Nat :=
  let e := s.length
  if e = 0 then (RuneError, 0)
  else
    let last := s.getD (e - 1) 0
    if last < RuneSelf then (last, 1)
    else
      let lim := e - 4
      let start := (lastRuneScan s lim 4 (if e - 1 = 0 then none else some (e - 2))).getD 0
      let rs := DecodeRuneInString (s.drop start)
      if start + rs.2 ≠ e then (RuneError, 1) else rs

/-- The function `utf8.RuneCountInString`: every rune, valid or not, counts once;
`skip` is the number of bytes still belonging to the rune being consumed. -/
def runeCountFrom : Nat → Bytes → Nat
  | _, [] => 0
  | skip + 1, _ :: t => runeCountFrom skip t
  | 0, c :: t => 1 + runeCountFrom ((DecodeRuneInString (c :: t)).2 - 1) t

/-- The function `utf8.RuneCountInString`. -/
def RuneCountInString (s : Bytes) : Nat := runeCountFrom 0 s

/-- The loop of `utf8.ValidString`: no rune of `s` is an invalid encoding, which
`DecodeRuneInString` reports as `(RuneError, 1)`; `skip` is the number of bytes still
belonging to the rune just checked. -/
def validFrom : Nat → Bytes → Bool
  | _, [] => true
  | skip + 1, _ :: t => validFrom skip t
  | 0, c :: t =>
    let rs := DecodeRuneInString (c :: t)
    if rs = (RuneError, 1) then false else validFrom (rs.2 - 1) t

/-- The function `utf8.ValidString`: `s` consists entirely of valid UTF-8-encoded runes. -/
def ValidString (s : Bytes) : Bool := validFrom 0 s

end utf8

/-! ## `unicode` -/

namespace unicode

/-- The function `unicode.IsSpace`: the Latin-1 spaces and the `White_Space` table. -/
def IsSpace (r : Nat) : Bool :=
  if r ≤ 0xFF then
    decide (r = 0x09 ∨ r = 0x0A ∨ r = 0x0B ∨ r = 0x0C ∨ r = 0x0D ∨ r = 0x20 ∨ r = 0x85 ∨ r = 0xA0)
  else
    decide (r = 0x1680 ∨ (0x2000 ≤ r ∧ r ≤ 0x200A) ∨ r = 0x2028 ∨ r = 0x2029 ∨ r = 0x202F
      ∨ r = 0x205F ∨ r = 0x3000)

/-- The function `unicode.ToLower`: ASCII letters are mapped directly, every other rune
through the case tables of the Unicode data (`unicode.CaseRanges`), which are the
parameter `caseTable`. -/
def ToLower (caseTable : Nat → Nat) (r : Nat) : Nat :=
  if r ≤ 0x7F then
    if byte 'A' ≤ r ∧ r ≤ byte 'Z' then r + (byte 'a' - byte 'A') else r
  else caseTable r

end unicode

/-! ## `strings` -/

namespace strings

/-- The function `strings.Index`: the index of the first instance of `substr` in `s`,
or `-1` if there is none. -/
def Index : Bytes → Bytes → Int
  | [], substr => if substr = [] then 0 else -1
  | c :: t, substr =>
    if substr.isPrefixOf (c :: t) then 0
    else
      let r := Index t substr
      if r < 0 then -1 else r + 1

/-- The function `strings.Contains`: `Index(s, substr) >= 0`. -/
def Contains (s substr : Bytes) : Bool := decide (Index s substr ≥ 0)

/-- The loop of `strings.Count` for a separator of two or more bytes: take the first
instance, count it, continue behind it. `skip` is the number of bytes of the instance just
counted that are still to be passed over. -/
def countFrom (substr : Bytes) : Nat → Bytes → Nat
  | _, [] => 0
  | skip + 1, _ :: t => countFrom substr skip t
  | 0, c :: t =>
    if substr.isPrefixOf (c :: t) then 1 + countFrom substr (substr.length - 1) t
    else countFrom substr 0 t

/-- The function `strings.Count`: the number of non-overlapping instances of `substr`
in `s`; for the empty `substr`, one more than the number of runes of `s`. -/
def Count (s substr : Bytes) : Nat :=
  match substr with
  | [] => utf8.RuneCountInString s + 1
  | [c] => s.count c
  | _ => countFrom substr 0 s

/-- The table `asciiSpace` of package `strings`. -/
def asciiSpace (c : Nat) : Bool :=
  decide (c = 0x09 ∨ c = 0x0A ∨ c = 0x0B ∨ c = 0x0C ∨ c = 0x0D ∨ c = 0x20)

/-- The function `strings.TrimLeftFunc(s, unicode.IsSpace)`: drop leading runes that are
spaces; `skip` is the number of bytes still belonging to the space being dropped. -/
def trimLeftSpaceFrom : Nat → Bytes → Bytes
  | _, [] => []
  | skip + 1, _ :: t => trimLeftSpaceFrom skip t
  | 0, c :: t =>
    let rs := utf8.DecodeRuneInString (c :: t)
    if unicode.IsSpace rs.1 then trimLeftSpaceFrom (rs.2 - 1) t else c :: t

/-- The function `strings.TrimLeftFunc(s, unicode.IsSpace)`. -/
def TrimLeftSpace (s : Bytes) : Bytes := trimLeftSpaceFrom 0 s

/-- The loop of `lastIndexFunc(s, unicode.IsSpace, false)` on the reversed string `r`:
the index at which the last rune that is not a space starts, or `-1`. -/
def lastIndexNotSpaceFrom : Nat → Bytes → Int
  | _, [] => -1
  | skip + 1, _ :: t => lastIndexNotSpaceFrom skip t
  | 0, c :: t =>
    let rs := utf8.DecodeLastRuneInString (c :: t).reverse
    if unicode.IsSpace rs.1 then lastIndexNotSpaceFrom (rs.2 - 1) t
    else (((t.length + 1 - rs.2 : Nat) : Int))

/-- The function `strings.TrimRightFunc(s, unicode.IsSpace)`. -/
def TrimRightSpace (s : Bytes) : Bytes :=
  let i := lastIndexNotSpaceFrom 0 s.reverse
  if i ≥ 0 ∧ s.getD i.toNat 0 ≥ utf8.RuneSelf then
    s.take (i.toNat + (utf8.DecodeRuneInString (s.drop i.toNat)).2)
  else s.take (i + 1).toNat

/-- The second loop of `strings.TrimSpace`, on the reversed remainder `r` of the string:
drop trailing ASCII spaces, falling back to `TrimRightFunc` at a non-ASCII byte. -/
def trimSpaceEnd : Bytes → Bytes
  | [] => []
  | c :: t =>
    if c ≥ utf8.RuneSelf then TrimRightSpace (c :: t).reverse
    else if asciiSpace c then trimSpaceEnd t
    else (c :: t).reverse

/-- The function `strings.TrimSpace`: `s` without leading and trailing white space, as
defined by Unicode. The first loop drops leading ASCII spaces and falls back to `TrimFunc`
at a non-ASCII byte. -/
def TrimSpace : Bytes → Bytes
  | [] => []
  | c :: t =>
    if c ≥ utf8.RuneSelf then TrimRightSpace (TrimLeftSpace (c :: t))
    else if asciiSpace c then TrimSpace t
    else trimSpaceEnd (c :: t).reverse

/-- The function `strings.Map` for a mapping without negative results: every rune of `s`
(an invalid byte being the rune U+FFFD of width 1) is replaced by the encoding of its image.
`skip` is the number of bytes still belonging to the rune just mapped. -/
def mapFrom (mapping : Nat → Nat) : Nat → Bytes → Bytes
  | _, [] => []
  | skip + 1, _ :: t => mapFrom mapping skip t
  | 0, c :: t =>
    let rs := utf8.DecodeRuneInString (c :: t)
    utf8.EncodeRune (mapping rs.1) ++ mapFrom mapping (rs.2 - 1) t

/-- The function `strings.Map`. -/
def Map (mapping : Nat → Nat) (s : Bytes) : Bytes := mapFrom mapping 0 s

/-- The function `strings.ToLower`: an ASCII-only string is lowered byte by byte (and
returned as it is when it has no upper-case letter), any other string rune by rune. -/
def ToLower (caseTable : Nat → Nat) (s : Bytes) : Bytes :=
  let isASCII := s.all (fun c => decide (c < utf8.RuneSelf))
  let hasUpper := s.any (fun c => decide (byte 'A' ≤ c ∧ c ≤ byte 'Z'))
  if isASCII then
    if !hasUpper then s
    else s.map (fun c => if byte 'A' ≤ c ∧ c ≤ byte 'Z' then c + (byte 'a' - byte 'A') else c)
  else Map (unicode.ToLower caseTable) s

end strings

/-! ## `encoding/json`: the scanner that validates a JSON text -/

namespace json

/-- The values returned by the state transition functions of the scanner. -/
inductive Scan
  | scanContinue | scanBeginLiteral | scanBeginObject | scanObjectKey | scanObjectValue
  | scanEndObject | scanBeginArray | scanArrayValue | scanEndArray | scanSkipSpace
  | scanEnd | scanError
  deriving DecidableEq, Repr

/-- The entries of the scanner's parse-state stack. -/
inductive ParseState
  | parseObjectKey | parseObjectValue | parseArrayValue
  deriving DecidableEq, Repr

/-- The state transition functions `scanner.step` can hold, by name. -/
inductive Step
  | stateBeginValueOrEmpty | stateBeginValue | stateBeginStringOrEmpty | stateBeginString
  | stateEndValue | stateEndTop
  | stateInString | stateInStringEsc | stateInStringEscU | stateInStringEscU1
  | stateInStringEscU12 | stateInStringEscU123
  | stateNeg | state1 | state0 | stateDot | stateDot0 | stateE | stateESign | stateE0
  | stateT | stateTr | stateTru | stateF | stateFa | stateFal | stateFals
  | stateN | stateNu | stateNul | stateError
  deriving DecidableEq, Repr

/-- The type `scanner`: the next transition function, the parse-state stack (its top is the
head of the list), whether an error was recorded (`err != nil`), and `endTop`. -/
structure Scanner where
  step : Step
  parseState : List ParseState
  err : Bool
  endTop : Bool
  deriving DecidableEq, Repr

/-- The constant `maxNestingDepth`. -/
def maxNestingDepth : Nat := 10000

/-- The method `scanner.reset`. -/
def reset : Scanner :=
  { step := Step.stateBeginValue, parseState := [], err := false, endTop := false }

/-- The method `scanner.error`: record the error and switch to `stateError`. -/
def error (s : Scanner) : Scanner × Scan :=
  ({ s with step := Step.stateError, err := true }, Scan.scanError)

/-- The method `scanner.pushParseState`, called with `s.step` already set. -/
def pushParseState (s : Scanner) (newParseState : ParseState) (successState : Scan) :
    Scanner × Scan :=
  let s1 := { s with parseState := newParseState :: s.parseState }
  if s1.parseState.length ≤ maxNestingDepth then (s1, successState) else error s1

/-- The method `scanner.popParseState`. -/
def popParseState (s : Scanner) : Scanner :=
  let rest := s.parseState.tail
  if rest.length = 0 then { s with parseState := rest, step := Step.stateEndTop, endTop := true }
  else { s with parseState := rest, step := Step.stateEndValue }

/-- The function `isSpace` of the scanner. -/
def isSpace (c : Nat) : Bool :=
  decide (c ≤ byte ' ' ∧ (c = byte ' ' ∨ c = byte '\t' ∨ c = byte '\r' ∨ c = byte '\n'))

/-- The function `stateEndTop`: a non-space byte after the top-level value records an
error, reported at the next byte or at the end of the input. -/
def stateEndTop (s : Scanner) (c : Nat) : Scanner × Scan :=
  if !isSpace c then ((error s).1, Scan.scanEnd) else (s, Scan.scanEnd)

/-- The function `stateEndValue`. -/
def stateEndValue (s : Scanner) (c : Nat) : Scanner × Scan :=
  match s.parseState with
  | [] => stateEndTop { s with step := Step.stateEndTop, endTop := true } c
  | ps :: rest =>
    if isSpace c then ({ s with step := Step.stateEndValue }, Scan.scanSkipSpace)
    else match ps with
      | ParseState.parseObjectKey =>
        if c = byte ':' then
          ({ s with parseState := ParseState.parseObjectValue :: rest,
                    step := Step.stateBeginValue }, Scan.scanObjectKey)
        else error s
      | ParseState.parseObjectValue =>
        if c = byte ',' then
          ({ s with parseState := ParseState.parseObjectKey :: rest,
                    step := Step.stateBeginString }, Scan.scanObjectValue)
        else if c = byte '}' then (popParseState s, Scan.scanEndObject)
        else error s
      | ParseState.parseArrayValue =>
        if c = byte ',' then ({ s with step := Step.stateBeginValue }, Scan.scanArrayValue)
        else if c = byte ']' then (popParseState s, Scan.scanEndArray)
        else error s

/-- The function `stateBeginValue`. -/
def stateBeginValue (s : Scanner) (c : Nat) : Scanner × Scan :=
  if isSpace c then (s, Scan.scanSkipSpace)
  else if c = byte '{' then
    pushParseState { s with step := Step.stateBeginStringOrEmpty } ParseState.parseObjectKey
      Scan.scanBeginObject
  else if c = byte '[' then
    pushParseState { s with step := Step.stateBeginValueOrEmpty } ParseState.parseArrayValue
      Scan.scanBeginArray
  else if c = byte '"' then ({ s with step := Step.stateInString }, Scan.scanBeginLiteral)
  else if c = byte '-' then ({ s with step := Step.stateNeg }, Scan.scanBeginLiteral)
  else if c = byte '0' then ({ s with step := Step.state0 }, Scan.scanBeginLiteral)
  else if c = byte 't' then ({ s with step := Step.stateT }, Scan.scanBeginLiteral)
  else if c = byte 'f' then ({ s with step := Step.stateF }, Scan.scanBeginLiteral)
  else if c = byte 'n' then ({ s with step := Step.stateN }, Scan.scanBeginLiteral)
  else if byte '1' ≤ c ∧ c ≤ byte '9' then ({ s with step := Step.state1 }, Scan.scanBeginLiteral)
  else error s

/-- The function `stateBeginValueOrEmpty`. -/
def stateBeginValueOrEmpty (s : Scanner) (c : Nat) : Scanner × Scan :=
  if isSpace c then (s, Scan.scanSkipSpace)
  else if c = byte ']' then stateEndValue s c
  else stateBeginValue s c

/-- The function `stateBeginString`. -/
def stateBeginString (s : Scanner) (c : Nat) : Scanner × Scan :=
  if isSpace c then (s, Scan.scanSkipSpace)
  else if c = byte '"' then ({ s with step := Step.stateInString }, Scan.scanBeginLiteral)
  else error s

/-- The function `stateBeginStringOrEmpty`. -/
def stateBeginStringOrEmpty (s : Scanner) (c : Nat) : Scanner × Scan :=
  if isSpace c then (s, Scan.scanSkipSpace)
  else if c = byte '}' then
    stateEndValue { s with parseState := ParseState.parseObjectValue :: s.parseState.tail } c
  else stateBeginString s c

/-- The function `stateInString`. -/
def stateInString (s : Scanner) (c : Nat) : Scanner × Scan :=
  if c = byte '"' then ({ s with step := Step.stateEndValue }, Scan.scanContinue)
  else if c = byte '\\' then ({ s with step := Step.stateInStringEsc }, Scan.scanContinue)
  else if c < 0x20 then error s
  else (s, Scan.scanContinue)

/-- The function `stateInStringEsc`. -/
def stateInStringEsc (s : Scanner) (c : Nat) : Scanner × Scan :=
  if c = byte 'b' ∨ c = byte 'f' ∨ c = byte 'n' ∨ c = byte 'r' ∨ c = byte 't' ∨ c = byte '\\'
      ∨ c = byte '/' ∨ c = byte '"' then
    ({ s with step := Step.stateInString }, Scan.scanContinue)
  else if c = byte 'u' then ({ s with step := Step.stateInStringEscU }, Scan.scanContinue)
  else error s

/-- The test on a hexadecimal digit shared by the four `stateInStringEscU...` functions. -/
def isHex (c : Nat) : Bool :=
  decide ((byte '0' ≤ c ∧ c ≤ byte '9') ∨ (byte 'a' ≤ c ∧ c ≤ byte 'f')
    ∨ (byte 'A' ≤ c ∧ c ≤ byte 'F'))

/-- The functions that accept exactly one byte `want` and move on to `next`:
`stateTr`, `stateTru`, and so on. -/
def expectByte (s : Scanner) (c want : Nat) (next : Step) : Scanner × Scan :=
  if c = want then ({ s with step := next }, Scan.scanContinue) else error s

/-- The function `stateE0`. -/
def stateE0 (s : Scanner) (c : Nat) : Scanner × Scan :=
  if byte '0' ≤ c ∧ c ≤ byte '9' then (s, Scan.scanContinue) else stateEndValue s c

/-- The function `stateESign`. -/
def stateESign (s : Scanner) (c : Nat) : Scanner × Scan :=
  if byte '0' ≤ c ∧ c ≤ byte '9' then ({ s with step := Step.stateE0 }, Scan.scanContinue)
  else error s

/-- The function `stateE`. -/
def stateE (s : Scanner) (c : Nat) : Scanner × Scan :=
  if c = byte '+' ∨ c = byte '-' then ({ s with step := Step.stateESign }, Scan.scanContinue)
  else stateESign s c

/-- The function `stateDot0`. -/
def stateDot0 (s : Scanner) (c : Nat) : Scanner × Scan :=
  if byte '0' ≤ c ∧ c ≤ byte '9' then (s, Scan.scanContinue)
  else if c = byte 'e' ∨ c = byte 'E' then ({ s with step := Step.stateE }, Scan.scanContinue)
  else stateEndValue s c

/-- The function `stateDot`. -/
def stateDot (s : Scanner) (c : Nat) : Scanner × Scan :=
  if byte '0' ≤ c ∧ c ≤ byte '9' then ({ s with step := Step.stateDot0 }, Scan.scanContinue)
  else error s

/-- The function `state0`. -/
def state0 (s : Scanner) (c : Nat) : Scanner × Scan :=
  if c = byte '.' then ({ s with step := Step.stateDot }, Scan.scanContinue)
  else if c = byte 'e' ∨ c = byte 'E' then ({ s with step := Step.stateE }, Scan.scanContinue)
  else stateEndValue s c

/-- The function `state1`. -/
def state1 (s : Scanner) (c : Nat) : Scanner × Scan :=
  if byte '0' ≤ c ∧ c ≤ byte '9' then ({ s with step := Step.state1 }, Scan.scanContinue)
  else state0 s c

/-- The function `stateNeg`. -/
def stateNeg (s : Scanner) (c : Nat) : Scanner × Scan :=
  if c = byte '0' then ({ s with step := Step.state0 }, Scan.scanContinue)
  else if byte '1' ≤ c ∧ c ≤ byte '9' then ({ s with step := Step.state1 }, Scan.scanContinue)
  else error s

/-- The call `s.step(s, c)`: run the transition function `s.step` names. -/
def step (s : Scanner) (c : Nat) : Scanner × Scan :=
  match s.step with
  | Step.stateBeginValueOrEmpty => stateBeginValueOrEmpty s c
  | Step.stateBeginValue => stateBeginValue s c
  | Step.stateBeginStringOrEmpty => stateBeginStringOrEmpty s c
  | Step.stateBeginString => stateBeginString s c
  | Step.stateEndValue => stateEndValue s c
  | Step.stateEndTop => stateEndTop s c
  | Step.stateInString => stateInString s c
  | Step.stateInStringEsc => stateInStringEsc s c
  | Step.stateInStringEscU =>
    if isHex c then ({ s with step := Step.stateInStringEscU1 }, Scan.scanContinue) else error s
  | Step.stateInStringEscU1 =>
    if isHex c then ({ s with step := Step.stateInStringEscU12 }, Scan.scanContinue) else error s
  | Step.stateInStringEscU12 =>
    if isHex c then ({ s with step := Step.stateInStringEscU123 }, Scan.scanContinue)
    else error s
  | Step.stateInStringEscU123 =>
    if isHex c then ({ s with step := Step.stateInString }, Scan.scanContinue) else error s
  | Step.stateNeg => stateNeg s c
  | Step.state1 => state1 s c
  | Step.state0 => state0 s c
  | Step.stateDot => stateDot s c
  | Step.stateDot0 => stateDot0 s c
  | Step.stateE => stateE s c
  | Step.stateESign => stateESign s c
  | Step.stateE0 => stateE0 s c
  | Step.stateT => expectByte s c (byte 'r') Step.stateTr
  | Step.stateTr => expectByte s c (byte 'u') Step.stateTru
  | Step.stateTru => expectByte s c (byte 'e') Step.stateEndValue
  | Step.stateF => expectByte s c (byte 'a') Step.stateFa
  | Step.stateFa => expectByte s c (byte 'l') Step.stateFal
  | Step.stateFal => expectByte s c (byte 's') Step.stateFals
  | Step.stateFals => expectByte s c (byte 'e') Step.stateEndValue
  | Step.stateN => expectByte s c (byte 'u') Step.stateNu
  | Step.stateNu => expectByte s c (byte 'l') Step.stateNul
  | Step.stateNul => expectByte s c (byte 'l') Step.stateEndValue
  | Step.stateError => (s, Scan.scanError)

/-- The method `scanner.eof`: `true` stands for `scanEnd`, `false` for `scanError`. -/
def eof (s : Scanner) : Bool :=
  if s.err then false
  else if s.endTop then true
  else (step s (byte ' ')).1.endTop

/-- The loop of `checkValid`: feed the bytes to the scanner, stop at the first
`scanError`, ask `eof` at the end. `true` stands for the result `nil`. -/
def checkValidFrom (s : Scanner) : Bytes → Bool
  | [] => eof s
  | c :: rest =>
    let r := step s c
    if r.2 = Scan.scanError then false else checkValidFrom r.1 rest

/-- The function `checkValid`: whether `data` is a valid JSON text for the scanner. -/
def checkValid (data : Bytes) : Bool := checkValidFrom reset data

/-- The call `json.Unmarshal(data, &js)` with `js` a `json.RawMessage`, as `err == nil`:
`Unmarshal` fails when `checkValid` does, and storing a checked value into a `RawMessage`
cannot fail. -/
def UnmarshalRawOk (data : Bytes) : Bool := checkValid data

end json

/-! ## `dataformat.go` -/

/-- The literal `"<?xml version="` looked for by `IsXML`. -/
def xmlDecl : Bytes := lit "<?xml version="

/-- The function `IsXML` checks whether bytes are in XML format. -/
def IsXML (b : Bytes) : Bool :=
  let str := b
  let idx := strings.Index (strings.TrimSpace str) xmlDecl
  if idx = 0 ∨ idx = 1 then true
  else if !(strings.Contains str (lit ">") && strings.Contains str (lit "<")) then false
  else if strings.Count str (lit "<") ≥ strings.Count str (lit "</") + strings.Count str (lit "/>")
  then true
  else false

/-- The function `IsJSON` checks whether bytes are in JSON format: `err == nil` for the
call `json.Unmarshal([]byte(b), &js)`. -/
def IsJSON (b : Bytes) : Bool :=
  json.UnmarshalRawOk b

/-- The list `shouldContain` of `IsHTML`. -/
def shouldContain : List Bytes :=
  [lit "<!doctype html>", lit "</head>", lit "</html>", lit "</body>", lit "</title>",
    lit "</a>", lit "</div>"]

/-- The function `IsHTML` checks whether bytes are in HTML format. The Unicode case tables
used by `strings.ToLower` are the parameter `caseTable`. -/
def IsHTML (caseTable : Nat → Nat) (b : Bytes) : Bool :=
  let confidenceLevel := 3
  let points := shouldContain.foldl
    (fun points s =>
      if strings.Contains (strings.ToLower caseTable b) s then points + 1 else points) 0
  decide (points ≥ confidenceLevel)

/-- The function `IsYAML` checks whether bytes are in YAML format. The parameter
`yamlStrict` is the call `yaml.UnmarshalWithOptions([]byte(b), &y, yaml.Strict()) == nil` of
the library `goccy/go-yaml`. -/
def IsYAML (yamlStrict : Bytes → Bool) (b : Bytes) : Bool :=
  if IsJSON b then false
  else if IsXML b then false
  else if !strings.Contains b (lit ":") then false
  else yamlStrict b

/-- The function `IsPlainText` checks whether bytes are in plain text format. -/
def IsPlainText (b : Bytes) : Bool :=
  if IsJSON b then false
  else decide (b.length > 0)

/-- Changing an ASCII lower-case letter to upper case, every other byte unchanged. -/
def upperByte (c : Nat) : Nat :=
  if byte 'a' ≤ c ∧ c ≤ byte 'z' then c - (byte 'a' - byte 'A') else c

/-- Changing an ASCII upper-case letter to lower case, every other byte unchanged. -/
def lowerByte (c : Nat) : Nat :=
  if byte 'A' ≤ c ∧ c ≤ byte 'Z' then c + (byte 'a' - byte 'A') else c

/-- The type `DataFormat` with its five pre-defined values `JSON`, `YAML`, `XML`, `HTML`
and `PlainText`. -/
inductive DataFormat
  | JSON | YAML | XML | HTML | PlainText
  deriving DecidableEq, Repr

/-! ## Notions of the specification -/

/-- The first-match classification the specification asks callers to compose from the five
predicates, in the precedence order JSON, XML, HTML, YAML, PlainText; `none` when no
predicate holds. It is not a function of `dataformat.go`. -/
def firstMatch (caseTable : Nat → Nat) (yamlStrict : Bytes → Bool) (b : Bytes) :
    Option DataFormat :=
  if IsJSON b then some DataFormat.JSON
  else if IsXML b then some DataFormat.XML
  else if IsHTML caseTable b then some DataFormat.HTML
  else if IsYAML yamlStrict b then some DataFormat.YAML
  else if IsPlainText b then some DataFormat.PlainText
  else none

/-- The number of `<` bytes of `s` that are not immediately followed by `/`. -/
def openCount : Bytes → Nat
  | [] => 0
  | c :: t =>
    (if c = byte '<' ∧ t.head? ≠ some (byte '/') then 1 else 0) + openCount t

/-- A string of blanks: only space, tab, CR and LF. -/
def isBlank (w : Bytes) : Prop :=
  ∀ c ∈ w, c = byte ' ' ∨ c = byte '\t' ∨ c = byte '\r' ∨ c = byte '\n'

/-- A property of the Unicode case tables: no rune above U+007F has `<` or `>` as its
lower case. -/
def keepsTagBytes (caseTable : Nat → Nat) : Prop :=
  ∀ r : Nat, 0x7F < r → caseTable r ≠ byte '<' ∧ caseTable r ≠ byte '>'

/-! ## The grammar of JSON texts (RFC 8259), on bytes -/

/-- JSON white space `ws`: any number of spaces, tabs, line feeds and carriage returns. -/
def JWs (w : Bytes) : Prop :=
  ∀ c ∈ w, c = byte ' ' ∨ c = byte '\t' ∨ c = byte '\n' ∨ c = byte '\r'

/-- A decimal digit `0` to `9`. -/
def isDigit (c : Nat) : Prop := byte '0' ≤ c ∧ c ≤ byte '9'

/-- A hexadecimal digit. -/
def isHexDigit (c : Nat) : Prop :=
  (byte '0' ≤ c ∧ c ≤ byte '9') ∨ (byte 'a' ≤ c ∧ c ≤ byte 'f') ∨ (byte 'A' ≤ c ∧ c ≤ byte 'F')

/-- A possibly empty run of decimal digits. -/
def JDigits (w : Bytes) : Prop := ∀ c ∈ w, isDigit c

/-- The characters between the quotes of a JSON string, in the grammar taken on bytes:
bytes from `0x20` on other than `"` and `\`, the two-byte escapes, and `\u` with four
hexadecimal digits. Bytes from `0x80` on are taken as they are: that they encode characters
in UTF-8 is no part of this grammar, it is the separate requirement of `ValidJSON`. -/
inductive JChars : Bytes → Prop
  | nil : JChars []
  | plain (c : Nat) (rest : Bytes) :
      0x20 ≤ c → c ≠ byte '"' → c ≠ byte '\\' → JChars rest → JChars (c :: rest)
  | escape (c : Nat) (rest : Bytes) :
      (c = byte '"' ∨ c = byte '\\' ∨ c = byte '/' ∨ c = byte 'b' ∨ c = byte 'f'
        ∨ c = byte 'n' ∨ c = byte 'r' ∨ c = byte 't') →
      JChars rest → JChars (byte '\\' :: c :: rest)
  | unicode (h1 h2 h3 h4 : Nat) (rest : Bytes) :
      isHexDigit h1 → isHexDigit h2 → isHexDigit h3 → isHexDigit h4 →
      JChars rest → JChars (byte '\\' :: byte 'u' :: h1 :: h2 :: h3 :: h4 :: rest)

/-- A JSON string: characters between two quotes. -/
def JString (w : Bytes) : Prop := ∃ body, w = byte '"' :: body ++ [byte '"'] ∧ JChars body

/-- The integer part of a number: `0`, or a digit from `1` to `9` and more digits. -/
def JInt (w : Bytes) : Prop :=
  w = [byte '0'] ∨ ∃ d ds, w = d :: ds ∧ byte '1' ≤ d ∧ d ≤ byte '9' ∧ JDigits ds

/-- The optional fraction of a number: `.` and one digit or more. -/
def JFrac (w : Bytes) : Prop :=
  w = [] ∨ ∃ ds, w = byte '.' :: ds ∧ ds ≠ [] ∧ JDigits ds

/-- The optional exponent of a number: `e` or `E`, an optional sign, one digit or more. -/
def JExp (w : Bytes) : Prop :=
  w = [] ∨ ∃ e sign ds, w = e :: (sign ++ ds) ∧ (e = byte 'e' ∨ e = byte 'E')
    ∧ (sign = [] ∨ sign = [byte '+'] ∨ sign = [byte '-']) ∧ ds ≠ [] ∧ JDigits ds

/-- A JSON number: an optional `-`, the integer part, the fraction, the exponent. -/
def JNumber (w : Bytes) : Prop :=
  ∃ m i f e, w = m ++ i ++ f ++ e ∧ (m = [] ∨ m = [byte '-']) ∧ JInt i ∧ JFrac f ∧ JExp e

/-- The three syntactic categories of the grammar that refer to each other. -/
inductive Kind
  | value | elements | members

/-- The grammar of JSON values, of the elements of an array and of the members of an
object. `JDerive k d w` says that `w` is of category `k` with arrays and objects nested at
most `d` deep. -/
inductive JDerive : Kind → Nat → Bytes → Prop
  | string (d : Nat) (w : Bytes) : JString w → JDerive Kind.value d w
  | number (d : Nat) (w : Bytes) : JNumber w → JDerive Kind.value d w
  | litTrue (d : Nat) : JDerive Kind.value d (lit "true")
  | litFalse (d : Nat) : JDerive Kind.value d (lit "false")
  | litNull (d : Nat) : JDerive Kind.value d (lit "null")
  | emptyArray (d : Nat) (a : Bytes) :
      JWs a → JDerive Kind.value (d + 1) (byte '[' :: a ++ [byte ']'])
  | array (d : Nat) (e : Bytes) :
      JDerive Kind.elements d e → JDerive Kind.value (d + 1) (byte '[' :: e ++ [byte ']'])
  | emptyObject (d : Nat) (a : Bytes) :
      JWs a → JDerive Kind.value (d + 1) (byte '{' :: a ++ [byte '}'])
  | object (d : Nat) (m : Bytes) :
      JDerive Kind.members d m → JDerive Kind.value (d + 1) (byte '{' :: m ++ [byte '}'])
  | element (d : Nat) (a v b : Bytes) :
      JWs a → JDerive Kind.value d v → JWs b → JDerive Kind.elements d (a ++ v ++ b)
  | elements (d : Nat) (a v b rest : Bytes) :
      JWs a → JDerive Kind.value d v → JWs b → JDerive Kind.elements d rest →
      JDerive Kind.elements d (a ++ v ++ b ++ byte ',' :: rest)
  | member (d : Nat) (a k b c v e : Bytes) :
      JWs a → JString k → JWs b → JWs c → JDerive Kind.value d v → JWs e →
      JDerive Kind.members d (a ++ k ++ b ++ byte ':' :: (c ++ v ++ e))
  | members (d : Nat) (a k b c v e rest : Bytes) :
      JWs a → JString k → JWs b → JWs c → JDerive Kind.value d v → JWs e →
      JDerive Kind.members d rest →
      JDerive Kind.members d (a ++ k ++ b ++ byte ':' :: (c ++ v ++ e) ++ byte ',' :: rest)

/-- A JSON value with arrays and objects nested at most `d` deep. -/
def JValue (d : Nat) (w : Bytes) : Prop := JDerive Kind.value d w

/-- A JSON text of the grammar taken on bytes, with nesting at most `d`: one value, white
space allowed around it, nothing else. The bytes need not be UTF-8. -/
def JText (d : Nat) (w : Bytes) : Prop :=
  ∃ a v b, w = a ++ v ++ b ∧ JWs a ∧ JValue d v ∧ JWs b

/-- A syntactically valid JSON text (RFC 8259) with nesting at most `d`: well-formed UTF-8
that follows the grammar. -/
def ValidJSONWithin (d : Nat) (w : Bytes) : Prop :=
  JText d w ∧ utf8.ValidString w = true

/-- A syntactically valid JSON text (RFC 8259), of any nesting depth: well-formed UTF-8
that follows the grammar. -/
def ValidJSON (w : Bytes) : Prop := ∃ d, ValidJSONWithin d w

/-- The scanner in the state `st` with the parse-state stack `σ`, no error recorded and
`endTop` unset. -/
def cfg (st : json.Step) (σ : List json.ParseState) : json.Scanner :=
  { step := st, parseState := σ, err := false, endTop := false }

/-- The scanner after the top-level value was closed by `]` or `}`. -/
def cfgTop : json.Scanner :=
  { step := json.Step.stateEndTop, parseState := [], err := false, endTop := true }

/-- Whether the scanner, started in the state `st` with the stack `σ`, accepts `w` as the
rest of a JSON text. -/
def acc (st : json.Step) (σ : List json.ParseState) (w : Bytes) : Bool :=
  json.checkValidFrom (cfg st σ) w

/-- A rest of the input that cannot continue a number: it is empty, or its first byte is
neither a digit nor `.`, `e` or `E`. -/
def NumEnd (w : Bytes) : Prop :=
  ∀ c ∈ w.head?, ¬ (byte '0' ≤ c ∧ c ≤ byte '9') ∧ c ≠ byte '.' ∧ ¬ (c = byte 'e' ∨ c = byte 'E')

/-- What the scanner does on a string of the grammar, by syntactic category: it passes
over a value, over the elements of an array up to the closing `]`, and over the members of an
object up to the closing `}`, as long as the nesting stays within `maxNestingDepth`. -/
def Complete (k : Kind) (d : Nat) (w : Bytes) : Prop :=
  match k with
  | Kind.value => ∀ (σ : List json.ParseState) (rest : Bytes),
      σ.length + d ≤ json.maxNestingDepth → NumEnd rest →
      acc json.Step.stateBeginValue σ (w ++ rest) = acc json.Step.stateEndValue σ rest
  | Kind.elements => ∀ (σ : List json.ParseState) (rest : Bytes),
      σ.length + 1 + d ≤ json.maxNestingDepth →
      acc json.Step.stateBeginValue (json.ParseState.parseArrayValue :: σ)
          (w ++ byte ']' :: rest)
        = acc json.Step.stateEndValue σ rest
  | Kind.members => ∀ (σ : List json.ParseState) (rest : Bytes),
      σ.length + 1 + d ≤ json.maxNestingDepth →
      acc json.Step.stateBeginString (json.ParseState.parseObjectKey :: σ)
          (w ++ byte '}' :: rest)
        = acc json.Step.stateEndValue σ rest

/-- What the scanner accepts where a value begins is white space, a value of the grammar
and what the scanner accepts behind a value. -/
def SoundValue (σ : List json.ParseState) (w : Bytes) : Prop :=
  acc json.Step.stateBeginValue σ w = true →
    ∃ a v rest, w = a ++ (v ++ rest) ∧ JWs a
      ∧ JDerive Kind.value (json.maxNestingDepth - σ.length) v
      ∧ acc json.Step.stateEndValue σ rest = true

/-- What the scanner accepts where an element of an array begins is elements of the
grammar, `]` and what the scanner accepts behind the array. -/
def SoundElements (σ : List json.ParseState) (w : Bytes) : Prop :=
  acc json.Step.stateBeginValue (json.ParseState.parseArrayValue :: σ) w = true →
    ∃ e rest, w = e ++ byte ']' :: rest
      ∧ JDerive Kind.elements (json.maxNestingDepth - (σ.length + 1)) e
      ∧ acc json.Step.stateEndValue σ rest = true

/-- What the scanner accepts where a member of an object begins is members of the grammar,
`}` and what the scanner accepts behind the object. -/
def SoundMembers (σ : List json.ParseState) (w : Bytes) : Prop :=
  acc json.Step.stateBeginString (json.ParseState.parseObjectKey :: σ) w = true →
    ∃ m rest, w = m ++ byte '}' :: rest
      ∧ JDerive Kind.members (json.maxNestingDepth - (σ.length + 1)) m
      ∧ acc json.Step.stateEndValue σ rest = true

/-- The text of `n` opening brackets followed by `n` closing brackets: empty arrays nested
`n` deep. -/
def nested (n : Nat) : Bytes :=
  List.replicate n (byte '[') ++ List.replicate n (byte ']')

/-! ## Facts about `strings.Index`, `strings.Contains` and `strings.Count` -/

theorem Index_neg_or_nonneg (s p : Bytes) : strings.Index s p = -1 ∨ 0 ≤ strings.Index s p := by
  induction s with
  | nil => unfold strings.Index; split <;> simp
  | cons c t ih =>
    unfold strings.Index
    by_cases h : p.isPrefixOf (c :: t) = true
    · simp [h]
    · simp only [h, Bool.false_eq_true, if_false]
      rcases ih with ih | ih
      · simp [ih]
      · right
        rw [if_neg (by omega)]
        omega

/-- The result of `strings.Index` is 0 exactly when `p` starts `s`. -/
theorem Index_eq_zero_iff (s p : Bytes) : strings.Index s p = 0 ↔ p <+: s := by
  cases s with
  | nil => unfold strings.Index; split <;> simp_all
  | cons c t =>
    unfold strings.Index
    by_cases h : p.isPrefixOf (c :: t) = true
    · simpa [h] using List.isPrefixOf_iff_prefix.1 h
    · have h2 : ¬ p <+: c :: t := fun hp => h (List.isPrefixOf_iff_prefix.2 hp)
      simp only [h, Bool.false_eq_true, if_false]
      rcases Index_neg_or_nonneg t p with ih | ih
      · simp [ih, h2]
      · rw [if_neg (by omega)]
        constructor
        · intro h0; omega
        · intro hp; exact absurd hp h2

/-- The result of `strings.Index` is 1 exactly when `p` does not start `s` and starts the rest
of `s` behind its first byte. -/
theorem Index_eq_one_iff (s p : Bytes) (hp : p ≠ []) :
    strings.Index s p = 1 ↔ ¬ p <+: s ∧ p <+: s.drop 1 := by
  cases s with
  | nil => unfold strings.Index; simp [hp]
  | cons c t =>
    unfold strings.Index
    by_cases h : p.isPrefixOf (c :: t) = true
    · have h2 : p <+: c :: t := List.isPrefixOf_iff_prefix.1 h
      simp [h, h2]
    · have h2 : ¬ p <+: c :: t := fun hp => h (List.isPrefixOf_iff_prefix.2 hp)
      simp only [h, Bool.false_eq_true, if_false, List.drop_succ_cons, List.drop_zero]
      rw [← Index_eq_zero_iff t p]
      rcases Index_neg_or_nonneg t p with ih | ih
      · simp [ih]
      · rw [if_neg (by omega)]
        constructor
        · intro h0; exact ⟨h2, by omega⟩
        · intro h0; omega

/-- The function `strings.Contains` decides whether `p` is a contiguous part of `s`. -/
theorem Contains_iff_part (s p : Bytes) : strings.Contains s p = true ↔ p <:+: s := by
  unfold strings.Contains
  rw [decide_eq_true_iff]
  induction s with
  | nil => unfold strings.Index; split <;> simp_all
  | cons c t ih =>
    unfold strings.Index
    rw [List.infix_cons_iff]
    by_cases h : p.isPrefixOf (c :: t) = true
    · have h2 : p <+: c :: t := List.isPrefixOf_iff_prefix.1 h
      simp [h, h2]
    · have h2 : ¬ p <+: c :: t := fun hp => h (List.isPrefixOf_iff_prefix.2 hp)
      simp only [h, Bool.false_eq_true, if_false, h2, false_or, ← ih]
      rcases Index_neg_or_nonneg t p with ih2 | ih2
      · simp [ih2]
      · rw [if_neg (by omega)]
        constructor <;> intro <;> omega

/-- A one-byte string is contained in `s` exactly when the byte occurs in `s`. -/
theorem Contains_singleton_iff (s : Bytes) (c : Nat) : strings.Contains s [c] = true ↔ c ∈ s := by
  rw [Contains_iff_part]
  constructor
  · intro h
    exact h.subset (List.mem_singleton_self c)
  · intro h
    obtain ⟨a, b, rfl⟩ := List.append_of_mem h
    exact ⟨a, b, by simp⟩

/-- Passing over `k` bytes before counting is counting in the string without them. -/
theorem countFrom_skip (p : Bytes) (k : Nat) (s : Bytes) :
    strings.countFrom p k s = strings.countFrom p 0 (s.drop k) := by
  induction k generalizing s with
  | zero => simp
  | succ k ih =>
    cases s with
    | nil => simp [strings.countFrom]
    | cons c t => simp only [strings.countFrom, List.drop_succ_cons]; exact ih t

/-- The scan `countFrom` obeys the loop of `strings.Count`: no instance gives 0, otherwise
the first instance counts once and the count goes on in `s[i+len(substr):]`. -/
theorem countFrom_loop (p : Bytes) (hp : p ≠ []) (s : Bytes) :
    strings.countFrom p 0 s =
      if strings.Index s p = -1 then 0
      else 1 + strings.countFrom p 0 (s.drop ((strings.Index s p).toNat + p.length)) := by
  have hlen : 1 ≤ p.length := List.length_pos.2 hp
  induction s with
  | nil => simp [strings.countFrom, strings.Index, hp]
  | cons c t ih =>
    unfold strings.Index
    by_cases h : p.isPrefixOf (c :: t) = true
    · simp only [strings.countFrom, h, if_true]
      rw [countFrom_skip]
      have : (0 : Int).toNat + p.length = (p.length - 1) + 1 := by simp; omega
      rw [if_neg (by decide), this, List.drop_succ_cons]
    · simp only [strings.countFrom, h, Bool.false_eq_true, if_false]
      rw [ih]
      rcases Index_neg_or_nonneg t p with h1 | h1
      · simp [h1]
      · rw [if_neg (by omega), if_neg (by omega), if_neg (by omega)]
        have : (strings.Index t p + 1).toNat + p.length
            = ((strings.Index t p).toNat + p.length) + 1 := by omega
        rw [this, List.drop_succ_cons]

/-! ## `IsXML` -/

/-- The declaration test of `IsXML` succeeds exactly when `<?xml version=` stands at offset 0
or at offset 1 of the trimmed buffer. -/
theorem xmlDecl_index_iff (t : Bytes) :
    (strings.Index t xmlDecl = 0 ∨ strings.Index t xmlDecl = 1) ↔
      (xmlDecl <+: t ∨ xmlDecl <+: t.drop 1) := by
  have hne : xmlDecl ≠ [] := by decide
  rw [Index_eq_zero_iff, Index_eq_one_iff t xmlDecl hne]
  tauto

/-- With the declaration test passed, `IsXML` answers true. -/
theorem IsXML_of_decl (b : Bytes)
    (h : strings.Index (strings.TrimSpace b) xmlDecl = 0 ∨
      strings.Index (strings.TrimSpace b) xmlDecl = 1) : IsXML b = true := by
  unfold IsXML
  simp only [h, if_true]

/-- With the declaration test failed, `IsXML` is the tag-count test. -/
theorem IsXML_of_not_decl (b : Bytes)
    (h : ¬ (strings.Index (strings.TrimSpace b) xmlDecl = 0 ∨
      strings.Index (strings.TrimSpace b) xmlDecl = 1)) :
    IsXML b = (strings.Contains b (lit ">") && strings.Contains b (lit "<") &&
      decide (strings.Count b (lit "</") + strings.Count b (lit "/>")
        ≤ strings.Count b (lit "<"))) := by
  unfold IsXML
  simp only [h, if_false]
  by_cases h1 : (strings.Contains b (lit ">") && strings.Contains b (lit "<")) = true
  · by_cases h2 : strings.Count b (lit "</") + strings.Count b (lit "/>")
        ≤ strings.Count b (lit "<")
    · simp [h1, h2]
    · simp [h1, h2]
  · simp only [Bool.not_eq_true] at h1
    simp [h1]

theorem lit_gt : lit ">" = [byte '>'] := by decide

theorem lit_lt : lit "<" = [byte '<'] := by decide

/-- Claim C1: when `<?xml version=` stands neither at offset 0 nor at offset 1 of the trimmed
buffer, `IsXML b` is true exactly when `b` has a `<`, has a `>`, and has at least as many `<`
as `</` and `/>` together; `"plain text"` is rejected and `"<a><b></b></a>"` is accepted. -/
theorem C1_IsXML_tag_count :
    (∀ b : Bytes, ¬ xmlDecl <+: strings.TrimSpace b → ¬ xmlDecl <+: (strings.TrimSpace b).drop 1 →
      (IsXML b = true ↔
        byte '<' ∈ b ∧ byte '>' ∈ b ∧
          strings.Count b (lit "<") ≥ strings.Count b (lit "</") + strings.Count b (lit "/>")))
    ∧ (∀ b : Bytes, ¬ xmlDecl <+: strings.TrimSpace b →
        ¬ xmlDecl <+: (strings.TrimSpace b).drop 1 →
        (byte '<' ∉ b ∨ byte '>' ∉ b) → IsXML b = false)
    ∧ IsXML (lit "plain text") = false
    ∧ IsXML (lit "<a><b></b></a>") = true := by
  have key : ∀ b : Bytes, ¬ xmlDecl <+: strings.TrimSpace b →
      ¬ xmlDecl <+: (strings.TrimSpace b).drop 1 →
      (IsXML b = true ↔
        byte '<' ∈ b ∧ byte '>' ∈ b ∧
          strings.Count b (lit "<") ≥ strings.Count b (lit "</") + strings.Count b (lit "/>")) := by
    intro b h0 h1
    have hd : ¬ (strings.Index (strings.TrimSpace b) xmlDecl = 0 ∨
        strings.Index (strings.TrimSpace b) xmlDecl = 1) := by
      rw [xmlDecl_index_iff]
      tauto
    rw [IsXML_of_not_decl b hd, Bool.and_eq_true, Bool.and_eq_true, decide_eq_true_iff,
      lit_gt, lit_lt, Contains_singleton_iff, Contains_singleton_iff]
    tauto
  refine ⟨key, ?_, by decide, by decide⟩
  intro b h0 h1 h2
  have := key b h0 h1
  cases hx : IsXML b
  · rfl
  · rw [hx] at this
    have h3 := this.1 rfl
    rcases h2 with h2 | h2
    · exact absurd h3.1 h2
    · exact absurd h3.2.1 h2

/-- Claim C1 applied to the buffer `"<a/>/>"`, where the closing markers outnumber `<`. -/
theorem C1_IsXML_tag_count_witness :
    ¬ xmlDecl <+: strings.TrimSpace (lit "<a/>/>") ∧
    ¬ xmlDecl <+: (strings.TrimSpace (lit "<a/>/>")).drop 1 ∧
    (IsXML (lit "<a/>/>") = true ↔
      byte '<' ∈ lit "<a/>/>" ∧ byte '>' ∈ lit "<a/>/>" ∧
        strings.Count (lit "<a/>/>") (lit "<") ≥
          strings.Count (lit "<a/>/>") (lit "</") + strings.Count (lit "<a/>/>") (lit "/>")) :=
  ⟨by decide, by decide, C1_IsXML_tag_count.1 (lit "<a/>/>") (by decide) (by decide)⟩

/-- Claim C2: when the first `<?xml version=` of the trimmed buffer is at offset 0 or 1,
`IsXML b` is true whatever else `b` holds: also without any `>`, and also with more closing
markers than `<`; `IsXML("<?xml version=\"1.0\"?><a/>")` is true. -/
theorem C2_IsXML_declaration :
    (∀ b : Bytes,
      (strings.Index (strings.TrimSpace b) xmlDecl = 0 ∨
        strings.Index (strings.TrimSpace b) xmlDecl = 1) → IsXML b = true)
    ∧ (byte '>' ∉ lit " x<?xml version=" ∧ IsXML (lit " x<?xml version=") = true)
    ∧ (strings.Count (lit "<?xml version=/>/>") (lit "<") <
        strings.Count (lit "<?xml version=/>/>") (lit "</") +
          strings.Count (lit "<?xml version=/>/>") (lit "/>") ∧
        IsXML (lit "<?xml version=/>/>") = true)
    ∧ IsXML (lit "<?xml version=\"1.0\"?><a/>") = true :=
  ⟨IsXML_of_decl, ⟨by decide, by decide⟩, ⟨by decide, by decide⟩, by decide⟩

/-- Claim C2 applied to a buffer with one byte before the declaration and no `>`. -/
theorem C2_IsXML_declaration_witness :
    (strings.Index (strings.TrimSpace (lit "\t?<?xml version=")) xmlDecl = 0 ∨
      strings.Index (strings.TrimSpace (lit "\t?<?xml version=")) xmlDecl = 1) ∧
    IsXML (lit "\t?<?xml version=") = true :=
  ⟨by decide, C2_IsXML_declaration.1 (lit "\t?<?xml version=") (by decide)⟩

/-- Claim C3, refuted as stated: `"<a><b>"` has no declaration, has `<` and `>`, has strictly
fewer closing markers than `<`, and `IsXML` accepts it. -/
theorem C3_unclosed_accepted :
    ¬ (strings.Index (strings.TrimSpace (lit "<a><b>")) xmlDecl = 0 ∨
        strings.Index (strings.TrimSpace (lit "<a><b>")) xmlDecl = 1) ∧
    byte '<' ∈ lit "<a><b>" ∧ byte '>' ∈ lit "<a><b>" ∧
    strings.Count (lit "<a><b>") (lit "</") + strings.Count (lit "<a><b>") (lit "/>") <
      strings.Count (lit "<a><b>") (lit "<") ∧
    ¬ IsXML (lit "<a><b>") = false := by
  decide

/-- Claim C3, amended: `IsXML("<a><b>")` is true; for a buffer without declaration that has
`<` and `>`, `IsXML` is true when the number of `<` equals the number of closing markers, true
when the closing markers are strictly fewer, and false when they are strictly more. -/
theorem C3_IsXML_boundary :
    IsXML (lit "<a><b>") = true
    ∧ ∀ b : Bytes,
      ¬ (strings.Index (strings.TrimSpace b) xmlDecl = 0 ∨
        strings.Index (strings.TrimSpace b) xmlDecl = 1) →
      byte '<' ∈ b → byte '>' ∈ b →
      (strings.Count b (lit "<") = strings.Count b (lit "</") + strings.Count b (lit "/>") →
        IsXML b = true)
      ∧ (strings.Count b (lit "</") + strings.Count b (lit "/>") < strings.Count b (lit "<") →
        IsXML b = true)
      ∧ (strings.Count b (lit "<") < strings.Count b (lit "</") + strings.Count b (lit "/>") →
        IsXML b = false) := by
  refine ⟨by decide, ?_⟩
  intro b hd hl hg
  have h1 : strings.Contains b (lit ">") = true := by
    rw [lit_gt, Contains_singleton_iff]; exact hg
  have h2 : strings.Contains b (lit "<") = true := by
    rw [lit_lt, Contains_singleton_iff]; exact hl
  rw [IsXML_of_not_decl b hd, h1, h2]
  refine ⟨fun h => ?_, fun h => ?_, fun h => ?_⟩
  · simp [h]
  · simp [h.le]
  · simp [h]

/-- Claim C3 (amended) applied to `"<a></a/>"`, where `<` and the closing markers tie. -/
theorem C3_IsXML_boundary_witness :
    strings.Count (lit "<a></a/>") (lit "<") =
      strings.Count (lit "<a></a/>") (lit "</") + strings.Count (lit "<a></a/>") (lit "/>")
    ∧ IsXML (lit "<a></a/>") = true :=
  ⟨by decide,
    (C3_IsXML_boundary.2 (lit "<a></a/>") (by decide) (by decide) (by decide)).1 (by decide)⟩

/-! ## `IsHTML` -/

/-- The loop of `IsHTML` adds one point for each element of the list that passes the test. -/
theorem points_foldl (q : Bytes → Bool) (l : List Bytes) (k : Nat) :
    l.foldl (fun points s => if q s then points + 1 else points) k = k + l.countP q := by
  induction l generalizing k with
  | nil => simp
  | cons a t ih =>
    rw [List.foldl_cons, ih, List.countP_cons]
    by_cases h : q a = true
    · simp [h]; omega
    · simp [h]

/-- The function `IsHTML` sees the buffer only through `strings.ToLower`. -/
theorem IsHTML_congr (caseTable : Nat → Nat) (b c : Bytes)
    (h : strings.ToLower caseTable b = strings.ToLower caseTable c) :
    IsHTML caseTable b = IsHTML caseTable c := by
  unfold IsHTML
  rw [h]

theorem lowerByte_upperByte (c : Nat) : lowerByte (upperByte c) = lowerByte c := by
  unfold lowerByte upperByte byte
  simp only [Char.reduceToNat]
  split_ifs <;> omega

theorem lowerByte_lowerByte (c : Nat) : lowerByte (lowerByte c) = lowerByte c := by
  unfold lowerByte byte
  simp only [Char.reduceToNat]
  split_ifs <;> omega

theorem upperByte_lt (c : Nat) (h : c < 128) : upperByte c < 128 := by
  unfold upperByte byte
  simp only [Char.reduceToNat]
  split_ifs <;> omega

theorem lowerByte_lt (c : Nat) (h : c < 128) : lowerByte c < 128 := by
  unfold lowerByte byte
  simp only [Char.reduceToNat]
  split_ifs <;> omega

/-- On an ASCII-only string `strings.ToLower` lowers every byte. -/
theorem ToLower_ascii (caseTable : Nat → Nat) (b : Bytes) (h : ∀ c ∈ b, c < 128) :
    strings.ToLower caseTable b = b.map lowerByte := by
  unfold strings.ToLower
  have h1 : b.all (fun c => decide (c < utf8.RuneSelf)) = true := by
    rw [List.all_eq_true]
    intro x hx
    simpa [utf8.RuneSelf] using h x hx
  simp only [h1, if_true]
  by_cases h2 : b.any (fun c => decide (byte 'A' ≤ c ∧ c ≤ byte 'Z')) = true
  · simp only [h2, Bool.not_true, Bool.false_eq_true, if_false]
    rfl
  · simp only [Bool.not_eq_true] at h2
    simp only [h2, Bool.not_false, if_true]
    rw [List.any_eq_false] at h2
    symm
    calc b.map lowerByte = b.map id := by
          apply List.map_congr_left
          intro x hx
          have := h2 x hx
          unfold lowerByte
          simp only [decide_eq_true_eq] at this
          simp [this]
      _ = b := List.map_id b

set_option maxRecDepth 100000 in
/-- Claim C4: `IsHTML b` is true exactly when at least 3 of the 7 distinct markers are
contiguous parts of the lower-cased `b`, a repeated marker counting once;
`"</div></div></div></a>"` and `"<div>hello</div>"` are rejected and the sample document is
accepted. -/
theorem C4_IsHTML_three_markers :
    shouldContain = [lit "<!doctype html>", lit "</head>", lit "</html>", lit "</body>",
      lit "</title>", lit "</a>", lit "</div>"]
    ∧ shouldContain.toFinset.card = 7
    ∧ (∀ (caseTable : Nat → Nat) (b : Bytes),
        IsHTML caseTable b = true ↔
          3 ≤ (shouldContain.toFinset.filter
            (fun m => m <:+: strings.ToLower caseTable b)).card)
    ∧ (∀ caseTable : Nat → Nat, IsHTML caseTable (lit "</div></div></div></a>") = false)
    ∧ (∀ caseTable : Nat → Nat, IsHTML caseTable (lit "<div>hello</div>") = false)
    ∧ (∀ caseTable : Nat → Nat, IsHTML caseTable
        (lit "<!doctype html><html><head></head><body><div></div></body></html>") = true) := by
  have hnd : shouldContain.Nodup := by decide
  refine ⟨rfl, by decide, ?_, fun _ => rfl, fun _ => rfl, fun _ => rfl⟩
  intro caseTable b
  have hcard : (shouldContain.toFinset.filter
        (fun m => m <:+: strings.ToLower caseTable b)).card
      = shouldContain.countP (fun m => strings.Contains (strings.ToLower caseTable b) m) := by
    have hq : (fun m => strings.Contains (strings.ToLower caseTable b) m)
        = (fun m => decide (m <:+: strings.ToLower caseTable b)) := by
      funext m
      rw [Bool.eq_iff_iff, Contains_iff_part, decide_eq_true_iff]
    rw [hq, List.countP_eq_length_filter, ← List.toFinset_card_of_nodup (hnd.filter _),
      List.toFinset_filter]
    congr 1
    ext m
    simp
  unfold IsHTML
  simp only [decide_eq_true_eq, ge_iff_le]
  rw [points_foldl, hcard, Nat.zero_add]

/-- Claim C5: on an ASCII buffer `IsHTML` gives the same answer for the buffer, for its
upper-cased form, for its lower-cased form, and for every ASCII buffer that differs from it
in letter case only. -/
theorem C5_IsHTML_case_insensitive (caseTable : Nat → Nat) (b : Bytes)
    (h : ∀ c ∈ b, c < 128) :
    IsHTML caseTable b = IsHTML caseTable (b.map upperByte)
    ∧ IsHTML caseTable b = IsHTML caseTable (b.map lowerByte)
    ∧ ∀ b2 : Bytes, (∀ c ∈ b2, c < 128) → b2.map lowerByte = b.map lowerByte →
        IsHTML caseTable b2 = IsHTML caseTable b := by
  have hu : ∀ c ∈ b.map upperByte, c < 128 := by
    intro c hc
    obtain ⟨x, hx, rfl⟩ := List.mem_map.1 hc
    exact upperByte_lt x (h x hx)
  have hl : ∀ c ∈ b.map lowerByte, c < 128 := by
    intro c hc
    obtain ⟨x, hx, rfl⟩ := List.mem_map.1 hc
    exact lowerByte_lt x (h x hx)
  refine ⟨?_, ?_, ?_⟩
  · apply IsHTML_congr
    rw [ToLower_ascii caseTable b h, ToLower_ascii caseTable _ hu, List.map_map]
    apply List.map_congr_left
    intro x _
    exact (lowerByte_upperByte x).symm
  · apply IsHTML_congr
    rw [ToLower_ascii caseTable b h, ToLower_ascii caseTable _ hl, List.map_map]
    apply List.map_congr_left
    intro x _
    exact (lowerByte_lowerByte x).symm
  · intro b2 h2 heq
    apply IsHTML_congr
    rw [ToLower_ascii caseTable b h, ToLower_ascii caseTable b2 h2, heq]

set_option maxRecDepth 100000 in
/-- Claim C5 applied to `"</HTML></Body></DIV>"`, with the identity as case table. -/
theorem C5_IsHTML_case_insensitive_witness :
    (∀ c ∈ lit "</HTML></Body></DIV>", c < 128)
    ∧ IsHTML (fun r => r) (lit "</HTML></Body></DIV>") = true
    ∧ IsHTML (fun r => r) (lit "</HTML></Body></DIV>")
        = IsHTML (fun r => r) ((lit "</HTML></Body></DIV>").map upperByte)
    ∧ IsHTML (fun r => r) (lit "</HTML></Body></DIV>")
        = IsHTML (fun r => r) ((lit "</HTML></Body></DIV>").map lowerByte) :=
  ⟨by decide, by decide,
    (C5_IsHTML_case_insensitive (fun r => r) (lit "</HTML></Body></DIV>") (by decide)).1,
    (C5_IsHTML_case_insensitive (fun r => r) (lit "</HTML></Body></DIV>") (by decide)).2.1⟩

/-! ## `IsYAML` and `IsPlainText` -/

theorem lit_colon : lit ":" = [byte ':'] := by decide

/-- Claim C6: a buffer for which `IsJSON` or `IsXML` is true is never YAML, whatever the YAML
parser says; `IsYAML("<a>b</a>")` is false. -/
theorem C6_IsYAML_excludes_JSON_and_XML :
    (∀ (yamlStrict : Bytes → Bool) (b : Bytes),
      (IsJSON b = true ∨ IsXML b = true) → IsYAML yamlStrict b = false)
    ∧ (∀ (yamlStrict : Bytes → Bool) (b : Bytes),
      IsYAML yamlStrict b = true → IsJSON b = false ∧ IsXML b = false)
    ∧ (∀ yamlStrict : Bytes → Bool, IsYAML yamlStrict (lit "<a>b</a>") = false) := by
  have key : ∀ (yamlStrict : Bytes → Bool) (b : Bytes),
      (IsJSON b = true ∨ IsXML b = true) → IsYAML yamlStrict b = false := by
    intro yamlStrict b h
    unfold IsYAML
    rcases h with h | h
    · simp [h]
    · simp [h]
  refine ⟨key, ?_, fun yamlStrict => key yamlStrict _ (Or.inr (by decide))⟩
  intro yamlStrict b h
  constructor
  · cases hj : IsJSON b
    · rfl
    · rw [key yamlStrict b (Or.inl hj)] at h
      exact absurd h (by decide)
  · cases hx : IsXML b
    · rfl
    · rw [key yamlStrict b (Or.inr hx)] at h
      exact absurd h (by decide)

/-- Claim C6 applied to the JSON text `{"a":1}` and a parser that accepts everything. -/
theorem C6_IsYAML_excludes_JSON_and_XML_witness :
    (IsJSON (lit "\x7b\"a\":1\x7d") = true ∨ IsXML (lit "\x7b\"a\":1\x7d") = true)
    ∧ IsYAML (fun _ => true) (lit "\x7b\"a\":1\x7d") = false :=
  ⟨Or.inl (by decide),
    C6_IsYAML_excludes_JSON_and_XML.1 (fun _ => true) (lit "\x7b\"a\":1\x7d") (Or.inl (by decide))⟩

/-- Claim C7: a buffer without the byte `:` is never YAML, whatever the JSON, XML and YAML
tests say; `IsYAML("hello world")` is false. -/
theorem C7_IsYAML_needs_colon :
    (∀ (yamlStrict : Bytes → Bool) (b : Bytes), byte ':' ∉ b → IsYAML yamlStrict b = false)
    ∧ (∀ yamlStrict : Bytes → Bool, IsYAML yamlStrict (lit "hello world") = false) := by
  have key : ∀ (yamlStrict : Bytes → Bool) (b : Bytes),
      byte ':' ∉ b → IsYAML yamlStrict b = false := by
    intro yamlStrict b h
    have hc : strings.Contains b (lit ":") = false := by
      rw [← Bool.not_eq_true, lit_colon, Contains_singleton_iff]
      exact h
    unfold IsYAML
    simp [hc]
  exact ⟨key, fun yamlStrict => key yamlStrict _ (by decide)⟩

/-- Claim C7 applied to `"hello world"` and a parser that accepts everything. -/
theorem C7_IsYAML_needs_colon_witness :
    byte ':' ∉ lit "hello world" ∧ IsYAML (fun _ => true) (lit "hello world") = false :=
  ⟨by decide, C7_IsYAML_needs_colon.1 (fun _ => true) (lit "hello world") (by decide)⟩

/-- Claim C8: for a buffer that is neither JSON nor XML and has a `:`, `IsYAML` is the
outcome of the strict YAML parse: true exactly when the parse reports no error, and false
when it fails. -/
theorem C8_IsYAML_is_strict_parse (yamlStrict : Bytes → Bool) (b : Bytes)
    (hj : IsJSON b = false) (hx : IsXML b = false) (hc : byte ':' ∈ b) :
    IsYAML yamlStrict b = yamlStrict b
    ∧ (IsYAML yamlStrict b = true ↔ yamlStrict b = true)
    ∧ (yamlStrict b = false → IsYAML yamlStrict b = false) := by
  have hcc : strings.Contains b (lit ":") = true := by
    rw [lit_colon, Contains_singleton_iff]
    exact hc
  have h : IsYAML yamlStrict b = yamlStrict b := by
    unfold IsYAML
    simp [hj, hx, hcc]
  exact ⟨h, by rw [h], fun hf => by rw [h, hf]⟩

/-- Claim C8 applied to `"key: value"`, once with a parser that accepts this buffer and
once with a parser that rejects everything. -/
theorem C8_IsYAML_is_strict_parse_witness :
    IsJSON (lit "key: value") = false ∧ IsXML (lit "key: value") = false
    ∧ byte ':' ∈ lit "key: value"
    ∧ IsYAML (fun s => decide (s = lit "key: value")) (lit "key: value") = true
    ∧ IsYAML (fun _ => false) (lit "key: value") = false :=
  ⟨by decide, by decide, by decide,
    ((C8_IsYAML_is_strict_parse (fun s => decide (s = lit "key: value")) (lit "key: value")
      (by decide) (by decide) (by decide)).2.1).2 (by decide),
    (C8_IsYAML_is_strict_parse (fun _ => false) (lit "key: value")
      (by decide) (by decide) (by decide)).2.2 rfl⟩

/-- Claim C9: `IsPlainText b` is `not IsJSON b` and `len(b) > 0`. -/
theorem C9_IsPlainText_eq (b : Bytes) :
    IsPlainText b = (!IsJSON b && decide (b.length > 0)) := by
  unfold IsPlainText
  cases IsJSON b <;> simp

/-- Claim C10, refuted as stated: the JSON string `"<>"` (with its quotes) is not empty and
is classified as XML, and `IsPlainText` rejects it. -/
theorem C10_XML_shaped_JSON_rejected :
    lit "\"<>\"" ≠ [] ∧ IsXML (lit "\"<>\"") = true ∧ IsJSON (lit "\"<>\"") = true
    ∧ ¬ IsPlainText (lit "\"<>\"") = true := by
  decide

/-- Claim C10, amended: a non-empty buffer for which `IsXML` is true and `IsJSON` is false
satisfies `IsPlainText`; `IsPlainText("<a>b</a>")` is true. -/
theorem C10_IsPlainText_keeps_XML :
    (∀ b : Bytes, b ≠ [] → IsXML b = true → IsJSON b = false → IsPlainText b = true)
    ∧ IsXML (lit "<a>b</a>") = true ∧ IsPlainText (lit "<a>b</a>") = true := by
  refine ⟨?_, by decide, by decide⟩
  intro b hb _ hj
  unfold IsPlainText
  have : 0 < b.length := List.length_pos.2 hb
  simp [hj, this]

/-- Claim C10 (amended) applied to `"<a>b</a>"`. -/
theorem C10_IsPlainText_keeps_XML_witness :
    lit "<a>b</a>" ≠ [] ∧ IsXML (lit "<a>b</a>") = true ∧ IsJSON (lit "<a>b</a>") = false
    ∧ IsPlainText (lit "<a>b</a>") = true :=
  ⟨by decide, by decide, by decide,
    C10_IsPlainText_keeps_XML.1 (lit "<a>b</a>") (by decide) (by decide) (by decide)⟩

/-! ## Tag counts -/

theorem lit_close : lit "</" = [byte '<', byte '/'] := by decide

theorem lit_selfclose : lit "/>" = [byte '/', byte '>'] := by decide

/-- A two-byte marker is counted at most as often as its first byte occurs. -/
theorem countFrom_le_count (x y : Nat) (k : Nat) (s : Bytes) :
    strings.countFrom [x, y] k s ≤ s.count x := by
  induction s generalizing k with
  | nil => simp [strings.countFrom]
  | cons c t ih =>
    cases k with
    | succ k =>
      simp only [strings.countFrom]
      exact (ih k).trans (List.count_le_count_cons _ _ _)
    | zero =>
      simp only [strings.countFrom]
      by_cases h : ([x, y] : Bytes).isPrefixOf (c :: t) = true
      · have hc : x = c := by
          have := List.isPrefixOf_iff_prefix.1 h
          rw [List.cons_prefix_cons] at this
          exact this.1
        subst hc
        simp only [h, if_true, List.count_cons_self]
        have := ih ([x, y].length - 1)
        omega
      · simp only [h, Bool.false_eq_true, if_false]
        exact (ih 0).trans (List.count_le_count_cons _ _ _)

/-- The test of `strings.Count` for `</` at the head of a string. -/
theorem close_isPrefixOf_iff (c : Nat) (t : Bytes) :
    ([byte '<', byte '/'] : Bytes).isPrefixOf (c :: t) = true ↔
      c = byte '<' ∧ t.head? = some (byte '/') := by
  rw [List.isPrefixOf_iff_prefix, List.cons_prefix_cons]
  cases t with
  | nil => simp
  | cons d t => simp [List.cons_prefix_cons, eq_comm]

/-- The `<` bytes are those that start a `</` and those counted by `openCount`. -/
theorem count_lt_split (s : Bytes) :
    s.count (byte '<') = strings.countFrom [byte '<', byte '/'] 0 s + openCount s := by
  induction s with
  | nil => simp [strings.countFrom, openCount]
  | cons c t ih =>
    simp only [strings.countFrom, openCount]
    by_cases h : ([byte '<', byte '/'] : Bytes).isPrefixOf (c :: t) = true
    · have h2 := (close_isPrefixOf_iff c t).1 h
      obtain ⟨hc, ht⟩ := h2
      subst hc
      cases t with
      | nil => simp at ht
      | cons d t =>
        simp only [List.head?_cons, Option.some.injEq] at ht
        subst ht
        have hd : ([byte '<', byte '/'] : Bytes).isPrefixOf (byte '/' :: t) = false := by
          rw [← Bool.not_eq_true, close_isPrefixOf_iff]
          intro hx
          exact absurd hx.1 (by decide)
        simp only [strings.countFrom, hd, Bool.false_eq_true, if_false] at ih
        simp only [h, if_true, List.count_cons_self, List.head?_cons, ne_eq, not_true_eq_false,
          and_false, if_false, List.length_cons, List.length_nil, strings.countFrom]
        simp only [Nat.zero_add, Nat.reduceAdd, Nat.add_one_sub_one, strings.countFrom]
        omega
    · have h2 : ¬ (c = byte '<' ∧ t.head? = some (byte '/')) :=
        fun hx => h ((close_isPrefixOf_iff c t).2 hx)
      simp only [h, Bool.false_eq_true, if_false]
      by_cases hc : c = byte '<'
      · subst hc
        have ht : t.head? ≠ some (byte '/') := fun hx => h2 ⟨rfl, hx⟩
        simp only [List.count_cons_self, ne_eq, ht, not_false_eq_true, and_self, if_true]
        omega
      · have hc2 : (c == byte '<') = false := by simpa using hc
        simp only [List.count_cons, hc, false_and, if_false, hc2, Bool.false_eq_true]
        omega

/-- The result of `strings.Index` is `-1` exactly when `p` is no contiguous part of `s`. -/
theorem Index_eq_neg_one_iff (s p : Bytes) : strings.Index s p = -1 ↔ ¬ p <:+: s := by
  rw [← Contains_iff_part]
  unfold strings.Contains
  rw [decide_eq_true_iff]
  rcases Index_neg_or_nonneg s p with h | h
  · simp [h]
  · constructor
    · intro h1; omega
    · intro h1; exact absurd h h1

/-- A marker of two bytes that never occurs is counted zero times. -/
theorem Count_eq_zero_of_not_part (x y : Nat) (s : Bytes) (h : ¬ [x, y] <:+: s) :
    strings.Count s [x, y] = 0 := by
  show strings.countFrom [x, y] 0 s = 0
  rw [countFrom_loop [x, y] (by simp) s, if_pos ((Index_eq_neg_one_iff s [x, y]).2 h)]

/-- The tag-count test of `IsXML` never fails on a buffer without `/>`. -/
theorem tag_count_of_no_selfclose (b : Bytes) (h : ¬ lit "/>" <:+: b) :
    strings.Count b (lit "</") + strings.Count b (lit "/>") ≤ strings.Count b (lit "<") := by
  rw [lit_selfclose] at h
  rw [lit_selfclose, Count_eq_zero_of_not_part _ _ b h, lit_close, lit_lt]
  exact countFrom_le_count _ _ 0 b

/-- A buffer with `<` and `>` and without `/>` is classified as XML. -/
theorem IsXML_of_no_selfclose (b : Bytes) (hl : byte '<' ∈ b) (hg : byte '>' ∈ b)
    (h : ¬ lit "/>" <:+: b) : IsXML b = true := by
  by_cases hd : strings.Index (strings.TrimSpace b) xmlDecl = 0 ∨
      strings.Index (strings.TrimSpace b) xmlDecl = 1
  · exact IsXML_of_decl b hd
  · have h1 : strings.Contains b (lit ">") = true := by
      rw [lit_gt, Contains_singleton_iff]; exact hg
    have h2 : strings.Contains b (lit "<") = true := by
      rw [lit_lt, Contains_singleton_iff]; exact hl
    rw [IsXML_of_not_decl b hd, h1, h2]
    simpa using tag_count_of_no_selfclose b h

/-- Claim C15: `</` is never counted more often than `<`; a buffer with `<` and `>` and
without `/>` is classified as XML, however many elements stay unclosed; and a buffer with
`<` and `>` that `IsXML` rejects has more `/>` than it has `<` not followed by `/`. -/
theorem C15_IsXML_rejects_only_by_selfclose :
    (∀ b : Bytes, strings.Count b (lit "</") ≤ strings.Count b (lit "<"))
    ∧ (∀ b : Bytes, byte '<' ∈ b → byte '>' ∈ b → ¬ lit "/>" <:+: b → IsXML b = true)
    ∧ IsXML (lit "<a><b><c><d><e>") = true
    ∧ (∀ b : Bytes, strings.Count b (lit "<") = strings.Count b (lit "</") + openCount b)
    ∧ (∀ b : Bytes, byte '<' ∈ b → byte '>' ∈ b → IsXML b = false →
        openCount b < strings.Count b (lit "/>")) := by
  have hsplit : ∀ b : Bytes,
      strings.Count b (lit "<") = strings.Count b (lit "</") + openCount b := by
    intro b
    rw [lit_close, lit_lt]
    exact count_lt_split b
  refine ⟨?_, IsXML_of_no_selfclose, by decide, hsplit, ?_⟩
  · intro b
    rw [lit_close, lit_lt]
    exact countFrom_le_count _ _ 0 b
  · intro b hl hg hx
    have hd : ¬ (strings.Index (strings.TrimSpace b) xmlDecl = 0 ∨
        strings.Index (strings.TrimSpace b) xmlDecl = 1) := by
      intro hd
      rw [IsXML_of_decl b hd] at hx
      exact absurd hx (by decide)
    have h1 : strings.Contains b (lit ">") = true := by
      rw [lit_gt, Contains_singleton_iff]; exact hg
    have h2 : strings.Contains b (lit "<") = true := by
      rw [lit_lt, Contains_singleton_iff]; exact hl
    rw [IsXML_of_not_decl b hd, h1, h2] at hx
    simp only [Bool.and_self, Bool.true_and, decide_eq_false_iff_not, not_le] at hx
    have := hsplit b
    omega

/-- Claim C15 applied to `"<a/>/>"`, which has `<` and `>` and is rejected. -/
theorem C15_IsXML_rejects_only_by_selfclose_witness :
    byte '<' ∈ lit "<a/>/>" ∧ byte '>' ∈ lit "<a/>/>" ∧ IsXML (lit "<a/>/>") = false
    ∧ openCount (lit "<a/>/>") < strings.Count (lit "<a/>/>") (lit "/>") :=
  ⟨by decide, by decide, by decide,
    C15_IsXML_rejects_only_by_selfclose.2.2.2.2 (lit "<a/>/>") (by decide) (by decide)
      (by decide)⟩

/-! ## The five predicates together -/

/-- A buffer that is not JSON and not empty is plain text. -/
theorem IsPlainText_of_not_JSON (b : Bytes) (hb : b ≠ []) (hj : IsJSON b = false) :
    IsPlainText b = true := by
  unfold IsPlainText
  have : 0 < b.length := List.length_pos.2 hb
  simp [hj, this]

/-- Claim C11: on a non-empty buffer at least one of the five predicates is true, so the
first match in the order JSON, XML, HTML, YAML, PlainText gives one label; a non-empty
buffer that is not JSON is plain text, and exactly one of `IsJSON`, `IsPlainText` holds. -/
theorem C11_first_match_total (caseTable : Nat → Nat) (yamlStrict : Bytes → Bool)
    (b : Bytes) (hb : b ≠ []) :
    (IsJSON b = true ∨ IsXML b = true ∨ IsHTML caseTable b = true
      ∨ IsYAML yamlStrict b = true ∨ IsPlainText b = true)
    ∧ (∃! l : DataFormat, firstMatch caseTable yamlStrict b = some l)
    ∧ (IsJSON b = false → IsPlainText b = true)
    ∧ ((IsJSON b = true ∧ IsPlainText b = false) ∨ (IsJSON b = false ∧ IsPlainText b = true)) := by
  cases hj : IsJSON b
  · have hp := IsPlainText_of_not_JSON b hb hj
    refine ⟨by simp [hp], ?_, fun _ => hp, Or.inr ⟨rfl, hp⟩⟩
    unfold firstMatch
    rw [hj, hp]
    simp only [Bool.false_eq_true, if_false, if_true]
    split_ifs <;> exact ⟨_, rfl, fun y hy => (Option.some.inj hy).symm⟩
  · have hp : IsPlainText b = false := by
      unfold IsPlainText
      simp [hj]
    refine ⟨Or.inl rfl, ?_, fun h => absurd h (by decide), Or.inl ⟨rfl, hp⟩⟩
    unfold firstMatch
    rw [hj]
    exact ⟨_, rfl, fun y hy => (Option.some.inj hy).symm⟩

set_option maxRecDepth 100000 in
/-- Claim C11 applied to `"hello"`, with the identity as case table and a YAML parser that
rejects everything: the label is `PlainText`. -/
theorem C11_first_match_total_witness :
    lit "hello" ≠ []
    ∧ firstMatch (fun r => r) (fun _ => false) (lit "hello") = some DataFormat.PlainText
    ∧ (∃! l : DataFormat, firstMatch (fun r => r) (fun _ => false) (lit "hello") = some l) :=
  ⟨by decide, by decide,
    (C11_first_match_total (fun r => r) (fun _ => false) (lit "hello") (by decide)).2.1⟩

/-- Claim C13: the empty buffer gets no label, each of the five predicates is false on it. -/
theorem C13_empty_buffer :
    IsJSON [] = false ∧ IsXML [] = false ∧ (∀ caseTable : Nat → Nat, IsHTML caseTable [] = false)
    ∧ (∀ yamlStrict : Bytes → Bool, IsYAML yamlStrict [] = false) ∧ IsPlainText [] = false
    ∧ (∀ (caseTable : Nat → Nat) (yamlStrict : Bytes → Bool),
        firstMatch caseTable yamlStrict [] = none)
    ∧ lit "" = [] :=
  ⟨by decide, by decide, fun _ => rfl, fun _ => rfl, by decide, fun _ _ => rfl, by decide⟩

/-- Claim C17: a buffer classified as YAML is plain text too: it is not JSON and, having a
`:`, it is not empty. -/
theorem C17_IsYAML_imp_IsPlainText (yamlStrict : Bytes → Bool) (b : Bytes)
    (h : IsYAML yamlStrict b = true) :
    IsPlainText b = true ∧ IsJSON b = false ∧ byte ':' ∈ b ∧ b ≠ [] := by
  have hj : IsJSON b = false := by
    cases hj : IsJSON b
    · rfl
    · unfold IsYAML at h
      simp [hj] at h
  have hc : byte ':' ∈ b := by
    rw [← Contains_singleton_iff, ← lit_colon]
    cases hc : strings.Contains b (lit ":")
    · unfold IsYAML at h
      simp [hc] at h
    · rfl
  have hb : b ≠ [] := List.ne_nil_of_mem hc
  exact ⟨IsPlainText_of_not_JSON b hb hj, hj, hc, hb⟩

/-- Claim C17 applied to `"key: value"` and a parser that accepts everything. -/
theorem C17_IsYAML_imp_IsPlainText_witness :
    IsYAML (fun _ => true) (lit "key: value") = true ∧ IsPlainText (lit "key: value") = true :=
  ⟨by decide,
    (C17_IsYAML_imp_IsPlainText (fun _ => true) (lit "key: value") (by decide)).1⟩

/-! ## `IsHTML` against `IsXML` -/

/-- A rune below `RuneSelf` is decoded from one byte, which is the rune. -/
theorem DecodeRuneInString_small (c : Nat) (t : Bytes)
    (h : (utf8.DecodeRuneInString (c :: t)).1 < 0x80) :
    (utf8.DecodeRuneInString (c :: t)).1 = c := by
  by_cases h0 : c < 128
  · simp [utf8.DecodeRuneInString, utf8.RuneSelf, h0]
  · exfalso
    by_cases h1 : c < 194
    · simp [utf8.DecodeRuneInString, utf8.RuneSelf, utf8.RuneError, h0, h1] at h
    by_cases h1b : 244 < c
    · simp [utf8.DecodeRuneInString, utf8.RuneSelf, utf8.RuneError, h0, h1b] at h
    by_cases h2 : c < 224 <;> (by_cases h3 : c < 240 <;> try omega) <;>
      (by_cases h4 : c = 224 <;> try omega) <;>
      (by_cases h5 : c = 240 <;> try omega) <;> (by_cases h6 : c = 237 <;> try omega) <;>
      (by_cases h7 : c = 244 <;> try omega) <;>
      rcases t with _ | ⟨s1, _ | ⟨s2, _ | ⟨s3, r⟩⟩⟩ <;>
      simp [utf8.DecodeRuneInString, utf8.RuneSelf, utf8.RuneError, h0, h1, h1b, h2,
        h3, h4, h5, h6, h7] at h <;>
      (try split_ifs at h) <;> (try simp at h) <;> omega

/-- A byte below `RuneSelf` in the encoding of a rune is the rune itself. -/
theorem mem_EncodeRune_small (r x : Nat) (hx : x < 0x80) (h : x ∈ utf8.EncodeRune r) :
    r = x := by
  unfold utf8.EncodeRune at h
  split_ifs at h <;> simp at h <;> omega

/-- A byte below `RuneSelf` that only itself is mapped to occurs in the result of
`strings.Map` only when it occurs in the string. -/
theorem mem_mapFrom_small (mapping : Nat → Nat) (x : Nat) (hx : x < 0x80)
    (hm : ∀ r, mapping r = x → r = x) (k : Nat) (s : Bytes)
    (h : x ∈ strings.mapFrom mapping k s) : x ∈ s := by
  induction s generalizing k with
  | nil => simp [strings.mapFrom] at h
  | cons c t ih =>
    cases k with
    | succ k =>
      simp only [strings.mapFrom] at h
      exact List.mem_cons_of_mem _ (ih k h)
    | zero =>
      simp only [strings.mapFrom, List.mem_append] at h
      rcases h with h | h
      · have h1 := hm _ (mem_EncodeRune_small _ x hx h)
        have h2 := DecodeRuneInString_small c t (by rw [h1]; exact hx)
        rw [h1] at h2
        rw [h2]
        exact List.mem_cons_self _ _
      · exact List.mem_cons_of_mem _ (ih _ h)

/-- Under `keepsTagBytes`, `unicode.ToLower` maps only `<` to `<` and only `>` to `>`. -/
theorem unicode_ToLower_tag (caseTable : Nat → Nat) (hk : keepsTagBytes caseTable)
    (x : Nat) (hx : x = byte '<' ∨ x = byte '>') (r : Nat)
    (h : unicode.ToLower caseTable r = x) : r = x := by
  unfold unicode.ToLower at h
  by_cases h0 : r ≤ 0x7F
  · rw [if_pos h0] at h
    simp only [byte, Char.reduceToNat] at h hx
    split_ifs at h <;> omega
  · rw [if_neg h0] at h
    have := hk r (by omega)
    rcases hx with hx | hx
    · exact absurd (h.trans hx) this.1
    · exact absurd (h.trans hx) this.2

/-- Under `keepsTagBytes`, a `<` or `>` of the lower-cased buffer is one of the buffer. -/
theorem mem_of_mem_ToLower (caseTable : Nat → Nat) (hk : keepsTagBytes caseTable)
    (x : Nat) (hx : x = byte '<' ∨ x = byte '>') (b : Bytes)
    (h : x ∈ strings.ToLower caseTable b) : x ∈ b := by
  have hx80 : x < 0x80 := by
    simp only [byte, Char.reduceToNat] at hx
    omega
  unfold strings.ToLower at h
  simp only at h
  split_ifs at h
  · exact h
  · obtain ⟨c, hc, hcx⟩ := List.mem_map.1 h
    have : c = x := by
      simp only [byte, Char.reduceToNat] at hcx hx
      split_ifs at hcx <;> omega
    rw [← this]
    exact hc
  · exact mem_mapFrom_small _ x hx80 (unicode_ToLower_tag caseTable hk x hx) 0 b h

/-- A buffer classified as HTML holds one of the markers in its lower-cased form. -/
theorem marker_of_IsHTML (caseTable : Nat → Nat) (b : Bytes) (h : IsHTML caseTable b = true) :
    ∃ m ∈ shouldContain, m <:+: strings.ToLower caseTable b := by
  unfold IsHTML at h
  simp only [decide_eq_true_eq, ge_iff_le] at h
  rw [points_foldl, Nat.zero_add] at h
  have hpos := lt_of_lt_of_le (by decide : 0 < 3) h
  obtain ⟨m, hm, hc⟩ := List.countP_pos_iff.1 hpos
  exact ⟨m, hm, (Contains_iff_part _ _).1 hc⟩

/-- Under `keepsTagBytes`, a buffer classified as HTML has a `<` and a `>`. -/
theorem tags_of_IsHTML (caseTable : Nat → Nat) (hk : keepsTagBytes caseTable) (b : Bytes)
    (h : IsHTML caseTable b = true) : byte '<' ∈ b ∧ byte '>' ∈ b := by
  obtain ⟨m, hm, hp⟩ := marker_of_IsHTML caseTable b h
  have hall : ∀ m ∈ shouldContain, byte '<' ∈ m ∧ byte '>' ∈ m := by decide
  exact ⟨mem_of_mem_ToLower caseTable hk _ (Or.inl rfl) b (hp.subset (hall m hm).1),
    mem_of_mem_ToLower caseTable hk _ (Or.inr rfl) b (hp.subset (hall m hm).2)⟩

set_option maxRecDepth 100000 in
/-- Claim C16: with case tables that keep `<` and `>` (`keepsTagBytes`), a buffer that is
HTML and has no `/>` is XML as well, so the first match never labels it HTML; the sample
document satisfies `IsHTML` and `IsXML` and is labelled XML. -/
theorem C16_HTML_without_selfclose_is_XML :
    (∀ (caseTable : Nat → Nat), keepsTagBytes caseTable →
      ∀ (yamlStrict : Bytes → Bool) (b : Bytes),
        IsHTML caseTable b = true → ¬ lit "/>" <:+: b →
          IsXML b = true
          ∧ firstMatch caseTable yamlStrict b ≠ some DataFormat.HTML
          ∧ (firstMatch caseTable yamlStrict b = some DataFormat.JSON
            ∨ firstMatch caseTable yamlStrict b = some DataFormat.XML))
    ∧ (∀ (caseTable : Nat → Nat) (yamlStrict : Bytes → Bool),
        IsHTML caseTable
          (lit "<!doctype html><html><head></head><body><div></div></body></html>") = true
        ∧ IsXML (lit "<!doctype html><html><head></head><body><div></div></body></html>") = true
        ∧ firstMatch caseTable yamlStrict
          (lit "<!doctype html><html><head></head><body><div></div></body></html>")
            = some DataFormat.XML) := by
  refine ⟨?_, fun _ _ => ⟨rfl, rfl, rfl⟩⟩
  intro caseTable hk yamlStrict b hh hs
  obtain ⟨hl, hg⟩ := tags_of_IsHTML caseTable hk b hh
  have hx := IsXML_of_no_selfclose b hl hg hs
  unfold firstMatch
  rw [hx]
  cases IsJSON b <;> simp

set_option maxRecDepth 100000 in
/-- Claim C16 applied to `"</HEAD></Body></html>"`, with the identity as case table. -/
theorem C16_HTML_without_selfclose_is_XML_witness :
    keepsTagBytes (fun r => r)
    ∧ IsHTML (fun r => r) (lit "</HEAD></Body></html>") = true
    ∧ ¬ lit "/>" <:+: lit "</HEAD></Body></html>"
    ∧ IsXML (lit "</HEAD></Body></html>") = true
    ∧ firstMatch (fun r => r) (fun _ => true) (lit "</HEAD></Body></html>")
        ≠ some DataFormat.HTML :=
  have hk : keepsTagBytes (fun r => r) := by
    intro r hr
    simp only [byte, Char.reduceToNat]
    omega
  ⟨hk, by decide, by decide,
    (C16_HTML_without_selfclose_is_XML.1 (fun r => r) hk (fun _ => true)
      (lit "</HEAD></Body></html>") (by decide) (by decide)).1,
    (C16_HTML_without_selfclose_is_XML.1 (fun r => r) hk (fun _ => true)
      (lit "</HEAD></Body></html>") (by decide) (by decide)).2.1⟩

/-! ## `strings.TrimSpace` and surrounding blanks -/

/-- The width of a decoded rune is at most the length of the string. -/
theorem DecodeRuneInString_width_le (s : Bytes) :
    (utf8.DecodeRuneInString s).2 ≤ s.length := by
  cases s with
  | nil => simp [utf8.DecodeRuneInString]
  | cons c t =>
    by_cases h0 : c < 128
    · simp [utf8.DecodeRuneInString, utf8.RuneSelf, h0]
    by_cases h1 : c < 194
    · simp [utf8.DecodeRuneInString, utf8.RuneSelf, utf8.RuneError, h0, h1]
    by_cases h1b : 244 < c
    · simp [utf8.DecodeRuneInString, utf8.RuneSelf, utf8.RuneError, h0, h1b]
    by_cases h2 : c < 224 <;> (by_cases h3 : c < 240 <;> try omega) <;>
      rcases t with _ | ⟨s1, _ | ⟨s2, _ | ⟨s3, r⟩⟩⟩ <;>
      simp [utf8.DecodeRuneInString, utf8.RuneSelf, utf8.RuneError, h0, h1, h1b, h2, h3] <;>
      (try split_ifs) <;> (try simp)

/-- Bytes below `RuneSelf` appended to a non-empty string do not change its first rune. -/
theorem DecodeRuneInString_append (c : Nat) (t w : Bytes) (hw : ∀ x ∈ w, x < 128) :
    utf8.DecodeRuneInString (c :: t ++ w) = utf8.DecodeRuneInString (c :: t) := by
  cases w with
  | nil => simp
  | cons x w =>
    have hx : x < 128 := hw x (List.mem_cons_self _ _)
    by_cases h0 : c < 128
    · simp [utf8.DecodeRuneInString, utf8.RuneSelf, h0]
    by_cases h1 : c < 194
    · simp [utf8.DecodeRuneInString, utf8.RuneSelf, utf8.RuneError, h0, h1]
    by_cases h1b : 244 < c
    · simp [utf8.DecodeRuneInString, utf8.RuneSelf, utf8.RuneError, h0, h1b]
    by_cases h2 : c < 224 <;> (by_cases h3 : c < 240 <;> try omega) <;>
      (by_cases h4 : c = 224 <;> try omega) <;>
      (by_cases h5 : c = 240 <;> try omega) <;> (by_cases h6 : c = 237 <;> try omega) <;>
      (by_cases h7 : c = 244 <;> try omega) <;>
      rcases t with _ | ⟨s1, _ | ⟨s2, _ | ⟨s3, r⟩⟩⟩ <;>
      simp [utf8.DecodeRuneInString, utf8.RuneSelf, utf8.RuneError, h0, h1, h1b, h2,
        h3, h4, h5, h6, h7] <;>
      (try split_ifs) <;> (try simp) <;> (try omega)

/-- A blank byte is `<` nowhere, is below `RuneSelf`, and is a space for `strings` and for
`unicode`. -/
theorem blank_byte (c : Nat)
    (h : c = byte ' ' ∨ c = byte '\t' ∨ c = byte '\r' ∨ c = byte '\n') :
    c < 128 ∧ strings.asciiSpace c = true ∧ unicode.IsSpace c = true
      ∧ c ≠ byte '<' ∧ c ≠ byte '>' ∧ c ≠ byte '/' := by
  rcases h with h | h | h | h <;> subst h <;> decide

theorem isBlank_cons (c : Nat) (w : Bytes) (h : isBlank (c :: w)) :
    (c = byte ' ' ∨ c = byte '\t' ∨ c = byte '\r' ∨ c = byte '\n') ∧ isBlank w :=
  ⟨h c (List.mem_cons_self _ _), fun x hx => h x (List.mem_cons_of_mem _ hx)⟩

theorem isBlank_reverse (w : Bytes) (h : isBlank w) : isBlank w.reverse :=
  fun x hx => h x (List.mem_reverse.1 hx)

theorem isBlank_lt (w : Bytes) (h : isBlank w) : ∀ x ∈ w, x < 128 :=
  fun x hx => (blank_byte x (h x hx)).1

/-- Leading blanks are dropped by `strings.TrimSpace`. -/
theorem TrimSpace_blank_append (w s : Bytes) (hw : isBlank w) :
    strings.TrimSpace (w ++ s) = strings.TrimSpace s := by
  induction w with
  | nil => rfl
  | cons c w ih =>
    obtain ⟨hc, hw2⟩ := isBlank_cons c w hw
    obtain ⟨h1, h2, -⟩ := blank_byte c hc
    have h3 : ¬ c ≥ utf8.RuneSelf := by simp only [utf8.RuneSelf]; omega
    rw [List.cons_append, strings.TrimSpace, if_neg h3, if_pos h2]
    exact ih hw2

/-- Blanks at the head of the reversed string are dropped by the second loop of
`strings.TrimSpace`. -/
theorem trimSpaceEnd_blank_append (w r : Bytes) (hw : isBlank w) :
    strings.trimSpaceEnd (w ++ r) = strings.trimSpaceEnd r := by
  induction w with
  | nil => rfl
  | cons c w ih =>
    obtain ⟨hc, hw2⟩ := isBlank_cons c w hw
    obtain ⟨h1, h2, -⟩ := blank_byte c hc
    have h3 : ¬ c ≥ utf8.RuneSelf := by simp only [utf8.RuneSelf]; omega
    rw [List.cons_append, strings.trimSpaceEnd, if_neg h3, if_pos h2]
    exact ih hw2

/-- A string of blanks is dropped whole by `strings.TrimLeftFunc`. -/
theorem trimLeftSpaceFrom_blank (w : Bytes) (hw : isBlank w) :
    strings.trimLeftSpaceFrom 0 w = [] := by
  induction w with
  | nil => rfl
  | cons c w ih =>
    obtain ⟨hc, hw2⟩ := isBlank_cons c w hw
    obtain ⟨h1, -, h2, -⟩ := blank_byte c hc
    have hd : utf8.DecodeRuneInString (c :: w) = (c, 1) := by
      simp [utf8.DecodeRuneInString, utf8.RuneSelf, h1]
    simp only [strings.trimLeftSpaceFrom, hd, h2, if_true]
    exact ih hw2

/-- Trailing blanks stay behind what `strings.TrimLeftFunc` keeps, and go when it keeps
nothing. -/
theorem trimLeftSpaceFrom_append_blank (w : Bytes) (hw : isBlank w) (s : Bytes) (k : Nat)
    (hk : k ≤ s.length) :
    strings.trimLeftSpaceFrom k (s ++ w) =
      if strings.trimLeftSpaceFrom k s = [] then []
      else strings.trimLeftSpaceFrom k s ++ w := by
  induction s generalizing k with
  | nil =>
    have : k = 0 := by simpa using hk
    subst this
    simp [strings.trimLeftSpaceFrom, trimLeftSpaceFrom_blank w hw]
  | cons c t ih =>
    cases k with
    | succ k =>
      simp only [List.cons_append, strings.trimLeftSpaceFrom]
      exact ih k (by simpa using hk)
    | zero =>
      have hd := DecodeRuneInString_append c t w (isBlank_lt w hw)
      have hlen := DecodeRuneInString_width_le (c :: t)
      simp only [List.length_cons] at hlen
      have e1 : strings.trimLeftSpaceFrom 0 (c :: t ++ w) =
          if unicode.IsSpace (utf8.DecodeRuneInString (c :: t ++ w)).1 = true then
            strings.trimLeftSpaceFrom ((utf8.DecodeRuneInString (c :: t ++ w)).2 - 1) (t ++ w)
          else c :: t ++ w := rfl
      have e2 : strings.trimLeftSpaceFrom 0 (c :: t) =
          if unicode.IsSpace (utf8.DecodeRuneInString (c :: t)).1 = true then
            strings.trimLeftSpaceFrom ((utf8.DecodeRuneInString (c :: t)).2 - 1) t
          else c :: t := rfl
      rw [e1, e2, hd]
      by_cases hs : unicode.IsSpace (utf8.DecodeRuneInString (c :: t)).1 = true
      · simp only [hs, if_true]
        exact ih _ (by omega)
      · simp [hs]

/-- The backwards scan never moves above its starting point. -/
theorem lastRuneScan_le (s : Bytes) (lim bound : Nat) (n : Nat) (st : Option Nat)
    (h : ∀ x, st = some x → x ≤ bound) :
    ∀ y, utf8.lastRuneScan s lim n st = some y → y ≤ bound := by
  induction n generalizing st with
  | zero =>
    intro y hy
    simp only [utf8.lastRuneScan] at hy
    exact h y hy
  | succ n ih =>
    cases st with
    | none =>
      intro y hy
      simp [utf8.lastRuneScan] at hy
    | some start =>
      have hs := h start rfl
      intro y hy
      simp only [utf8.lastRuneScan] at hy
      split_ifs at hy with h1 h2 h3
      · simp only [Option.some.injEq] at hy; omega
      · simp only [Option.some.injEq] at hy; omega
      · exact ih none (fun x hx => by simp at hx) y hy
      · exact ih (some (start - 1))
          (fun x hx => by simp only [Option.some.injEq] at hx; omega) y hy

/-- The last rune of a non-empty string has a width of at least one byte. -/
theorem DecodeLastRuneInString_width_pos (s : Bytes) (hs : s ≠ []) :
    1 ≤ (utf8.DecodeLastRuneInString s).2 := by
  have hlen : 0 < s.length := List.length_pos.2 hs
  have hstart : (utf8.lastRuneScan s (s.length - 4) 4
      (if s.length - 1 = 0 then none else some (s.length - 2))).getD 0 < s.length := by
    cases hsc : utf8.lastRuneScan s (s.length - 4) 4
        (if s.length - 1 = 0 then none else some (s.length - 2)) with
    | none => simpa using hlen
    | some y =>
      have := lastRuneScan_le s (s.length - 4) (s.length - 2) 4 _
        (fun x hx => by split_ifs at hx; simp_all) y hsc
      simp only [Option.getD_some]
      omega
  unfold utf8.DecodeLastRuneInString
  simp only
  rw [if_neg (by omega)]
  by_cases h1 : s.getD (s.length - 1) 0 < utf8.RuneSelf
  · rw [if_pos h1]
  · rw [if_neg h1]
    generalize (utf8.lastRuneScan s (s.length - 4) 4
      (if s.length - 1 = 0 then none else some (s.length - 2))).getD 0 = start at hstart
    by_cases h2 : start + (utf8.DecodeRuneInString (List.drop start s)).2 ≠ s.length
    · rw [if_pos h2]
    · rw [if_neg h2]
      simp only [ne_eq, Decidable.not_not] at h2
      omega

/-- A string that ends in a byte below `RuneSelf` has this byte as its last rune. -/
theorem DecodeLastRuneInString_snoc (l : Bytes) (c : Nat) (hc : c < 128) :
    utf8.DecodeLastRuneInString (l ++ [c]) = (c, 1) := by
  unfold utf8.DecodeLastRuneInString
  have h1 : (l ++ [c]).length ≠ 0 := by simp
  have h2 : (l ++ [c]).getD ((l ++ [c]).length - 1) 0 = c := by
    simp [List.getD_eq_getElem?_getD]
  simp only [h1, if_false, h2, utf8.RuneSelf, hc, if_true]

/-- The index found by `lastIndexFunc` is `-1` or an index of the string. -/
theorem lastIndexNotSpaceFrom_bounds (k : Nat) (r : Bytes) :
    -1 ≤ strings.lastIndexNotSpaceFrom k r ∧ strings.lastIndexNotSpaceFrom k r < r.length := by
  induction r generalizing k with
  | nil => simp [strings.lastIndexNotSpaceFrom]
  | cons c t ih =>
    cases k with
    | succ k =>
      simp only [strings.lastIndexNotSpaceFrom, List.length_cons]
      have := ih k
      omega
    | zero =>
      simp only [strings.lastIndexNotSpaceFrom, List.length_cons]
      split_ifs with h
      · have := ih ((utf8.DecodeLastRuneInString (c :: t).reverse).2 - 1)
        omega
      · have := DecodeLastRuneInString_width_pos (c :: t).reverse (by simp)
        omega

/-- Trailing blanks are passed over by `lastIndexFunc`. -/
theorem lastIndexNotSpaceFrom_blank_append (v r : Bytes) (hv : isBlank v) :
    strings.lastIndexNotSpaceFrom 0 (v ++ r) = strings.lastIndexNotSpaceFrom 0 r := by
  induction v with
  | nil => rfl
  | cons c v ih =>
    obtain ⟨hc, hv2⟩ := isBlank_cons c v hv
    obtain ⟨h1, -, h2, -⟩ := blank_byte c hc
    have hd : utf8.DecodeLastRuneInString (c :: (v ++ r)).reverse = (c, 1) := by
      rw [List.reverse_cons]
      exact DecodeLastRuneInString_snoc _ c h1
    have e1 : strings.lastIndexNotSpaceFrom 0 (c :: (v ++ r)) =
        if unicode.IsSpace (utf8.DecodeLastRuneInString (c :: (v ++ r)).reverse).1 = true then
          strings.lastIndexNotSpaceFrom
            ((utf8.DecodeLastRuneInString (c :: (v ++ r)).reverse).2 - 1) (v ++ r)
        else (((v ++ r).length + 1 - (utf8.DecodeLastRuneInString (c :: (v ++ r)).reverse).2
          : Nat) : Int) := rfl
    rw [List.cons_append, e1, hd]
    simp only [h2, if_true]
    exact ih hv2

/-- Trailing blanks do not change what `strings.TrimRightFunc` returns. -/
theorem TrimRightSpace_append_blank (y w : Bytes) (hw : isBlank w) :
    strings.TrimRightSpace (y ++ w) = strings.TrimRightSpace y := by
  unfold strings.TrimRightSpace
  simp only
  rw [List.reverse_append, lastIndexNotSpaceFrom_blank_append _ _ (isBlank_reverse w hw)]
  obtain ⟨hlo, hhi⟩ := lastIndexNotSpaceFrom_bounds 0 y.reverse
  rw [List.length_reverse] at hhi
  generalize strings.lastIndexNotSpaceFrom 0 y.reverse = i at hlo hhi
  by_cases h0 : i ≥ 0
  · have hi : i.toNat < y.length := by omega
    have hget : (y ++ w).getD i.toNat 0 = y.getD i.toNat 0 := by
      simp [List.getD_eq_getElem?_getD, List.getElem?_append_left hi]
    rw [hget]
    by_cases h1 : y.getD i.toNat 0 ≥ utf8.RuneSelf
    · rw [if_pos ⟨h0, h1⟩, if_pos ⟨h0, h1⟩]
      have hdrop : List.drop i.toNat (y ++ w) = List.drop i.toNat y ++ w :=
        List.drop_append_of_le_length (by omega)
      rw [hdrop]
      obtain ⟨c, t, hct⟩ : ∃ c t, List.drop i.toNat y = c :: t := by
        cases hd : List.drop i.toNat y with
        | nil =>
          have := congrArg List.length hd
          simp at this
          omega
        | cons c t => exact ⟨c, t, rfl⟩
      have hwid := DecodeRuneInString_width_le (List.drop i.toNat y)
      rw [List.length_drop] at hwid
      rw [hct] at hwid ⊢
      rw [DecodeRuneInString_append c t w (isBlank_lt w hw)]
      exact List.take_append_of_le_length (by omega)
    · rw [if_neg (fun h => h1 h.2), if_neg (fun h => h1 h.2)]
      exact List.take_append_of_le_length (by omega)
  · have hi : i = -1 := by omega
    subst hi
    simp

/-- Trailing blanks are dropped by `strings.TrimSpace`. -/
theorem TrimSpace_append_blank (s w : Bytes) (hw : isBlank w) :
    strings.TrimSpace (s ++ w) = strings.TrimSpace s := by
  induction s with
  | nil =>
    have := TrimSpace_blank_append w [] hw
    simpa using this
  | cons c t ih =>
    rw [List.cons_append, strings.TrimSpace, strings.TrimSpace]
    by_cases h1 : c ≥ utf8.RuneSelf
    · rw [if_pos h1, if_pos h1]
      unfold strings.TrimLeftSpace
      have := trimLeftSpaceFrom_append_blank w hw (c :: t) 0 (by simp)
      rw [List.cons_append] at this
      rw [this]
      split_ifs with h2
      · rw [h2]
      · exact TrimRightSpace_append_blank _ w hw
    · rw [if_neg h1, if_neg h1]
      by_cases h2 : strings.asciiSpace c = true
      · rw [if_pos h2, if_pos h2]
        exact ih
      · rw [if_neg h2, if_neg h2, ← List.cons_append, List.reverse_append]
        exact trimSpaceEnd_blank_append _ _ (isBlank_reverse w hw)

/-! ## `IsXML` and surrounding blanks -/

/-- A marker of two bytes is not counted in a string without its first byte. -/
theorem countFrom_eq_zero (x y k : Nat) (w : Bytes) (h : x ∉ w) :
    strings.countFrom [x, y] k w = 0 := by
  have := countFrom_le_count x y k w
  rw [List.count_eq_zero_of_not_mem h] at this
  omega

/-- Leading bytes other than the first byte of the marker add nothing to its count. -/
theorem countFrom_blank_append (x y : Nat) (w s : Bytes) (h : x ∉ w) :
    strings.countFrom [x, y] 0 (w ++ s) = strings.countFrom [x, y] 0 s := by
  induction w with
  | nil => rfl
  | cons c w ih =>
    have hc : x ≠ c := fun e => h (e ▸ List.mem_cons_self _ _)
    have hp : ([x, y] : Bytes).isPrefixOf (c :: (w ++ s)) = false := by
      rw [← Bool.not_eq_true, List.isPrefixOf_iff_prefix, List.cons_prefix_cons]
      exact fun e => hc e.1
    rw [List.cons_append, strings.countFrom, hp]
    simp only [Bool.false_eq_true, if_false]
    exact ih (fun e => h (List.mem_cons_of_mem _ e))

/-- Trailing bytes other than the two bytes of the marker add nothing to its count. -/
theorem countFrom_append_blank (x y : Nat) (w : Bytes) (hx : x ∉ w) (hy : y ∉ w)
    (s : Bytes) (k : Nat) :
    strings.countFrom [x, y] k (s ++ w) = strings.countFrom [x, y] k s := by
  induction s generalizing k with
  | nil => simp [strings.countFrom, countFrom_eq_zero x y k w hx]
  | cons c t ih =>
    cases k with
    | succ k =>
      simp only [List.cons_append, strings.countFrom]
      exact ih k
    | zero =>
      have hp : ([x, y] : Bytes).isPrefixOf (c :: (t ++ w))
          = ([x, y] : Bytes).isPrefixOf (c :: t) := by
        rw [Bool.eq_iff_iff, List.isPrefixOf_iff_prefix, List.isPrefixOf_iff_prefix,
          List.cons_prefix_cons, List.cons_prefix_cons]
        cases t with
        | nil =>
          cases w with
          | nil => simp
          | cons d w =>
            have : y ≠ d := fun e => hy (e ▸ List.mem_cons_self _ _)
            simp [List.cons_prefix_cons, this]
        | cons d t => simp [List.cons_prefix_cons]
      rw [List.cons_append, strings.countFrom, strings.countFrom, hp, ih, ih]

/-- The three counts and the two containment tests of `IsXML` together with the trimmed
buffer determine its answer. -/
theorem IsXML_congr (b c : Bytes)
    (ht : strings.TrimSpace b = strings.TrimSpace c)
    (hg : strings.Contains b (lit ">") = strings.Contains c (lit ">"))
    (hl : strings.Contains b (lit "<") = strings.Contains c (lit "<"))
    (h1 : strings.Count b (lit "<") = strings.Count c (lit "<"))
    (h2 : strings.Count b (lit "</") = strings.Count c (lit "</"))
    (h3 : strings.Count b (lit "/>") = strings.Count c (lit "/>")) :
    IsXML b = IsXML c := by
  unfold IsXML
  simp only [ht, hg, hl, h1, h2, h3]

/-- Blanks around a string do not change whether a non-blank byte occurs in it. -/
theorem mem_blank_append (x : Nat) (w1 b w2 : Bytes) (h1 : x ∉ w1) (h2 : x ∉ w2) :
    x ∈ w1 ++ b ++ w2 ↔ x ∈ b := by
  simp [h1, h2]

/-- Claim C14: blanks (space, tab, CR, LF) before and behind a buffer do not change the
answer of `IsXML`. -/
theorem C14_IsXML_blank_invariant (b w1 w2 : Bytes) (h1 : isBlank w1) (h2 : isBlank w2) :
    IsXML (w1 ++ b ++ w2) = IsXML b := by
  have n1 : ∀ x, (x = byte '<' ∨ x = byte '>' ∨ x = byte '/') → x ∉ w1 := by
    intro x hx hm
    obtain ⟨-, -, -, a, b, c⟩ := blank_byte x (h1 x hm)
    rcases hx with hx | hx | hx
    · exact a hx
    · exact b hx
    · exact c hx
  have n2 : ∀ x, (x = byte '<' ∨ x = byte '>' ∨ x = byte '/') → x ∉ w2 := by
    intro x hx hm
    obtain ⟨-, -, -, a, b, c⟩ := blank_byte x (h2 x hm)
    rcases hx with hx | hx | hx
    · exact a hx
    · exact b hx
    · exact c hx
  have hlt1 := n1 _ (Or.inl rfl)
  have hlt2 := n2 _ (Or.inl rfl)
  have hgt1 := n1 _ (Or.inr (Or.inl rfl))
  have hgt2 := n2 _ (Or.inr (Or.inl rfl))
  have hsl1 := n1 _ (Or.inr (Or.inr rfl))
  have hsl2 := n2 _ (Or.inr (Or.inr rfl))
  apply IsXML_congr
  · rw [TrimSpace_append_blank _ w2 h2, TrimSpace_blank_append w1 _ h1]
  · rw [Bool.eq_iff_iff, lit_gt, Contains_singleton_iff, Contains_singleton_iff]
    exact mem_blank_append _ w1 b w2 hgt1 hgt2
  · rw [Bool.eq_iff_iff, lit_lt, Contains_singleton_iff, Contains_singleton_iff]
    exact mem_blank_append _ w1 b w2 hlt1 hlt2
  · rw [lit_lt]
    show (w1 ++ b ++ w2).count (byte '<') = b.count (byte '<')
    rw [List.count_append, List.count_append, List.count_eq_zero_of_not_mem hlt1,
      List.count_eq_zero_of_not_mem hlt2]
    omega
  · rw [lit_close]
    show strings.countFrom _ 0 (w1 ++ b ++ w2) = strings.countFrom _ 0 b
    rw [countFrom_append_blank _ _ w2 hlt2 hsl2, countFrom_blank_append _ _ w1 b hlt1]
  · rw [lit_selfclose]
    show strings.countFrom _ 0 (w1 ++ b ++ w2) = strings.countFrom _ 0 b
    rw [countFrom_append_blank _ _ w2 hsl2 hgt2, countFrom_blank_append _ _ w1 b hsl1]

/-- Claim C14 applied to the declaration `<?xml version="1.0"?>` with blanks around it and
to `"<a/>/>"` with blanks around it. -/
theorem C14_IsXML_blank_invariant_witness :
    isBlank (lit " \t") ∧ isBlank (lit "\r\n ")
    ∧ IsXML (lit " \t" ++ lit "<?xml version=\"1.0\"?>" ++ lit "\r\n ")
        = IsXML (lit "<?xml version=\"1.0\"?>")
    ∧ IsXML (lit "<?xml version=\"1.0\"?>") = true
    ∧ IsXML (lit " \t" ++ lit "<a/>/>" ++ lit "\r\n ") = IsXML (lit "<a/>/>")
    ∧ IsXML (lit "<a/>/>") = false :=
  have b1 : isBlank (lit " \t") := by unfold isBlank; decide
  have b2 : isBlank (lit "\r\n ") := by unfold isBlank; decide
  ⟨b1, b2, C14_IsXML_blank_invariant _ _ _ b1 b2, by decide,
    C14_IsXML_blank_invariant _ _ _ b1 b2, by decide⟩

/-! ## The scanner of `encoding/json` against the grammar -/

theorem acc_nil (s : json.Scanner) : json.checkValidFrom s [] = json.eof s := rfl

theorem acc_cons (s : json.Scanner) (c : Nat) (w : Bytes) :
    json.checkValidFrom s (c :: w) =
      if (json.step s c).2 = json.Scan.scanError then false
      else json.checkValidFrom (json.step s c).1 w := rfl

/-- The scanner accepts nothing more once an error is recorded. -/
theorem acc_error (s : json.Scanner) (h : s.err = true)
    (hs : s.step = json.Step.stateError ∨ s.step = json.Step.stateEndTop) (w : Bytes) :
    json.checkValidFrom s w = false := by
  induction w generalizing s with
  | nil => simp [acc_nil, json.eof, h]
  | cons c w ih =>
    rw [acc_cons]
    rcases hs with hs | hs
    · simp [json.step, hs]
    · have h1 : (json.step s c).2 = json.Scan.scanEnd := by
        simp only [json.step, hs, json.stateEndTop]
        split_ifs <;> rfl
      have h2 : (json.step s c).1.err = true := by
        simp only [json.step, hs, json.stateEndTop]
        split_ifs <;> simp [json.error, h]
      have h3 : (json.step s c).1.step = json.Step.stateError
          ∨ (json.step s c).1.step = json.Step.stateEndTop := by
        simp only [json.step, hs, json.stateEndTop]
        split_ifs <;> simp [json.error, hs]
      rw [h1, if_neg (by decide)]
      exact ih _ h2 h3

/-- A byte of JSON white space is a space for the scanner, and is none of the bytes the
scanner acts on. -/
theorem ws_byte (c : Nat)
    (h : c = byte ' ' ∨ c = byte '\t' ∨ c = byte '\n' ∨ c = byte '\r') :
    json.isSpace c = true := by
  rcases h with h | h | h | h <;> subst h <;> decide

theorem isSpace_iff (c : Nat) :
    json.isSpace c = true ↔ (c = byte ' ' ∨ c = byte '\t' ∨ c = byte '\n' ∨ c = byte '\r') := by
  constructor
  · intro h
    simp only [json.isSpace, byte, Char.reduceToNat, decide_eq_true_eq] at h
    simp only [byte, Char.reduceToNat]
    omega
  · exact ws_byte c

theorem JWs_nil : JWs [] := fun _ h => absurd h (List.not_mem_nil _)

theorem JWs_cons (c : Nat) (w : Bytes) : JWs (c :: w) ↔ json.isSpace c = true ∧ JWs w := by
  unfold JWs
  rw [isSpace_iff]
  simp

theorem JWs_append (a b : Bytes) : JWs (a ++ b) ↔ JWs a ∧ JWs b := by
  unfold JWs
  simp only [List.mem_append]
  constructor
  · intro h
    exact ⟨fun c hc => h c (Or.inl hc), fun c hc => h c (Or.inr hc)⟩
  · rintro ⟨h1, h2⟩ c (hc | hc)
    · exact h1 c hc
    · exact h2 c hc

/-- A state that stays as it is on a space passes over leading white space. -/
theorem acc_skip (s : json.Scanner)
    (hs : ∀ c, json.isSpace c = true →
      (json.step s c).1 = s ∧ (json.step s c).2 ≠ json.Scan.scanError)
    (a w : Bytes) (ha : JWs a) :
    json.checkValidFrom s (a ++ w) = json.checkValidFrom s w := by
  induction a with
  | nil => rfl
  | cons c a ih =>
    obtain ⟨hc, ha2⟩ := (JWs_cons c a).1 ha
    obtain ⟨h1, h2⟩ := hs c hc
    rw [List.cons_append, acc_cons, if_neg h2, h1]
    exact ih ha2

namespace json

open ParseState Scan

theorem skip_BeginValue (σ : List json.ParseState) (c : Nat) (h : json.isSpace c = true) :
    (json.step (cfg json.Step.stateBeginValue σ) c).1 = cfg json.Step.stateBeginValue σ
    ∧ (json.step (cfg json.Step.stateBeginValue σ) c).2 ≠ json.Scan.scanError := by
  simp [json.step, cfg, json.stateBeginValue, h]

theorem skip_BeginValueOrEmpty (σ : List json.ParseState) (c : Nat)
    (h : json.isSpace c = true) :
    (json.step (cfg json.Step.stateBeginValueOrEmpty σ) c).1
      = cfg json.Step.stateBeginValueOrEmpty σ
    ∧ (json.step (cfg json.Step.stateBeginValueOrEmpty σ) c).2 ≠ json.Scan.scanError := by
  simp [json.step, cfg, json.stateBeginValueOrEmpty, h]

theorem skip_BeginString (σ : List json.ParseState) (c : Nat) (h : json.isSpace c = true) :
    (json.step (cfg json.Step.stateBeginString σ) c).1 = cfg json.Step.stateBeginString σ
    ∧ (json.step (cfg json.Step.stateBeginString σ) c).2 ≠ json.Scan.scanError := by
  simp [json.step, cfg, json.stateBeginString, h]

theorem skip_BeginStringOrEmpty (σ : List json.ParseState) (c : Nat)
    (h : json.isSpace c = true) :
    (json.step (cfg json.Step.stateBeginStringOrEmpty σ) c).1
      = cfg json.Step.stateBeginStringOrEmpty σ
    ∧ (json.step (cfg json.Step.stateBeginStringOrEmpty σ) c).2 ≠ json.Scan.scanError := by
  simp [json.step, cfg, json.stateBeginStringOrEmpty, h]

theorem skip_EndValue (p : json.ParseState) (σ : List json.ParseState) (c : Nat)
    (h : json.isSpace c = true) :
    (json.step (cfg json.Step.stateEndValue (p :: σ)) c).1
      = cfg json.Step.stateEndValue (p :: σ)
    ∧ (json.step (cfg json.Step.stateEndValue (p :: σ)) c).2 ≠ json.Scan.scanError := by
  simp [json.step, cfg, json.stateEndValue, h]

theorem skip_Top (c : Nat) (h : json.isSpace c = true) :
    (json.step cfgTop c).1 = cfgTop ∧ (json.step cfgTop c).2 ≠ json.Scan.scanError := by
  simp [json.step, cfgTop, json.stateEndTop, h]

/-- After the top-level value the scanner accepts white space and nothing else. -/
theorem acc_Top (w : Bytes) : json.checkValidFrom cfgTop w = true ↔ JWs w := by
  induction w with
  | nil => simp [acc_nil, json.eof, cfgTop, JWs_nil]
  | cons c w ih =>
    rw [JWs_cons, acc_cons]
    by_cases hc : json.isSpace c = true
    · obtain ⟨h1, h2⟩ := skip_Top c hc
      rw [if_neg h2, h1, ih]
      simp [hc]
    · have h1 : (json.step cfgTop c).2 = json.Scan.scanEnd := by
        simp [json.step, cfgTop, json.stateEndTop, hc]
      rw [h1, if_neg (by decide)]
      rw [acc_error _ (by simp [json.step, cfgTop, json.stateEndTop, hc, json.error])
        (by simp [json.step, cfgTop, json.stateEndTop, hc, json.error])]
      simp [hc]

/-- With an empty stack, `stateEndValue` behaves as the state after the top-level value. -/
theorem acc_EndValue_nil (w : Bytes) :
    json.checkValidFrom (cfg json.Step.stateEndValue []) w = json.checkValidFrom cfgTop w := by
  cases w with
  | nil => simp [acc_nil, json.eof, cfg, cfgTop, json.step, json.stateEndValue, json.stateEndTop,
      json.isSpace, byte]
  | cons c w =>
    rw [acc_cons, acc_cons]
    have : json.step (cfg json.Step.stateEndValue []) c = json.step cfgTop c := by
      simp [json.step, cfg, cfgTop, json.stateEndValue]
    rw [this]

/-- The scanner after a `]` or `}` that closes a value begun with the stack `σ`. -/
theorem acc_pop (st : json.Step) (p : json.ParseState) (σ : List json.ParseState) (w : Bytes) :
    json.checkValidFrom (json.popParseState (cfg st (p :: σ))) w
      = json.checkValidFrom (cfg json.Step.stateEndValue σ) w := by
  cases σ with
  | nil =>
    rw [acc_EndValue_nil]
    rfl
  | cons q σ => rfl

/-- The result of `stateEndValue` does not depend on the state function it is called from. -/
theorem stateEndValue_cfg (st : json.Step) (σ : List json.ParseState) (c : Nat) :
    json.stateEndValue (cfg st σ) c = json.stateEndValue (cfg json.Step.stateEndValue σ) c := by
  cases σ with
  | nil => rfl
  | cons p σ =>
    cases p <;> simp only [json.stateEndValue, cfg, json.error, json.popParseState]



/-! ### The transitions of the scanner, state by state -/

/-- The result of `state0` does not depend on the state function it is called from. -/
theorem state0_cfg (st : Step) (σ : List ParseState) (c : Nat) :
    json.state0 (cfg st σ) c = json.state0 (cfg Step.state0 σ) c := by
  simp only [json.state0]
  by_cases h1 : c = byte '.'
  · simp only [if_pos h1]; rfl
  · simp only [if_neg h1]
    by_cases h2 : c = byte 'e' ∨ c = byte 'E'
    · simp only [if_pos h2]; rfl
    · simp only [if_neg h2]
      rw [stateEndValue_cfg st, stateEndValue_cfg Step.state0]

/-- The result of `stateESign` does not depend on the state function it is called from. -/
theorem stateESign_cfg (st : Step) (σ : List ParseState) (c : Nat) :
    json.stateESign (cfg st σ) c = json.stateESign (cfg Step.stateESign σ) c := by
  simp only [json.stateESign]
  by_cases h1 : byte '0' ≤ c ∧ c ≤ byte '9'
  · simp only [if_pos h1]; rfl
  · simp only [if_neg h1]; rfl

/-- On a byte that is no space, the result of `stateBeginValue` does not depend on the
state function it is called from. -/
theorem stateBeginValue_cfg (st : Step) (σ : List ParseState) (c : Nat)
    (h : ¬ isSpace c = true) :
    json.stateBeginValue (cfg st σ) c = json.stateBeginValue (cfg Step.stateBeginValue σ) c := by
  simp only [json.stateBeginValue, if_neg h]
  rfl

/-- On a byte that is no space, the result of `stateBeginString` does not depend on the
state function it is called from. -/
theorem stateBeginString_cfg (st : Step) (σ : List ParseState) (c : Nat)
    (h : ¬ isSpace c = true) :
    json.stateBeginString (cfg st σ) c
      = json.stateBeginString (cfg Step.stateBeginString σ) c := by
  simp only [json.stateBeginString, if_neg h]
  rfl

theorem acc_BeginValue (σ : List ParseState) (c : Nat) (w : Bytes) :
    acc Step.stateBeginValue σ (c :: w) =
      if isSpace c = true then acc Step.stateBeginValue σ w
      else if c = byte '{' then if σ.length + 1 ≤ maxNestingDepth then acc Step.stateBeginStringOrEmpty (parseObjectKey :: σ) w
        else false
      else if c = byte '[' then if σ.length + 1 ≤ maxNestingDepth then acc Step.stateBeginValueOrEmpty (parseArrayValue :: σ) w
        else false
      else if c = byte '"' then acc Step.stateInString σ w
      else if c = byte '-' then acc Step.stateNeg σ w
      else if c = byte '0' then acc Step.state0 σ w
      else if c = byte 't' then acc Step.stateT σ w
      else if c = byte 'f' then acc Step.stateF σ w
      else if c = byte 'n' then acc Step.stateN σ w
      else if byte '1' ≤ c ∧ c ≤ byte '9' then acc Step.state1 σ w
      else false := by
  unfold acc
  rw [acc_cons]
  simp only [json.step, cfg, json.stateBeginValue, json.pushParseState, List.length_cons]
  by_cases h1 : isSpace c = true
  · simp only [if_pos h1]
    rfl
  · simp only [if_neg h1]
    by_cases h2 : c = byte '{'
    · simp only [if_pos h2]
      by_cases h3 : σ.length + 1 ≤ maxNestingDepth
      · simp only [if_pos h3]
        rfl
      · simp only [if_neg h3]
        rfl
    · simp only [if_neg h2]
      by_cases h4 : c = byte '['
      · simp only [if_pos h4]
        by_cases h5 : σ.length + 1 ≤ maxNestingDepth
        · simp only [if_pos h5]
          rfl
        · simp only [if_neg h5]
          rfl
      · simp only [if_neg h4]
        by_cases h6 : c = byte '"'
        · simp only [if_pos h6]
          rfl
        · simp only [if_neg h6]
          by_cases h7 : c = byte '-'
          · simp only [if_pos h7]
            rfl
          · simp only [if_neg h7]
            by_cases h8 : c = byte '0'
            · simp only [if_pos h8]
              rfl
            · simp only [if_neg h8]
              by_cases h9 : c = byte 't'
              · simp only [if_pos h9]
                rfl
              · simp only [if_neg h9]
                by_cases h10 : c = byte 'f'
                · simp only [if_pos h10]
                  rfl
                · simp only [if_neg h10]
                  by_cases h11 : c = byte 'n'
                  · simp only [if_pos h11]
                    rfl
                  · simp only [if_neg h11]
                    by_cases h12 : byte '1' ≤ c ∧ c ≤ byte '9'
                    · simp only [if_pos h12]
                      rfl
                    · simp only [if_neg h12]
                      rfl


theorem acc_BeginString (σ : List ParseState) (c : Nat) (w : Bytes) :
    acc Step.stateBeginString σ (c :: w) =
      if isSpace c = true then acc Step.stateBeginString σ w
      else if c = byte '"' then acc Step.stateInString σ w
      else false := by
  unfold acc
  rw [acc_cons]
  simp only [json.step, cfg, json.stateBeginString]
  by_cases h1 : isSpace c = true
  · simp only [if_pos h1]
    rfl
  · simp only [if_neg h1]
    by_cases h2 : c = byte '"'
    · simp only [if_pos h2]
      rfl
    · simp only [if_neg h2]
      rfl


theorem acc_InString (σ : List ParseState) (c : Nat) (w : Bytes) :
    acc Step.stateInString σ (c :: w) =
      if c = byte '"' then acc Step.stateEndValue σ w
      else if c = byte '\\' then acc Step.stateInStringEsc σ w
      else if c < 0x20 then false
      else acc Step.stateInString σ w := by
  unfold acc
  rw [acc_cons]
  simp only [json.step, cfg, json.stateInString]
  by_cases h1 : c = byte '"'
  · simp only [if_pos h1]
    rfl
  · simp only [if_neg h1]
    by_cases h2 : c = byte '\\'
    · simp only [if_pos h2]
      rfl
    · simp only [if_neg h2]
      by_cases h3 : c < 0x20
      · simp only [if_pos h3]
        rfl
      · simp only [if_neg h3]
        rfl


theorem acc_InStringEsc (σ : List ParseState) (c : Nat) (w : Bytes) :
    acc Step.stateInStringEsc σ (c :: w) =
      if c = byte 'b' ∨ c = byte 'f' ∨ c = byte 'n' ∨ c = byte 'r' ∨ c = byte 't' ∨ c = byte '\\'
          ∨ c = byte '/' ∨ c = byte '"' then acc Step.stateInString σ w
      else if c = byte 'u' then acc Step.stateInStringEscU σ w
      else false := by
  unfold acc
  rw [acc_cons]
  simp only [json.step, cfg, json.stateInStringEsc]
  by_cases h1 : c = byte 'b' ∨ c = byte 'f' ∨ c = byte 'n' ∨ c = byte 'r' ∨ c = byte 't' ∨ c = byte '\\'
          ∨ c = byte '/' ∨ c = byte '"'
  · simp only [if_pos h1]
    rfl
  · simp only [if_neg h1]
    by_cases h2 : c = byte 'u'
    · simp only [if_pos h2]
      rfl
    · simp only [if_neg h2]
      rfl


theorem acc_InStringEscU (σ : List ParseState) (c : Nat) (w : Bytes) :
    acc Step.stateInStringEscU σ (c :: w) =
      if isHex c = true then acc Step.stateInStringEscU1 σ w
      else false := by
  unfold acc
  rw [acc_cons]
  simp only [json.step, cfg]
  by_cases h1 : isHex c = true
  · simp only [if_pos h1]
    rfl
  · simp only [if_neg h1]
    rfl


theorem acc_InStringEscU1 (σ : List ParseState) (c : Nat) (w : Bytes) :
    acc Step.stateInStringEscU1 σ (c :: w) =
      if isHex c = true then acc Step.stateInStringEscU12 σ w
      else false := by
  unfold acc
  rw [acc_cons]
  simp only [json.step, cfg]
  by_cases h1 : isHex c = true
  · simp only [if_pos h1]
    rfl
  · simp only [if_neg h1]
    rfl


theorem acc_InStringEscU12 (σ : List ParseState) (c : Nat) (w : Bytes) :
    acc Step.stateInStringEscU12 σ (c :: w) =
      if isHex c = true then acc Step.stateInStringEscU123 σ w
      else false := by
  unfold acc
  rw [acc_cons]
  simp only [json.step, cfg]
  by_cases h1 : isHex c = true
  · simp only [if_pos h1]
    rfl
  · simp only [if_neg h1]
    rfl


theorem acc_InStringEscU123 (σ : List ParseState) (c : Nat) (w : Bytes) :
    acc Step.stateInStringEscU123 σ (c :: w) =
      if isHex c = true then acc Step.stateInString σ w
      else false := by
  unfold acc
  rw [acc_cons]
  simp only [json.step, cfg]
  by_cases h1 : isHex c = true
  · simp only [if_pos h1]
    rfl
  · simp only [if_neg h1]
    rfl


theorem acc_Neg (σ : List ParseState) (c : Nat) (w : Bytes) :
    acc Step.stateNeg σ (c :: w) =
      if c = byte '0' then acc Step.state0 σ w
      else if byte '1' ≤ c ∧ c ≤ byte '9' then acc Step.state1 σ w
      else false := by
  unfold acc
  rw [acc_cons]
  simp only [json.step, cfg, json.stateNeg]
  by_cases h1 : c = byte '0'
  · simp only [if_pos h1]
    rfl
  · simp only [if_neg h1]
    by_cases h2 : byte '1' ≤ c ∧ c ≤ byte '9'
    · simp only [if_pos h2]
      rfl
    · simp only [if_neg h2]
      rfl


theorem acc_Dot (σ : List ParseState) (c : Nat) (w : Bytes) :
    acc Step.stateDot σ (c :: w) =
      if byte '0' ≤ c ∧ c ≤ byte '9' then acc Step.stateDot0 σ w
      else false := by
  unfold acc
  rw [acc_cons]
  simp only [json.step, cfg, json.stateDot]
  by_cases h1 : byte '0' ≤ c ∧ c ≤ byte '9'
  · simp only [if_pos h1]
    rfl
  · simp only [if_neg h1]
    rfl


theorem acc_ESign (σ : List ParseState) (c : Nat) (w : Bytes) :
    acc Step.stateESign σ (c :: w) =
      if byte '0' ≤ c ∧ c ≤ byte '9' then acc Step.stateE0 σ w
      else false := by
  unfold acc
  rw [acc_cons]
  simp only [json.step, cfg, json.stateESign]
  by_cases h1 : byte '0' ≤ c ∧ c ≤ byte '9'
  · simp only [if_pos h1]
    rfl
  · simp only [if_neg h1]
    rfl


theorem acc_T (σ : List ParseState) (c : Nat) (w : Bytes) :
    acc Step.stateT σ (c :: w) =
      if c = byte 'r' then acc Step.stateTr σ w
      else false := by
  unfold acc
  rw [acc_cons]
  simp only [json.step, cfg, json.expectByte]
  by_cases h1 : c = byte 'r'
  · simp only [if_pos h1]
    rfl
  · simp only [if_neg h1]
    rfl


theorem acc_Tr (σ : List ParseState) (c : Nat) (w : Bytes) :
    acc Step.stateTr σ (c :: w) =
      if c = byte 'u' then acc Step.stateTru σ w
      else false := by
  unfold acc
  rw [acc_cons]
  simp only [json.step, cfg, json.expectByte]
  by_cases h1 : c = byte 'u'
  · simp only [if_pos h1]
    rfl
  · simp only [if_neg h1]
    rfl


theorem acc_Tru (σ : List ParseState) (c : Nat) (w : Bytes) :
    acc Step.stateTru σ (c :: w) =
      if c = byte 'e' then acc Step.stateEndValue σ w
      else false := by
  unfold acc
  rw [acc_cons]
  simp only [json.step, cfg, json.expectByte]
  by_cases h1 : c = byte 'e'
  · simp only [if_pos h1]
    rfl
  · simp only [if_neg h1]
    rfl


theorem acc_F (σ : List ParseState) (c : Nat) (w : Bytes) :
    acc Step.stateF σ (c :: w) =
      if c = byte 'a' then acc Step.stateFa σ w
      else false := by
  unfold acc
  rw [acc_cons]
  simp only [json.step, cfg, json.expectByte]
  by_cases h1 : c = byte 'a'
  · simp only [if_pos h1]
    rfl
  · simp only [if_neg h1]
    rfl


theorem acc_Fa (σ : List ParseState) (c : Nat) (w : Bytes) :
    acc Step.stateFa σ (c :: w) =
      if c = byte 'l' then acc Step.stateFal σ w
      else false := by
  unfold acc
  rw [acc_cons]
  simp only [json.step, cfg, json.expectByte]
  by_cases h1 : c = byte 'l'
  · simp only [if_pos h1]
    rfl
  · simp only [if_neg h1]
    rfl


theorem acc_Fal (σ : List ParseState) (c : Nat) (w : Bytes) :
    acc Step.stateFal σ (c :: w) =
      if c = byte 's' then acc Step.stateFals σ w
      else false := by
  unfold acc
  rw [acc_cons]
  simp only [json.step, cfg, json.expectByte]
  by_cases h1 : c = byte 's'
  · simp only [if_pos h1]
    rfl
  · simp only [if_neg h1]
    rfl


theorem acc_Fals (σ : List ParseState) (c : Nat) (w : Bytes) :
    acc Step.stateFals σ (c :: w) =
      if c = byte 'e' then acc Step.stateEndValue σ w
      else false := by
  unfold acc
  rw [acc_cons]
  simp only [json.step, cfg, json.expectByte]
  by_cases h1 : c = byte 'e'
  · simp only [if_pos h1]
    rfl
  · simp only [if_neg h1]
    rfl


theorem acc_N (σ : List ParseState) (c : Nat) (w : Bytes) :
    acc Step.stateN σ (c :: w) =
      if c = byte 'u' then acc Step.stateNu σ w
      else false := by
  unfold acc
  rw [acc_cons]
  simp only [json.step, cfg, json.expectByte]
  by_cases h1 : c = byte 'u'
  · simp only [if_pos h1]
    rfl
  · simp only [if_neg h1]
    rfl


theorem acc_Nu (σ : List ParseState) (c : Nat) (w : Bytes) :
    acc Step.stateNu σ (c :: w) =
      if c = byte 'l' then acc Step.stateNul σ w
      else false := by
  unfold acc
  rw [acc_cons]
  simp only [json.step, cfg, json.expectByte]
  by_cases h1 : c = byte 'l'
  · simp only [if_pos h1]
    rfl
  · simp only [if_neg h1]
    rfl


theorem acc_Nul (σ : List ParseState) (c : Nat) (w : Bytes) :
    acc Step.stateNul σ (c :: w) =
      if c = byte 'l' then acc Step.stateEndValue σ w
      else false := by
  unfold acc
  rw [acc_cons]
  simp only [json.step, cfg, json.expectByte]
  by_cases h1 : c = byte 'l'
  · simp only [if_pos h1]
    rfl
  · simp only [if_neg h1]
    rfl


theorem acc_EndValue_key (σ : List ParseState) (c : Nat) (w : Bytes) :
    acc Step.stateEndValue (parseObjectKey :: σ) (c :: w) =
      if isSpace c = true then acc Step.stateEndValue (parseObjectKey :: σ) w
      else if c = byte ':' then acc Step.stateBeginValue (parseObjectValue :: σ) w
      else false := by
  unfold acc
  rw [acc_cons]
  simp only [json.step, cfg, json.stateEndValue]
  by_cases h1 : isSpace c = true
  · simp only [if_pos h1]
    rfl
  · simp only [if_neg h1]
    by_cases h2 : c = byte ':'
    · simp only [if_pos h2]
      rfl
    · simp only [if_neg h2]
      rfl


theorem acc_state0 (σ : List ParseState) (c : Nat) (w : Bytes) :
    acc Step.state0 σ (c :: w) =
      if c = byte '.' then acc Step.stateDot σ w
      else if c = byte 'e' ∨ c = byte 'E' then acc Step.stateE σ w
      else acc Step.stateEndValue σ (c :: w) := by
  unfold acc
  rw [acc_cons]
  simp only [json.step, cfg, json.state0]
  by_cases h1 : c = byte '.'
  · simp only [if_pos h1]
    rfl
  · simp only [if_neg h1]
    by_cases h2 : c = byte 'e' ∨ c = byte 'E'
    · simp only [if_pos h2]
      rfl
    · simp only [if_neg h2]
      rw [acc_cons]
      have hh := stateEndValue_cfg Step.state0 σ c
      simp only [cfg] at hh
      rw [hh]
      rfl


theorem acc_state1 (σ : List ParseState) (c : Nat) (w : Bytes) :
    acc Step.state1 σ (c :: w) =
      if byte '0' ≤ c ∧ c ≤ byte '9' then acc Step.state1 σ w
      else acc Step.state0 σ (c :: w) := by
  unfold acc
  rw [acc_cons]
  simp only [json.step, cfg, json.state1]
  by_cases h1 : byte '0' ≤ c ∧ c ≤ byte '9'
  · simp only [if_pos h1]
    rfl
  · simp only [if_neg h1]
    rw [acc_cons]
    have hh := state0_cfg Step.state1 σ c
    simp only [cfg] at hh
    rw [hh]
    rfl


theorem acc_Dot0 (σ : List ParseState) (c : Nat) (w : Bytes) :
    acc Step.stateDot0 σ (c :: w) =
      if byte '0' ≤ c ∧ c ≤ byte '9' then acc Step.stateDot0 σ w
      else if c = byte 'e' ∨ c = byte 'E' then acc Step.stateE σ w
      else acc Step.stateEndValue σ (c :: w) := by
  unfold acc
  rw [acc_cons]
  simp only [json.step, cfg, json.stateDot0]
  by_cases h1 : byte '0' ≤ c ∧ c ≤ byte '9'
  · simp only [if_pos h1]
    rfl
  · simp only [if_neg h1]
    by_cases h2 : c = byte 'e' ∨ c = byte 'E'
    · simp only [if_pos h2]
      rfl
    · simp only [if_neg h2]
      rw [acc_cons]
      have hh := stateEndValue_cfg Step.stateDot0 σ c
      simp only [cfg] at hh
      rw [hh]
      rfl


theorem acc_E0 (σ : List ParseState) (c : Nat) (w : Bytes) :
    acc Step.stateE0 σ (c :: w) =
      if byte '0' ≤ c ∧ c ≤ byte '9' then acc Step.stateE0 σ w
      else acc Step.stateEndValue σ (c :: w) := by
  unfold acc
  rw [acc_cons]
  simp only [json.step, cfg, json.stateE0]
  by_cases h1 : byte '0' ≤ c ∧ c ≤ byte '9'
  · simp only [if_pos h1]
    rfl
  · simp only [if_neg h1]
    rw [acc_cons]
    have hh := stateEndValue_cfg Step.stateE0 σ c
    simp only [cfg] at hh
    rw [hh]
    rfl


theorem acc_E (σ : List ParseState) (c : Nat) (w : Bytes) :
    acc Step.stateE σ (c :: w) =
      if c = byte '+' ∨ c = byte '-' then acc Step.stateESign σ w
      else acc Step.stateESign σ (c :: w) := by
  unfold acc
  rw [acc_cons]
  simp only [json.step, cfg, json.stateE]
  by_cases h1 : c = byte '+' ∨ c = byte '-'
  · simp only [if_pos h1]
    rfl
  · simp only [if_neg h1]
    rw [acc_cons]
    have hh := stateESign_cfg Step.stateE σ c
    simp only [cfg] at hh
    rw [hh]
    rfl


theorem acc_BeginValueOrEmpty (σ : List ParseState) (c : Nat) (w : Bytes) :
    acc Step.stateBeginValueOrEmpty σ (c :: w) =
      if isSpace c = true then acc Step.stateBeginValueOrEmpty σ w
      else if c = byte ']' then acc Step.stateEndValue σ (c :: w)
      else acc Step.stateBeginValue σ (c :: w) := by
  unfold acc
  rw [acc_cons]
  simp only [json.step, cfg, json.stateBeginValueOrEmpty]
  by_cases h1 : isSpace c = true
  · simp only [if_pos h1]
    rfl
  · simp only [if_neg h1]
    by_cases h2 : c = byte ']'
    · simp only [if_pos h2]
      rw [acc_cons]
      have hh := stateEndValue_cfg Step.stateBeginValueOrEmpty σ c
      simp only [cfg] at hh
      rw [hh]
      rfl
    · simp only [if_neg h2]
      rw [acc_cons]
      have hh := stateBeginValue_cfg Step.stateBeginValueOrEmpty σ c h1
      simp only [cfg] at hh
      rw [hh]
      rfl


theorem acc_BeginStringOrEmpty (p : ParseState) (σ : List ParseState) (c : Nat) (w : Bytes) :
    acc Step.stateBeginStringOrEmpty (p :: σ) (c :: w) =
      if isSpace c = true then acc Step.stateBeginStringOrEmpty (p :: σ) w
      else if c = byte '}' then acc Step.stateEndValue (parseObjectValue :: σ) (c :: w)
      else acc Step.stateBeginString (p :: σ) (c :: w) := by
  unfold acc
  rw [acc_cons]
  simp only [json.step, cfg, json.stateBeginStringOrEmpty, List.tail_cons]
  by_cases h1 : isSpace c = true
  · simp only [if_pos h1]
    rfl
  · simp only [if_neg h1]
    by_cases h2 : c = byte '}'
    · simp only [if_pos h2]
      rw [acc_cons]
      have hh := stateEndValue_cfg Step.stateBeginStringOrEmpty (parseObjectValue :: σ) c
      simp only [cfg] at hh
      rw [hh]
      rfl
    · simp only [if_neg h2]
      rw [acc_cons]
      have hh := stateBeginString_cfg Step.stateBeginStringOrEmpty (p :: σ) c h1
      simp only [cfg] at hh
      rw [hh]
      rfl


theorem acc_EndValue_value (σ : List ParseState) (c : Nat) (w : Bytes) :
    acc Step.stateEndValue (parseObjectValue :: σ) (c :: w) =
      if isSpace c = true then acc Step.stateEndValue (parseObjectValue :: σ) w
      else if c = byte ',' then acc Step.stateBeginString (parseObjectKey :: σ) w
      else if c = byte '}' then acc Step.stateEndValue σ w
      else false := by
  unfold acc
  rw [acc_cons]
  simp only [json.step, cfg, json.stateEndValue]
  by_cases h1 : isSpace c = true
  · simp only [if_pos h1]
    rfl
  · simp only [if_neg h1]
    by_cases h2 : c = byte ','
    · simp only [if_pos h2]
      rfl
    · simp only [if_neg h2]
      by_cases h3 : c = byte '}'
      · simp only [if_pos h3]
        exact acc_pop Step.stateEndValue parseObjectValue σ w
      · simp only [if_neg h3]
        rfl


theorem acc_EndValue_array (σ : List ParseState) (c : Nat) (w : Bytes) :
    acc Step.stateEndValue (parseArrayValue :: σ) (c :: w) =
      if isSpace c = true then acc Step.stateEndValue (parseArrayValue :: σ) w
      else if c = byte ',' then acc Step.stateBeginValue (parseArrayValue :: σ) w
      else if c = byte ']' then acc Step.stateEndValue σ w
      else false := by
  unfold acc
  rw [acc_cons]
  simp only [json.step, cfg, json.stateEndValue]
  by_cases h1 : isSpace c = true
  · simp only [if_pos h1]
    rfl
  · simp only [if_neg h1]
    by_cases h2 : c = byte ','
    · simp only [if_pos h2]
      rfl
    · simp only [if_neg h2]
      by_cases h3 : c = byte ']'
      · simp only [if_pos h3]
        exact acc_pop Step.stateEndValue parseArrayValue σ w
      · simp only [if_neg h3]
        rfl


/-! ### The scanner at the end of the input -/

theorem acc_BeginValue_nil (σ : List ParseState) : acc Step.stateBeginValue σ [] = false := rfl

theorem acc_BeginValueOrEmpty_nil (σ : List ParseState) : acc Step.stateBeginValueOrEmpty σ [] = false := rfl

theorem acc_BeginString_nil (σ : List ParseState) : acc Step.stateBeginString σ [] = false := rfl

theorem acc_BeginStringOrEmpty_nil (σ : List ParseState) : acc Step.stateBeginStringOrEmpty σ [] = false := rfl

theorem acc_InString_nil (σ : List ParseState) : acc Step.stateInString σ [] = false := rfl

theorem acc_InStringEsc_nil (σ : List ParseState) : acc Step.stateInStringEsc σ [] = false := rfl

theorem acc_InStringEscU_nil (σ : List ParseState) : acc Step.stateInStringEscU σ [] = false := rfl

theorem acc_InStringEscU1_nil (σ : List ParseState) : acc Step.stateInStringEscU1 σ [] = false := rfl

theorem acc_InStringEscU12_nil (σ : List ParseState) : acc Step.stateInStringEscU12 σ [] = false := rfl

theorem acc_InStringEscU123_nil (σ : List ParseState) : acc Step.stateInStringEscU123 σ [] = false := rfl

theorem acc_Neg_nil (σ : List ParseState) : acc Step.stateNeg σ [] = false := rfl

theorem acc_Dot_nil (σ : List ParseState) : acc Step.stateDot σ [] = false := rfl

theorem acc_E_nil (σ : List ParseState) : acc Step.stateE σ [] = false := rfl

theorem acc_ESign_nil (σ : List ParseState) : acc Step.stateESign σ [] = false := rfl

theorem acc_T_nil (σ : List ParseState) : acc Step.stateT σ [] = false := rfl

theorem acc_Tr_nil (σ : List ParseState) : acc Step.stateTr σ [] = false := rfl

theorem acc_Tru_nil (σ : List ParseState) : acc Step.stateTru σ [] = false := rfl

theorem acc_F_nil (σ : List ParseState) : acc Step.stateF σ [] = false := rfl

theorem acc_Fa_nil (σ : List ParseState) : acc Step.stateFa σ [] = false := rfl

theorem acc_Fal_nil (σ : List ParseState) : acc Step.stateFal σ [] = false := rfl

theorem acc_Fals_nil (σ : List ParseState) : acc Step.stateFals σ [] = false := rfl

theorem acc_N_nil (σ : List ParseState) : acc Step.stateN σ [] = false := rfl

theorem acc_Nu_nil (σ : List ParseState) : acc Step.stateNu σ [] = false := rfl

theorem acc_Nul_nil (σ : List ParseState) : acc Step.stateNul σ [] = false := rfl

theorem acc_EndValue_cons_nil (p : ParseState) (σ : List ParseState) :
    acc Step.stateEndValue (p :: σ) [] = false := rfl

theorem acc_EndValue_nil_nil : acc Step.stateEndValue [] [] = true := rfl

theorem acc_state0_nil (σ : List ParseState) :
    acc Step.state0 σ [] = acc Step.stateEndValue σ [] := by
  cases σ <;> rfl

theorem acc_state1_nil (σ : List ParseState) :
    acc Step.state1 σ [] = acc Step.stateEndValue σ [] := by
  cases σ <;> rfl

theorem acc_Dot0_nil (σ : List ParseState) :
    acc Step.stateDot0 σ [] = acc Step.stateEndValue σ [] := by
  cases σ <;> rfl

theorem acc_E0_nil (σ : List ParseState) :
    acc Step.stateE0 σ [] = acc Step.stateEndValue σ [] := by
  cases σ <;> rfl

/-! ### Strings -/

theorem isHex_iff (c : Nat) : isHex c = true ↔ isHexDigit c := by
  simp [isHex, isHexDigit]

/-- The scanner passes over the characters of a string and its closing quote. -/
theorem str_complete (body : Bytes) (h : JChars body) (σ : List ParseState) (rest : Bytes) :
    acc Step.stateInString σ (body ++ byte '"' :: rest) = acc Step.stateEndValue σ rest := by
  induction h with
  | nil => rw [List.nil_append, acc_InString, if_pos rfl]
  | plain c r h1 h2 h3 _ ih =>
    rw [List.cons_append, acc_InString, if_neg h2, if_neg h3, if_neg (by omega), ih]
  | escape c r h1 _ ih =>
    have h1b : c = byte 'b' ∨ c = byte 'f' ∨ c = byte 'n' ∨ c = byte 'r' ∨ c = byte 't'
        ∨ c = byte '\\' ∨ c = byte '/' ∨ c = byte '"' := by tauto
    rw [List.cons_append, List.cons_append, acc_InString, if_neg (by decide), if_pos rfl,
      acc_InStringEsc, if_pos h1b, ih]
  | unicode a b c d r ha hb hc hd _ ih =>
    simp only [List.cons_append]
    rw [acc_InString, if_neg (by decide), if_pos rfl, acc_InStringEsc, if_neg (by decide),
      if_pos rfl, acc_InStringEscU, if_pos ((isHex_iff a).2 ha), acc_InStringEscU1,
      if_pos ((isHex_iff b).2 hb), acc_InStringEscU12, if_pos ((isHex_iff c).2 hc),
      acc_InStringEscU123, if_pos ((isHex_iff d).2 hd), ih]

/-- What the scanner accepts inside a string is a run of string characters, the closing
quote, and what it accepts behind the string. -/
theorem str_sound (σ : List ParseState) (n : Nat) :
    ∀ w : Bytes, w.length ≤ n → acc Step.stateInString σ w = true →
      ∃ body rest, w = body ++ byte '"' :: rest ∧ JChars body
        ∧ acc Step.stateEndValue σ rest = true := by
  induction n with
  | zero =>
    intro w hw h
    have : w = [] := List.length_eq_zero.1 (by omega)
    subst this
    rw [acc_InString_nil] at h
    exact absurd h (by decide)
  | succ n ih =>
    intro w hw h
    match w, hw, h with
    | [], _, h => rw [acc_InString_nil] at h; exact absurd h (by decide)
    | c :: w, hw, h =>
      simp only [List.length_cons] at hw
      rw [acc_InString] at h
      by_cases h1 : c = byte '"'
      · rw [if_pos h1] at h
        subst h1
        exact ⟨[], w, rfl, JChars.nil, h⟩
      rw [if_neg h1] at h
      by_cases h2 : c = byte '\\'
      · rw [if_pos h2] at h
        subst h2
        match w, hw, h with
        | [], _, h => rw [acc_InStringEsc_nil] at h; exact absurd h (by decide)
        | e :: w, hw, h =>
          simp only [List.length_cons] at hw
          rw [acc_InStringEsc] at h
          by_cases h3 : e = byte 'b' ∨ e = byte 'f' ∨ e = byte 'n' ∨ e = byte 'r'
              ∨ e = byte 't' ∨ e = byte '\\' ∨ e = byte '/' ∨ e = byte '"'
          · rw [if_pos h3] at h
            obtain ⟨body, rest, rfl, hb2, hr⟩ := ih w (by omega) h
            exact ⟨byte '\\' :: e :: body, rest, rfl,
              JChars.escape e body (by tauto) hb2, hr⟩
          rw [if_neg h3] at h
          by_cases h4 : e = byte 'u'
          swap
          · rw [if_neg h4] at h; exact absurd h (by decide)
          rw [if_pos h4] at h
          subst h4
          match w, hw, h with
          | [], _, h => rw [acc_InStringEscU_nil] at h; exact absurd h (by decide)
          | [a], _, h =>
            rw [acc_InStringEscU] at h
            split_ifs at h
            rw [acc_InStringEscU1_nil] at h; exact absurd h (by decide)
          | [a, b], _, h =>
            rw [acc_InStringEscU] at h
            split_ifs at h
            rw [acc_InStringEscU1] at h
            split_ifs at h
            rw [acc_InStringEscU12_nil] at h; exact absurd h (by decide)
          | [a, b, c], _, h =>
            rw [acc_InStringEscU] at h
            split_ifs at h
            rw [acc_InStringEscU1] at h
            split_ifs at h
            rw [acc_InStringEscU12] at h
            split_ifs at h
            rw [acc_InStringEscU123_nil] at h; exact absurd h (by decide)
          | a :: b :: c :: d :: w, hw, h =>
            simp only [List.length_cons] at hw
            rw [acc_InStringEscU] at h
            split_ifs at h with ha
            rw [acc_InStringEscU1] at h
            split_ifs at h with hb
            rw [acc_InStringEscU12] at h
            split_ifs at h with hc
            rw [acc_InStringEscU123] at h
            split_ifs at h with hd
            obtain ⟨body, rest, rfl, hb2, hr⟩ := ih w (by omega) h
            exact ⟨byte '\\' :: byte 'u' :: a :: b :: c :: d :: body, rest, rfl,
              JChars.unicode a b c d body ((isHex_iff a).1 ha) ((isHex_iff b).1 hb)
                ((isHex_iff c).1 hc) ((isHex_iff d).1 hd) hb2, hr⟩
      rw [if_neg h2] at h
      by_cases h3 : c < 0x20
      · rw [if_pos h3] at h; exact absurd h (by decide)
      rw [if_neg h3] at h
      obtain ⟨body, rest, rfl, hb2, hr⟩ := ih w (by omega) h
      exact ⟨c :: body, rest, rfl, JChars.plain c body (by omega) h1 h2 hb2, hr⟩

/-! ### Numbers -/

/-- A digit is none of the other bytes the number states act on. -/
theorem digit_facts (c : Nat) (h : byte '0' ≤ c ∧ c ≤ byte '9') :
    c ≠ byte '.' ∧ ¬ (c = byte 'e' ∨ c = byte 'E') ∧ ¬ (c = byte '+' ∨ c = byte '-') := by
  simp only [byte, Char.reduceToNat] at h ⊢
  omega

theorem NumEnd_nil : NumEnd [] := fun c h => by simp at h

theorem NumEnd_cons (c : Nat) (t : Bytes) :
    NumEnd (c :: t) ↔
      ¬ (byte '0' ≤ c ∧ c ≤ byte '9') ∧ c ≠ byte '.' ∧ ¬ (c = byte 'e' ∨ c = byte 'E') := by
  simp [NumEnd]

theorem acc_state0_end (σ : List ParseState) (w : Bytes) (h : NumEnd w) :
    acc Step.state0 σ w = acc Step.stateEndValue σ w := by
  cases w with
  | nil => exact acc_state0_nil σ
  | cons c t =>
    obtain ⟨-, h2, h3⟩ := (NumEnd_cons c t).1 h
    rw [acc_state0, if_neg h2, if_neg h3]

theorem acc_state1_end (σ : List ParseState) (w : Bytes) (h : NumEnd w) :
    acc Step.state1 σ w = acc Step.stateEndValue σ w := by
  cases w with
  | nil => exact acc_state1_nil σ
  | cons c t =>
    obtain ⟨h1, -, -⟩ := (NumEnd_cons c t).1 h
    rw [acc_state1, if_neg h1, acc_state0_end σ _ h]

theorem acc_Dot0_end (σ : List ParseState) (w : Bytes) (h : NumEnd w) :
    acc Step.stateDot0 σ w = acc Step.stateEndValue σ w := by
  cases w with
  | nil => exact acc_Dot0_nil σ
  | cons c t =>
    obtain ⟨h1, -, h3⟩ := (NumEnd_cons c t).1 h
    rw [acc_Dot0, if_neg h1, if_neg h3]

theorem acc_E0_end (σ : List ParseState) (w : Bytes) (h : NumEnd w) :
    acc Step.stateE0 σ w = acc Step.stateEndValue σ w := by
  cases w with
  | nil => exact acc_E0_nil σ
  | cons c t =>
    obtain ⟨h1, -, -⟩ := (NumEnd_cons c t).1 h
    rw [acc_E0, if_neg h1]

theorem JDigits_cons (c : Nat) (t : Bytes) :
    JDigits (c :: t) ↔ (byte '0' ≤ c ∧ c ≤ byte '9') ∧ JDigits t := by
  simp [JDigits, isDigit]

theorem JDigits_nil : JDigits [] := fun _ h => absurd h (List.not_mem_nil _)

theorem acc_state1_digits (σ : List ParseState) (ds w : Bytes) (h : JDigits ds) :
    acc Step.state1 σ (ds ++ w) = acc Step.state1 σ w := by
  induction ds with
  | nil => rfl
  | cons c t ih =>
    obtain ⟨h1, h2⟩ := (JDigits_cons c t).1 h
    rw [List.cons_append, acc_state1, if_pos h1, ih h2]

theorem acc_Dot0_digits (σ : List ParseState) (ds w : Bytes) (h : JDigits ds) :
    acc Step.stateDot0 σ (ds ++ w) = acc Step.stateDot0 σ w := by
  induction ds with
  | nil => rfl
  | cons c t ih =>
    obtain ⟨h1, h2⟩ := (JDigits_cons c t).1 h
    rw [List.cons_append, acc_Dot0, if_pos h1, ih h2]

theorem acc_E0_digits (σ : List ParseState) (ds w : Bytes) (h : JDigits ds) :
    acc Step.stateE0 σ (ds ++ w) = acc Step.stateE0 σ w := by
  induction ds with
  | nil => rfl
  | cons c t ih =>
    obtain ⟨h1, h2⟩ := (JDigits_cons c t).1 h
    rw [List.cons_append, acc_E0, if_pos h1, ih h2]

/-- The scanner passes over the digits of an exponent. -/
theorem acc_ESign_digits (σ : List ParseState) (ds w : Bytes) (hne : ds ≠ [])
    (h : JDigits ds) (hw : NumEnd w) :
    acc Step.stateESign σ (ds ++ w) = acc Step.stateEndValue σ w := by
  cases ds with
  | nil => exact absurd rfl hne
  | cons c t =>
    obtain ⟨h1, h2⟩ := (JDigits_cons c t).1 h
    rw [List.cons_append, acc_ESign, if_pos h1, acc_E0_digits σ t w h2, acc_E0_end σ w hw]

/-- The scanner passes over an exponent, entered after its `e` or `E`. -/
theorem acc_E_exp (σ : List ParseState) (sign ds w : Bytes)
    (hs : sign = [] ∨ sign = [byte '+'] ∨ sign = [byte '-']) (hne : ds ≠ [])
    (h : JDigits ds) (hw : NumEnd w) :
    acc Step.stateE σ (sign ++ (ds ++ w)) = acc Step.stateEndValue σ w := by
  rcases hs with rfl | rfl | rfl
  · cases ds with
    | nil => exact absurd rfl hne
    | cons c t =>
      obtain ⟨h1, -⟩ := (JDigits_cons c t).1 h
      rw [List.nil_append, List.cons_append, acc_E, if_neg (digit_facts c h1).2.2,
        ← List.cons_append, acc_ESign_digits σ _ w hne h hw]
  · rw [List.singleton_append, acc_E, if_pos (Or.inl rfl), acc_ESign_digits σ _ w hne h hw]
  · rw [List.singleton_append, acc_E, if_pos (Or.inr rfl), acc_ESign_digits σ _ w hne h hw]

/-- An exponent followed by a rest that ends numbers starts with no digit and no `.`. -/
theorem NumEnd_exp (e w : Bytes) (he : JExp e) (hw : NumEnd w) :
    ∀ c ∈ (e ++ w).head?, ¬ (byte '0' ≤ c ∧ c ≤ byte '9') ∧ c ≠ byte '.' := by
  rcases he with rfl | ⟨x, sign, ds, rfl, hx, -, -, -⟩
  · intro c hc
    have := hw c hc
    exact ⟨this.1, this.2.1⟩
  · intro c hc
    simp only [List.cons_append, List.head?_cons, Option.mem_def, Option.some.injEq] at hc
    subst hc
    simp only [byte, Char.reduceToNat] at hx ⊢
    omega

/-- The scanner passes over an optional exponent behind the digits of a fraction. -/
theorem acc_Dot0_exp (σ : List ParseState) (e w : Bytes) (he : JExp e) (hw : NumEnd w) :
    acc Step.stateDot0 σ (e ++ w) = acc Step.stateEndValue σ w := by
  rcases he with rfl | ⟨x, sign, ds, rfl, hx, hs, hne, hd⟩
  · exact acc_Dot0_end σ w hw
  · have hnd : ¬ (byte '0' ≤ x ∧ x ≤ byte '9') := by
      simp only [byte, Char.reduceToNat] at hx ⊢
      omega
    simp only [List.cons_append, List.append_assoc]
    rw [acc_Dot0, if_neg hnd, if_pos hx, acc_E_exp σ sign ds w hs hne hd hw]

/-- The scanner passes over an optional exponent behind the integer part. -/
theorem acc_state0_exp (σ : List ParseState) (e w : Bytes) (he : JExp e) (hw : NumEnd w) :
    acc Step.state0 σ (e ++ w) = acc Step.stateEndValue σ w := by
  rcases he with rfl | ⟨x, sign, ds, rfl, hx, hs, hne, hd⟩
  · exact acc_state0_end σ w hw
  · have hnd : x ≠ byte '.' := by
      simp only [byte, Char.reduceToNat] at hx ⊢
      omega
    simp only [List.cons_append, List.append_assoc]
    rw [acc_state0, if_neg hnd, if_pos hx, acc_E_exp σ sign ds w hs hne hd hw]

/-- The scanner passes over an optional fraction and an optional exponent. -/
theorem acc_state0_frac (σ : List ParseState) (f e w : Bytes) (hf : JFrac f) (he : JExp e)
    (hw : NumEnd w) :
    acc Step.state0 σ (f ++ (e ++ w)) = acc Step.stateEndValue σ w := by
  rcases hf with rfl | ⟨ds, rfl, hne, hd⟩
  · exact acc_state0_exp σ e w he hw
  · cases ds with
    | nil => exact absurd rfl hne
    | cons c t =>
      obtain ⟨h1, h2⟩ := (JDigits_cons c t).1 hd
      simp only [List.cons_append, List.append_assoc]
      rw [acc_state0, if_pos rfl, acc_Dot, if_pos h1, acc_Dot0_digits σ t _ h2,
        acc_Dot0_exp σ e w he hw]

/-- Behind the digits of the integer part the scanner goes on as behind a `0`. -/
theorem acc_state1_frac (σ : List ParseState) (f e w : Bytes) (hf : JFrac f) (he : JExp e)
    (hw : NumEnd w) :
    acc Step.state1 σ (f ++ (e ++ w)) = acc Step.stateEndValue σ w := by
  rw [← acc_state0_frac σ f e w hf he hw]
  rcases hf with rfl | ⟨ds, rfl, -, -⟩
  · rw [List.nil_append]
    cases hx : (e ++ w : Bytes) with
    | nil => rw [acc_state1_nil, acc_state0_nil]
    | cons c t =>
      have := NumEnd_exp e w he hw c (by simp [hx])
      rw [acc_state1, if_neg this.1]
  · simp only [List.cons_append, List.append_assoc]
    rw [acc_state1, if_neg (by decide)]

/-- The first byte of the integer part: what `stateBeginValue` and `stateNeg` do on it. -/
theorem acc_BeginValue_digit (σ : List ParseState) (c : Nat) (t : Bytes)
    (h : byte '0' ≤ c ∧ c ≤ byte '9') :
    acc Step.stateBeginValue σ (c :: t) =
      if c = byte '0' then acc Step.state0 σ t else acc Step.state1 σ t := by
  have hh : ¬ isSpace c = true ∧ c ≠ byte '{' ∧ c ≠ byte '[' ∧ c ≠ byte '"'
      ∧ c ≠ byte '-' ∧ c ≠ byte 't' ∧ c ≠ byte 'f' ∧ c ≠ byte 'n' := by
    simp only [isSpace, byte, Char.reduceToNat, decide_eq_true_eq] at h ⊢
    omega
  rw [acc_BeginValue]
  simp only [if_neg hh.1, if_neg hh.2.1, if_neg hh.2.2.1, if_neg hh.2.2.2.1,
    if_neg hh.2.2.2.2.1, if_neg hh.2.2.2.2.2.1, if_neg hh.2.2.2.2.2.2.1,
    if_neg hh.2.2.2.2.2.2.2]
  by_cases h0 : c = byte '0'
  · simp only [if_pos h0]
  · have h1 : byte '1' ≤ c ∧ c ≤ byte '9' := by
      simp only [byte, Char.reduceToNat] at h h0 ⊢
      omega
    simp only [if_neg h0, if_pos h1]

theorem acc_Neg_digit (σ : List ParseState) (c : Nat) (t : Bytes)
    (h : byte '0' ≤ c ∧ c ≤ byte '9') :
    acc Step.stateNeg σ (c :: t) =
      if c = byte '0' then acc Step.state0 σ t else acc Step.state1 σ t := by
  rw [acc_Neg]
  by_cases h0 : c = byte '0'
  · simp only [if_pos h0]
  · have h1 : byte '1' ≤ c ∧ c ≤ byte '9' := by
      simp only [byte, Char.reduceToNat] at h h0 ⊢
      omega
    simp only [if_neg h0, if_pos h1]

/-- The scanner passes over the integer part, the fraction and the exponent of a number
that is followed by a rest that ends numbers. -/
theorem int_complete (σ : List ParseState) (st : Step)
    (hst : ∀ c t, (byte '0' ≤ c ∧ c ≤ byte '9') → acc st σ (c :: t) =
        if c = byte '0' then acc Step.state0 σ t else acc Step.state1 σ t)
    (i f e w : Bytes) (hi : JInt i) (hf : JFrac f) (he : JExp e) (hw : NumEnd w) :
    acc st σ (i ++ (f ++ (e ++ w))) = acc Step.stateEndValue σ w := by
  rcases hi with rfl | ⟨d, ds, rfl, hd1, hd2, hds⟩
  · rw [List.singleton_append, hst _ _ (by decide), if_pos rfl,
      acc_state0_frac σ f e w hf he hw]
  · have hd0 : d ≠ byte '0' := by
      simp only [byte, Char.reduceToNat] at hd1 ⊢
      omega
    have hd : byte '0' ≤ d ∧ d ≤ byte '9' := by
      simp only [byte, Char.reduceToNat] at hd1 hd2 ⊢
      omega
    rw [List.cons_append, hst _ _ hd, if_neg hd0, acc_state1_digits σ ds _ hds,
      acc_state1_frac σ f e w hf he hw]

/-- The scanner passes over a number that is followed by a rest that ends numbers. -/
theorem num_complete (σ : List ParseState) (n w : Bytes) (hn : JNumber n) (hw : NumEnd w) :
    acc Step.stateBeginValue σ (n ++ w) = acc Step.stateEndValue σ w := by
  obtain ⟨m, i, f, e, rfl, hm, hi, hf, he⟩ := hn
  rcases hm with rfl | rfl
  · simp only [List.nil_append, List.append_assoc]
    exact int_complete σ _ (acc_BeginValue_digit σ) i f e w hi hf he hw
  · simp only [List.cons_append, List.nil_append, List.append_assoc]
    rw [acc_BeginValue, if_neg (by decide), if_neg (by decide), if_neg (by decide),
      if_neg (by decide), if_pos rfl]
    exact int_complete σ _ (acc_Neg_digit σ) i f e w hi hf he hw

/-- What the scanner accepts among the digits of an exponent. -/
theorem sound_E0 (σ : List ParseState) (w : Bytes) (h : acc Step.stateE0 σ w = true) :
    ∃ ds rest, w = ds ++ rest ∧ JDigits ds ∧ acc Step.stateEndValue σ rest = true := by
  induction w with
  | nil => exact ⟨[], [], rfl, JDigits_nil, by rw [← acc_E0_nil]; exact h⟩
  | cons c t ih =>
    rw [acc_E0] at h
    by_cases h1 : byte '0' ≤ c ∧ c ≤ byte '9'
    · rw [if_pos h1] at h
      obtain ⟨ds, rest, rfl, hd, hr⟩ := ih h
      exact ⟨c :: ds, rest, rfl, (JDigits_cons c ds).2 ⟨h1, hd⟩, hr⟩
    · rw [if_neg h1] at h
      exact ⟨[], c :: t, rfl, JDigits_nil, h⟩

theorem sound_ESign (σ : List ParseState) (w : Bytes) (h : acc Step.stateESign σ w = true) :
    ∃ ds rest, w = ds ++ rest ∧ ds ≠ [] ∧ JDigits ds
      ∧ acc Step.stateEndValue σ rest = true := by
  cases w with
  | nil => rw [acc_ESign_nil] at h; exact absurd h (by decide)
  | cons c t =>
    rw [acc_ESign] at h
    by_cases h1 : byte '0' ≤ c ∧ c ≤ byte '9'
    · rw [if_pos h1] at h
      obtain ⟨ds, rest, rfl, hd, hr⟩ := sound_E0 σ t h
      exact ⟨c :: ds, rest, rfl, List.cons_ne_nil _ _, (JDigits_cons c ds).2 ⟨h1, hd⟩, hr⟩
    · rw [if_neg h1] at h; exact absurd h (by decide)

theorem sound_E (σ : List ParseState) (w : Bytes) (h : acc Step.stateE σ w = true) :
    ∃ sign ds rest, w = sign ++ (ds ++ rest)
      ∧ (sign = [] ∨ sign = [byte '+'] ∨ sign = [byte '-']) ∧ ds ≠ [] ∧ JDigits ds
      ∧ acc Step.stateEndValue σ rest = true := by
  cases w with
  | nil => rw [acc_E_nil] at h; exact absurd h (by decide)
  | cons c t =>
    rw [acc_E] at h
    by_cases h1 : c = byte '+' ∨ c = byte '-'
    · rw [if_pos h1] at h
      obtain ⟨ds, rest, rfl, hne, hd, hr⟩ := sound_ESign σ t h
      refine ⟨[c], ds, rest, rfl, ?_, hne, hd, hr⟩
      rcases h1 with rfl | rfl
      · exact Or.inr (Or.inl rfl)
      · exact Or.inr (Or.inr rfl)
    · rw [if_neg h1] at h
      obtain ⟨ds, rest, hw, hne, hd, hr⟩ := sound_ESign σ (c :: t) h
      exact ⟨[], ds, rest, hw, Or.inl rfl, hne, hd, hr⟩

/-- What the scanner accepts behind `e` or `E` makes an exponent with it. -/
theorem sound_exp (σ : List ParseState) (c : Nat) (t : Bytes)
    (hc : c = byte 'e' ∨ c = byte 'E') (h : acc Step.stateE σ t = true) :
    ∃ e rest, c :: t = e ++ rest ∧ JExp e ∧ acc Step.stateEndValue σ rest = true := by
  obtain ⟨sign, ds, rest, rfl, hs, hne, hd, hr⟩ := sound_E σ t h
  refine ⟨c :: (sign ++ ds), rest, by simp, Or.inr ⟨c, sign, ds, rfl, hc, hs, hne, hd⟩, hr⟩

theorem JExp_nil : JExp [] := Or.inl rfl

theorem JFrac_nil : JFrac [] := Or.inl rfl

theorem sound_Dot0 (σ : List ParseState) (w : Bytes) (h : acc Step.stateDot0 σ w = true) :
    ∃ ds e rest, w = ds ++ (e ++ rest) ∧ JDigits ds ∧ JExp e
      ∧ acc Step.stateEndValue σ rest = true := by
  induction w with
  | nil => exact ⟨[], [], [], rfl, JDigits_nil, JExp_nil, by rw [← acc_Dot0_nil]; exact h⟩
  | cons c t ih =>
    rw [acc_Dot0] at h
    by_cases h1 : byte '0' ≤ c ∧ c ≤ byte '9'
    · rw [if_pos h1] at h
      obtain ⟨ds, e, rest, rfl, hd, he, hr⟩ := ih h
      exact ⟨c :: ds, e, rest, rfl, (JDigits_cons c ds).2 ⟨h1, hd⟩, he, hr⟩
    · rw [if_neg h1] at h
      by_cases h2 : c = byte 'e' ∨ c = byte 'E'
      · rw [if_pos h2] at h
        obtain ⟨e, rest, hw, he, hr⟩ := sound_exp σ c t h2 h
        exact ⟨[], e, rest, hw, JDigits_nil, he, hr⟩
      · rw [if_neg h2] at h
        exact ⟨[], [], c :: t, rfl, JDigits_nil, JExp_nil, h⟩

theorem sound_Dot (σ : List ParseState) (w : Bytes) (h : acc Step.stateDot σ w = true) :
    ∃ ds e rest, w = ds ++ (e ++ rest) ∧ ds ≠ [] ∧ JDigits ds ∧ JExp e
      ∧ acc Step.stateEndValue σ rest = true := by
  cases w with
  | nil => rw [acc_Dot_nil] at h; exact absurd h (by decide)
  | cons c t =>
    rw [acc_Dot] at h
    by_cases h1 : byte '0' ≤ c ∧ c ≤ byte '9'
    · rw [if_pos h1] at h
      obtain ⟨ds, e, rest, rfl, hd, he, hr⟩ := sound_Dot0 σ t h
      exact ⟨c :: ds, e, rest, rfl, List.cons_ne_nil _ _,
        (JDigits_cons c ds).2 ⟨h1, hd⟩, he, hr⟩
    · rw [if_neg h1] at h; exact absurd h (by decide)

theorem sound_state0 (σ : List ParseState) (w : Bytes) (h : acc Step.state0 σ w = true) :
    ∃ f e rest, w = f ++ (e ++ rest) ∧ JFrac f ∧ JExp e
      ∧ acc Step.stateEndValue σ rest = true := by
  cases w with
  | nil => exact ⟨[], [], [], rfl, JFrac_nil, JExp_nil, by rw [← acc_state0_nil]; exact h⟩
  | cons c t =>
    rw [acc_state0] at h
    by_cases h1 : c = byte '.'
    · rw [if_pos h1] at h
      subst h1
      obtain ⟨ds, e, rest, rfl, hne, hd, he, hr⟩ := sound_Dot σ t h
      exact ⟨byte '.' :: ds, e, rest, rfl, Or.inr ⟨ds, rfl, hne, hd⟩, he, hr⟩
    · rw [if_neg h1] at h
      by_cases h2 : c = byte 'e' ∨ c = byte 'E'
      · rw [if_pos h2] at h
        obtain ⟨e, rest, hw, he, hr⟩ := sound_exp σ c t h2 h
        exact ⟨[], e, rest, hw, JFrac_nil, he, hr⟩
      · rw [if_neg h2] at h
        exact ⟨[], [], c :: t, rfl, JFrac_nil, JExp_nil, h⟩

theorem sound_state1 (σ : List ParseState) (w : Bytes) (h : acc Step.state1 σ w = true) :
    ∃ ds f e rest, w = ds ++ (f ++ (e ++ rest)) ∧ JDigits ds ∧ JFrac f ∧ JExp e
      ∧ acc Step.stateEndValue σ rest = true := by
  induction w with
  | nil =>
    exact ⟨[], [], [], [], rfl, JDigits_nil, JFrac_nil, JExp_nil,
      by rw [← acc_state1_nil]; exact h⟩
  | cons c t ih =>
    rw [acc_state1] at h
    by_cases h1 : byte '0' ≤ c ∧ c ≤ byte '9'
    · rw [if_pos h1] at h
      obtain ⟨ds, f, e, rest, rfl, hd, hf, he, hr⟩ := ih h
      exact ⟨c :: ds, f, e, rest, rfl, (JDigits_cons c ds).2 ⟨h1, hd⟩, hf, he, hr⟩
    · rw [if_neg h1] at h
      obtain ⟨f, e, rest, hw, hf, he, hr⟩ := sound_state0 σ (c :: t) h
      exact ⟨[], f, e, rest, hw, JDigits_nil, hf, he, hr⟩

/-- What the scanner accepts from the first digit of the integer part on. -/
theorem sound_int (σ : List ParseState) (c : Nat) (t : Bytes)
    (hc : byte '0' ≤ c ∧ c ≤ byte '9')
    (h : (if c = byte '0' then acc Step.state0 σ t else acc Step.state1 σ t) = true) :
    ∃ i f e rest, c :: t = i ++ (f ++ (e ++ rest)) ∧ JInt i ∧ JFrac f ∧ JExp e
      ∧ acc Step.stateEndValue σ rest = true := by
  by_cases h0 : c = byte '0'
  · rw [if_pos h0] at h
    subst h0
    obtain ⟨f, e, rest, rfl, hf, he, hr⟩ := sound_state0 σ t h
    exact ⟨[byte '0'], f, e, rest, rfl, Or.inl rfl, hf, he, hr⟩
  · rw [if_neg h0] at h
    obtain ⟨ds, f, e, rest, rfl, hd, hf, he, hr⟩ := sound_state1 σ t h
    have h1 : byte '1' ≤ c ∧ c ≤ byte '9' := by
      simp only [byte, Char.reduceToNat] at hc h0 ⊢
      omega
    exact ⟨c :: ds, f, e, rest, rfl, Or.inr ⟨c, ds, rfl, h1.1, h1.2, hd⟩, hf, he, hr⟩

/-- What the scanner accepts from a digit at the beginning of a value on is a number and
what it accepts behind a value. -/
theorem sound_num_digit (σ : List ParseState) (c : Nat) (t : Bytes)
    (hc : byte '0' ≤ c ∧ c ≤ byte '9') (h : acc Step.stateBeginValue σ (c :: t) = true) :
    ∃ n rest, c :: t = n ++ rest ∧ JNumber n ∧ acc Step.stateEndValue σ rest = true := by
  rw [acc_BeginValue_digit σ c t hc] at h
  obtain ⟨i, f, e, rest, hw, hi, hf, he, hr⟩ := sound_int σ c t hc h
  exact ⟨i ++ f ++ e, rest, by rw [hw]; simp, ⟨[], i, f, e, by simp, Or.inl rfl, hi, hf, he⟩, hr⟩

/-- What the scanner accepts behind a `-` at the beginning of a value makes a number with
it. -/
theorem sound_num_neg (σ : List ParseState) (t : Bytes) (h : acc Step.stateNeg σ t = true) :
    ∃ n rest, byte '-' :: t = n ++ rest ∧ JNumber n
      ∧ acc Step.stateEndValue σ rest = true := by
  cases t with
  | nil => rw [acc_Neg_nil] at h; exact absurd h (by decide)
  | cons c t =>
    have hc : byte '0' ≤ c ∧ c ≤ byte '9' := by
      rw [acc_Neg] at h
      by_cases h0 : c = byte '0'
      · subst h0; decide
      · rw [if_neg h0] at h
        by_cases h1 : byte '1' ≤ c ∧ c ≤ byte '9'
        · simp only [byte, Char.reduceToNat] at h1 ⊢
          omega
        · rw [if_neg h1] at h; exact absurd h (by decide)
    rw [acc_Neg_digit σ c t hc] at h
    obtain ⟨i, f, e, rest, hw, hi, hf, he, hr⟩ := sound_int σ c t hc h
    exact ⟨byte '-' :: (i ++ f ++ e), rest, by rw [hw]; simp,
      ⟨[byte '-'], i, f, e, by simp, Or.inr rfl, hi, hf, he⟩, hr⟩

/-! ### The literals `true`, `false` and `null` -/

theorem lit_true : lit "true" = [byte 't', byte 'r', byte 'u', byte 'e'] := by decide

theorem lit_false : lit "false" = [byte 'f', byte 'a', byte 'l', byte 's', byte 'e'] := by
  decide

theorem lit_null : lit "null" = [byte 'n', byte 'u', byte 'l', byte 'l'] := by decide

theorem true_complete (σ : List ParseState) (w : Bytes) :
    acc Step.stateBeginValue σ (lit "true" ++ w) = acc Step.stateEndValue σ w := by
  rw [lit_true]
  simp only [List.cons_append, List.nil_append]
  rw [acc_BeginValue, if_neg (by decide), if_neg (by decide), if_neg (by decide),
    if_neg (by decide), if_neg (by decide), if_neg (by decide), if_pos rfl,
    acc_T, if_pos rfl, acc_Tr, if_pos rfl, acc_Tru, if_pos rfl]

theorem false_complete (σ : List ParseState) (w : Bytes) :
    acc Step.stateBeginValue σ (lit "false" ++ w) = acc Step.stateEndValue σ w := by
  rw [lit_false]
  simp only [List.cons_append, List.nil_append]
  rw [acc_BeginValue, if_neg (by decide), if_neg (by decide), if_neg (by decide),
    if_neg (by decide), if_neg (by decide), if_neg (by decide), if_neg (by decide),
    if_pos rfl, acc_F, if_pos rfl, acc_Fa, if_pos rfl, acc_Fal, if_pos rfl, acc_Fals,
    if_pos rfl]

theorem null_complete (σ : List ParseState) (w : Bytes) :
    acc Step.stateBeginValue σ (lit "null" ++ w) = acc Step.stateEndValue σ w := by
  rw [lit_null]
  simp only [List.cons_append, List.nil_append]
  rw [acc_BeginValue, if_neg (by decide), if_neg (by decide), if_neg (by decide),
    if_neg (by decide), if_neg (by decide), if_neg (by decide), if_neg (by decide),
    if_neg (by decide), if_pos rfl, acc_N, if_pos rfl, acc_Nu, if_pos rfl, acc_Nul,
    if_pos rfl]

theorem true_sound (σ : List ParseState) (t : Bytes) (h : acc Step.stateT σ t = true) :
    ∃ rest, byte 't' :: t = lit "true" ++ rest ∧ acc Step.stateEndValue σ rest = true := by
  rw [lit_true]
  match t, h with
  | [], h => rw [acc_T_nil] at h; exact absurd h (by decide)
  | [a], h =>
    rw [acc_T] at h; split_ifs at h
    rw [acc_Tr_nil] at h; exact absurd h (by decide)
  | [a, b], h =>
    rw [acc_T] at h; split_ifs at h
    rw [acc_Tr] at h; split_ifs at h
    rw [acc_Tru_nil] at h; exact absurd h (by decide)
  | a :: b :: c :: rest, h =>
    rw [acc_T] at h; split_ifs at h with h1
    rw [acc_Tr] at h; split_ifs at h with h2
    rw [acc_Tru] at h; split_ifs at h with h3
    subst h1 h2 h3
    exact ⟨rest, rfl, h⟩

theorem null_sound (σ : List ParseState) (t : Bytes) (h : acc Step.stateN σ t = true) :
    ∃ rest, byte 'n' :: t = lit "null" ++ rest ∧ acc Step.stateEndValue σ rest = true := by
  rw [lit_null]
  match t, h with
  | [], h => rw [acc_N_nil] at h; exact absurd h (by decide)
  | [a], h =>
    rw [acc_N] at h; split_ifs at h
    rw [acc_Nu_nil] at h; exact absurd h (by decide)
  | [a, b], h =>
    rw [acc_N] at h; split_ifs at h
    rw [acc_Nu] at h; split_ifs at h
    rw [acc_Nul_nil] at h; exact absurd h (by decide)
  | a :: b :: c :: rest, h =>
    rw [acc_N] at h; split_ifs at h with h1
    rw [acc_Nu] at h; split_ifs at h with h2
    rw [acc_Nul] at h; split_ifs at h with h3
    subst h1 h2 h3
    exact ⟨rest, rfl, h⟩

theorem false_sound (σ : List ParseState) (t : Bytes) (h : acc Step.stateF σ t = true) :
    ∃ rest, byte 'f' :: t = lit "false" ++ rest ∧ acc Step.stateEndValue σ rest = true := by
  rw [lit_false]
  match t, h with
  | [], h => rw [acc_F_nil] at h; exact absurd h (by decide)
  | [a], h =>
    rw [acc_F] at h; split_ifs at h
    rw [acc_Fa_nil] at h; exact absurd h (by decide)
  | [a, b], h =>
    rw [acc_F] at h; split_ifs at h
    rw [acc_Fa] at h; split_ifs at h
    rw [acc_Fal_nil] at h; exact absurd h (by decide)
  | [a, b, c], h =>
    rw [acc_F] at h; split_ifs at h
    rw [acc_Fa] at h; split_ifs at h
    rw [acc_Fal] at h; split_ifs at h
    rw [acc_Fals_nil] at h; exact absurd h (by decide)
  | a :: b :: c :: d :: rest, h =>
    rw [acc_F] at h; split_ifs at h with h1
    rw [acc_Fa] at h; split_ifs at h with h2
    rw [acc_Fal] at h; split_ifs at h with h3
    rw [acc_Fals] at h; split_ifs at h with h4
    subst h1 h2 h3 h4
    exact ⟨rest, rfl, h⟩

/-! ### White space in front of a token -/

theorem acc_ws_BeginValue (σ : List ParseState) (a w : Bytes) (ha : JWs a) :
    acc Step.stateBeginValue σ (a ++ w) = acc Step.stateBeginValue σ w :=
  acc_skip _ (skip_BeginValue σ) a w ha

theorem acc_ws_BeginValueOrEmpty (σ : List ParseState) (a w : Bytes) (ha : JWs a) :
    acc Step.stateBeginValueOrEmpty σ (a ++ w) = acc Step.stateBeginValueOrEmpty σ w :=
  acc_skip _ (skip_BeginValueOrEmpty σ) a w ha

theorem acc_ws_BeginString (σ : List ParseState) (a w : Bytes) (ha : JWs a) :
    acc Step.stateBeginString σ (a ++ w) = acc Step.stateBeginString σ w :=
  acc_skip _ (skip_BeginString σ) a w ha

theorem acc_ws_BeginStringOrEmpty (σ : List ParseState) (a w : Bytes) (ha : JWs a) :
    acc Step.stateBeginStringOrEmpty σ (a ++ w) = acc Step.stateBeginStringOrEmpty σ w :=
  acc_skip _ (skip_BeginStringOrEmpty σ) a w ha

theorem acc_ws_EndValue (p : ParseState) (σ : List ParseState) (a w : Bytes) (ha : JWs a) :
    acc Step.stateEndValue (p :: σ) (a ++ w) = acc Step.stateEndValue (p :: σ) w :=
  acc_skip _ (skip_EndValue p σ) a w ha

/-- White space and then a byte that ends numbers is a rest that ends numbers. -/
theorem NumEnd_ws (b : Bytes) (c : Nat) (t : Bytes) (hb : JWs b)
    (hc : ¬ (byte '0' ≤ c ∧ c ≤ byte '9') ∧ c ≠ byte '.' ∧ ¬ (c = byte 'e' ∨ c = byte 'E')) :
    NumEnd (b ++ c :: t) := by
  cases b with
  | nil => exact (NumEnd_cons c t).2 hc
  | cons x b =>
    rw [List.cons_append, NumEnd_cons]
    have := ((JWs_cons x b).1 hb).1
    simp only [isSpace, byte, Char.reduceToNat, decide_eq_true_eq] at this ⊢
    omega

/-- White space is a rest that ends numbers. -/
theorem NumEnd_of_JWs (b : Bytes) (hb : JWs b) : NumEnd b := by
  cases b with
  | nil => exact NumEnd_nil
  | cons x b =>
    rw [NumEnd_cons]
    have := ((JWs_cons x b).1 hb).1
    simp only [isSpace, byte, Char.reduceToNat, decide_eq_true_eq] at this ⊢
    omega

/-! ### From the grammar to the scanner -/

/-- A value begins with a byte that is neither a space nor `]`. -/
theorem value_first (d : Nat) (v : Bytes) (h : JDerive Kind.value d v) :
    ∃ c t, v = c :: t ∧ ¬ isSpace c = true ∧ c ≠ byte ']' := by
  cases h with
  | string _ _ hs =>
    obtain ⟨body, rfl, -⟩ := hs
    exact ⟨_, _, rfl, by decide, by decide⟩
  | number _ _ hn =>
    obtain ⟨m, i, f, e, rfl, hm, hi, -, -⟩ := hn
    rcases hm with rfl | rfl
    · rcases hi with rfl | ⟨x, ds, rfl, h1, h2, -⟩
      · exact ⟨_, _, rfl, by decide, by decide⟩
      · refine ⟨x, ds ++ f ++ e, by simp, ?_, ?_⟩
        · simp only [isSpace, byte, Char.reduceToNat, decide_eq_true_eq] at h1 h2 ⊢
          omega
        · simp only [byte, Char.reduceToNat] at h1 h2 ⊢
          omega
    · exact ⟨byte '-', i ++ f ++ e, by simp, by decide, by decide⟩
  | litTrue => exact ⟨_, _, lit_true, by decide, by decide⟩
  | litFalse => exact ⟨_, _, lit_false, by decide, by decide⟩
  | litNull => exact ⟨_, _, lit_null, by decide, by decide⟩
  | emptyArray _ a _ => exact ⟨_, _, rfl, by decide, by decide⟩
  | array _ e _ => exact ⟨_, _, rfl, by decide, by decide⟩
  | emptyObject _ a _ => exact ⟨_, _, rfl, by decide, by decide⟩
  | object _ m _ => exact ⟨_, _, rfl, by decide, by decide⟩

/-- In front of a value `stateBeginValueOrEmpty` does what `stateBeginValue` does. -/
theorem acc_BeginValueOrEmpty_value (σ : List ParseState) (d : Nat) (a v x : Bytes)
    (ha : JWs a) (hv : JDerive Kind.value d v) :
    acc Step.stateBeginValueOrEmpty σ (a ++ (v ++ x))
      = acc Step.stateBeginValue σ (a ++ (v ++ x)) := by
  obtain ⟨c, t, rfl, h1, h2⟩ := value_first d v hv
  rw [acc_ws_BeginValueOrEmpty σ a _ ha, acc_ws_BeginValue σ a _ ha, List.cons_append,
    acc_BeginValueOrEmpty, if_neg h1, if_neg h2]

/-- In front of a string `stateBeginStringOrEmpty` does what `stateBeginString` does. -/
theorem acc_BeginStringOrEmpty_string (p : ParseState) (σ : List ParseState)
    (a k x : Bytes) (ha : JWs a) (hk : JString k) :
    acc Step.stateBeginStringOrEmpty (p :: σ) (a ++ (k ++ x))
      = acc Step.stateBeginString (p :: σ) (a ++ (k ++ x)) := by
  obtain ⟨body, rfl, -⟩ := hk
  rw [acc_ws_BeginStringOrEmpty (p :: σ) a _ ha, acc_ws_BeginString (p :: σ) a _ ha]
  simp only [List.cons_append]
  rw [acc_BeginStringOrEmpty, if_neg (by decide), if_neg (by decide)]

/-- The scanner passes over a string where it expects a value. -/
theorem string_complete (σ : List ParseState) (k rest : Bytes) (hk : JString k) :
    acc Step.stateBeginValue σ (k ++ rest) = acc Step.stateEndValue σ rest := by
  obtain ⟨body, rfl, hb⟩ := hk
  simp only [List.cons_append, List.append_assoc, List.singleton_append, List.nil_append]
  rw [acc_BeginValue, if_neg (by decide), if_neg (by decide), if_neg (by decide),
    if_pos rfl, str_complete body hb]

/-- The scanner passes over a string where it expects the key of a member. -/
theorem key_complete (σ : List ParseState) (k rest : Bytes) (hk : JString k) :
    acc Step.stateBeginString σ (k ++ rest) = acc Step.stateEndValue σ rest := by
  obtain ⟨body, rfl, hb⟩ := hk
  simp only [List.cons_append, List.append_assoc, List.singleton_append, List.nil_append]
  rw [acc_BeginString, if_neg (by decide), if_pos rfl, str_complete body hb]

/-- The scanner closes an array at `]` behind white space. -/
theorem acc_close_array (σ : List ParseState) (b rest : Bytes) (hb : JWs b) :
    acc Step.stateEndValue (parseArrayValue :: σ) (b ++ byte ']' :: rest)
      = acc Step.stateEndValue σ rest := by
  rw [acc_ws_EndValue _ σ b _ hb, acc_EndValue_array, if_neg (by decide), if_neg (by decide),
    if_pos rfl]

/-- The scanner goes on to the next element at `,` behind white space. -/
theorem acc_next_element (σ : List ParseState) (b rest : Bytes) (hb : JWs b) :
    acc Step.stateEndValue (parseArrayValue :: σ) (b ++ byte ',' :: rest)
      = acc Step.stateBeginValue (parseArrayValue :: σ) rest := by
  rw [acc_ws_EndValue _ σ b _ hb, acc_EndValue_array, if_neg (by decide), if_pos rfl]

/-- The scanner closes an object at `}` behind white space. -/
theorem acc_close_object (σ : List ParseState) (b rest : Bytes) (hb : JWs b) :
    acc Step.stateEndValue (parseObjectValue :: σ) (b ++ byte '}' :: rest)
      = acc Step.stateEndValue σ rest := by
  rw [acc_ws_EndValue _ σ b _ hb, acc_EndValue_value, if_neg (by decide), if_neg (by decide),
    if_pos rfl]

/-- The scanner goes on to the next member at `,` behind white space. -/
theorem acc_next_member (σ : List ParseState) (b rest : Bytes) (hb : JWs b) :
    acc Step.stateEndValue (parseObjectValue :: σ) (b ++ byte ',' :: rest)
      = acc Step.stateBeginString (parseObjectKey :: σ) rest := by
  rw [acc_ws_EndValue _ σ b _ hb, acc_EndValue_value, if_neg (by decide), if_pos rfl]

/-- The scanner goes on to the value of a member at `:` behind white space. -/
theorem acc_colon (σ : List ParseState) (b rest : Bytes) (hb : JWs b) :
    acc Step.stateEndValue (parseObjectKey :: σ) (b ++ byte ':' :: rest)
      = acc Step.stateBeginValue (parseObjectValue :: σ) rest := by
  rw [acc_ws_EndValue _ σ b _ hb, acc_EndValue_key, if_neg (by decide), if_pos rfl]

/-- The scanner passes over one member of an object, up to the white space behind its
value. -/
theorem member_complete (σ : List ParseState) (d : Nat) (a k b c v e x : Bytes) (y : Nat)
    (ha : JWs a) (hk : JString k) (hb : JWs b) (hc : JWs c) (he : JWs e)
    (hy : ¬ (byte '0' ≤ y ∧ y ≤ byte '9') ∧ y ≠ byte '.' ∧ ¬ (y = byte 'e' ∨ y = byte 'E'))
    (hd : σ.length + 1 + d ≤ maxNestingDepth) (ih : Complete Kind.value d v) :
    acc Step.stateBeginString (parseObjectKey :: σ)
        (a ++ (k ++ (b ++ byte ':' :: (c ++ (v ++ (e ++ y :: x))))))
      = acc Step.stateEndValue (parseObjectValue :: σ) (e ++ y :: x) := by
  rw [acc_ws_BeginString _ a _ ha, key_complete _ k _ hk, acc_colon σ b _ hb,
    acc_ws_BeginValue _ c _ hc]
  exact ih (parseObjectValue :: σ) _ (by simpa using hd) (NumEnd_ws e y x he hy)

/-- The scanner passes over what the grammar derives. -/
theorem complete (k : Kind) (d : Nat) (w : Bytes) (h : JDerive k d w) : Complete k d w := by
  induction h with
  | string d w hs =>
    intro σ rest _ _
    exact string_complete σ w rest hs
  | number d w hn =>
    intro σ rest _ hr
    exact num_complete σ w rest hn hr
  | litTrue d =>
    intro σ rest _ _
    exact true_complete σ rest
  | litFalse d =>
    intro σ rest _ _
    exact false_complete σ rest
  | litNull d =>
    intro σ rest _ _
    exact null_complete σ rest
  | emptyArray d a ha =>
    intro σ rest hd _
    simp only [List.cons_append, List.append_assoc, List.singleton_append, List.nil_append]
    rw [acc_BeginValue, if_neg (by decide), if_neg (by decide), if_pos rfl,
      if_pos (by omega), acc_ws_BeginValueOrEmpty _ a _ ha, acc_BeginValueOrEmpty,
      if_neg (by decide), if_pos rfl]
    exact acc_close_array σ [] rest JWs_nil
  | array d e he ih =>
    intro σ rest hd _
    simp only [List.cons_append, List.append_assoc, List.singleton_append, List.nil_append]
    rw [acc_BeginValue, if_neg (by decide), if_neg (by decide), if_pos rfl,
      if_pos (by omega)]
    have h2 : acc Step.stateBeginValueOrEmpty (parseArrayValue :: σ) (e ++ byte ']' :: rest)
        = acc Step.stateBeginValue (parseArrayValue :: σ) (e ++ byte ']' :: rest) := by
      cases he with
      | element _ a v b ha hv hb =>
        simp only [List.append_assoc]
        exact acc_BeginValueOrEmpty_value _ d a v _ ha hv
      | elements _ a v b r ha hv hb hr =>
        simp only [List.append_assoc]
        exact acc_BeginValueOrEmpty_value _ d a v _ ha hv
    rw [h2]
    exact ih σ rest (by omega)
  | emptyObject d a ha =>
    intro σ rest hd _
    simp only [List.cons_append, List.append_assoc, List.singleton_append, List.nil_append]
    rw [acc_BeginValue, if_neg (by decide), if_pos rfl, if_pos (by omega),
      acc_ws_BeginStringOrEmpty _ a _ ha, acc_BeginStringOrEmpty, if_neg (by decide),
      if_pos rfl]
    exact acc_close_object σ [] rest JWs_nil
  | object d m hm ih =>
    intro σ rest hd _
    simp only [List.cons_append, List.append_assoc, List.singleton_append, List.nil_append]
    rw [acc_BeginValue, if_neg (by decide), if_pos rfl, if_pos (by omega)]
    have h2 : acc Step.stateBeginStringOrEmpty (parseObjectKey :: σ) (m ++ byte '}' :: rest)
        = acc Step.stateBeginString (parseObjectKey :: σ) (m ++ byte '}' :: rest) := by
      cases hm with
      | member _ a k b c v e ha hk hb hc hv he =>
        simp only [List.append_assoc]
        exact acc_BeginStringOrEmpty_string _ σ a k _ ha hk
      | members _ a k b c v e r ha hk hb hc hv he hr =>
        simp only [List.append_assoc]
        exact acc_BeginStringOrEmpty_string _ σ a k _ ha hk
    rw [h2]
    exact ih σ rest (by omega)
  | element d a v b ha hv hb ih =>
    intro σ rest hd
    simp only [List.append_assoc]
    rw [acc_ws_BeginValue _ a _ ha,
      ih (parseArrayValue :: σ) _ (by simpa using hd)
        (NumEnd_ws b _ rest hb (by decide))]
    exact acc_close_array σ b rest hb
  | elements d a v b r ha hv hb hr ih ihr =>
    intro σ rest hd
    simp only [List.append_assoc, List.cons_append]
    rw [acc_ws_BeginValue _ a _ ha,
      ih (parseArrayValue :: σ) _ (by simpa using hd)
        (NumEnd_ws b _ _ hb (by decide)), acc_next_element σ b _ hb]
    exact ihr σ rest hd
  | member d a k b c v e ha hk hb hc hv he ih =>
    intro σ rest hd
    simp only [List.append_assoc, List.cons_append]
    rw [member_complete σ d a k b c v e rest _ ha hk hb hc he (by decide) hd ih]
    exact acc_close_object σ e rest he
  | members d a k b c v e r ha hk hb hc hv he hr ih ihr =>
    intro σ rest hd
    simp only [List.append_assoc, List.cons_append]
    rw [member_complete σ d a k b c v e _ _ ha hk hb hc he (by decide) hd ih,
      acc_next_member σ e _ he]
    exact ihr σ rest hd

/-! ### From the scanner to the grammar -/

/-- After `[` the scanner accepts white space and `]`, or what it accepts where a value
begins. -/
theorem sound_BeginValueOrEmpty (σ : List ParseState) (w : Bytes)
    (h : acc Step.stateBeginValueOrEmpty (parseArrayValue :: σ) w = true) :
    (∃ a rest, w = a ++ byte ']' :: rest ∧ JWs a ∧ acc Step.stateEndValue σ rest = true)
    ∨ acc Step.stateBeginValue (parseArrayValue :: σ) w = true := by
  induction w with
  | nil => rw [acc_BeginValueOrEmpty_nil] at h; exact absurd h (by decide)
  | cons c t ih =>
    rw [acc_BeginValueOrEmpty] at h
    by_cases h1 : isSpace c = true
    · rw [if_pos h1] at h
      rcases ih h with ⟨a, rest, rfl, ha, hr⟩ | h2
      · exact Or.inl ⟨c :: a, rest, rfl, (JWs_cons c a).2 ⟨h1, ha⟩, hr⟩
      · right
        rw [acc_BeginValue, if_pos h1]
        exact h2
    · rw [if_neg h1] at h
      by_cases h2 : c = byte ']'
      · rw [if_pos h2, acc_EndValue_array, if_neg h1] at h
        subst h2
        rw [if_neg (by decide), if_pos rfl] at h
        exact Or.inl ⟨[], t, rfl, JWs_nil, h⟩
      · rw [if_neg h2] at h
        exact Or.inr h

/-- After `{` the scanner accepts white space and `}`, or what it accepts where the key of
a member begins. -/
theorem sound_BeginStringOrEmpty (σ : List ParseState) (w : Bytes)
    (h : acc Step.stateBeginStringOrEmpty (parseObjectKey :: σ) w = true) :
    (∃ a rest, w = a ++ byte '}' :: rest ∧ JWs a ∧ acc Step.stateEndValue σ rest = true)
    ∨ acc Step.stateBeginString (parseObjectKey :: σ) w = true := by
  induction w with
  | nil => rw [acc_BeginStringOrEmpty_nil] at h; exact absurd h (by decide)
  | cons c t ih =>
    rw [acc_BeginStringOrEmpty] at h
    by_cases h1 : isSpace c = true
    · rw [if_pos h1] at h
      rcases ih h with ⟨a, rest, rfl, ha, hr⟩ | h2
      · exact Or.inl ⟨c :: a, rest, rfl, (JWs_cons c a).2 ⟨h1, ha⟩, hr⟩
      · right
        rw [acc_BeginString, if_pos h1]
        exact h2
    · rw [if_neg h1] at h
      by_cases h2 : c = byte '}'
      · rw [if_pos h2, acc_EndValue_value, if_neg h1] at h
        subst h2
        rw [if_neg (by decide), if_pos rfl] at h
        exact Or.inl ⟨[], t, rfl, JWs_nil, h⟩
      · rw [if_neg h2] at h
        exact Or.inr h

/-- Behind an element the scanner accepts white space and then `,` and what it accepts
where a value begins, or `]`. -/
theorem sound_EndValue_array (σ : List ParseState) (r : Bytes)
    (h : acc Step.stateEndValue (parseArrayValue :: σ) r = true) :
    ∃ b t, JWs b ∧
      ((r = b ++ byte ',' :: t ∧ acc Step.stateBeginValue (parseArrayValue :: σ) t = true)
      ∨ (r = b ++ byte ']' :: t ∧ acc Step.stateEndValue σ t = true)) := by
  induction r with
  | nil => rw [acc_EndValue_cons_nil] at h; exact absurd h (by decide)
  | cons c t ih =>
    rw [acc_EndValue_array] at h
    by_cases h1 : isSpace c = true
    · rw [if_pos h1] at h
      obtain ⟨b, t2, hb, h2⟩ := ih h
      refine ⟨c :: b, t2, (JWs_cons c b).2 ⟨h1, hb⟩, ?_⟩
      rcases h2 with ⟨rfl, h3⟩ | ⟨rfl, h3⟩
      · exact Or.inl ⟨rfl, h3⟩
      · exact Or.inr ⟨rfl, h3⟩
    · rw [if_neg h1] at h
      by_cases h2 : c = byte ','
      · rw [if_pos h2] at h
        subst h2
        exact ⟨[], t, JWs_nil, Or.inl ⟨rfl, h⟩⟩
      · rw [if_neg h2] at h
        by_cases h3 : c = byte ']'
        · rw [if_pos h3] at h
          subst h3
          exact ⟨[], t, JWs_nil, Or.inr ⟨rfl, h⟩⟩
        · rw [if_neg h3] at h; exact absurd h (by decide)

/-- Behind the value of a member the scanner accepts white space and then `,` and what it
accepts where a key begins, or `}`. -/
theorem sound_EndValue_value (σ : List ParseState) (r : Bytes)
    (h : acc Step.stateEndValue (parseObjectValue :: σ) r = true) :
    ∃ b t, JWs b ∧
      ((r = b ++ byte ',' :: t ∧ acc Step.stateBeginString (parseObjectKey :: σ) t = true)
      ∨ (r = b ++ byte '}' :: t ∧ acc Step.stateEndValue σ t = true)) := by
  induction r with
  | nil => rw [acc_EndValue_cons_nil] at h; exact absurd h (by decide)
  | cons c t ih =>
    rw [acc_EndValue_value] at h
    by_cases h1 : isSpace c = true
    · rw [if_pos h1] at h
      obtain ⟨b, t2, hb, h2⟩ := ih h
      refine ⟨c :: b, t2, (JWs_cons c b).2 ⟨h1, hb⟩, ?_⟩
      rcases h2 with ⟨rfl, h3⟩ | ⟨rfl, h3⟩
      · exact Or.inl ⟨rfl, h3⟩
      · exact Or.inr ⟨rfl, h3⟩
    · rw [if_neg h1] at h
      by_cases h2 : c = byte ','
      · rw [if_pos h2] at h
        subst h2
        exact ⟨[], t, JWs_nil, Or.inl ⟨rfl, h⟩⟩
      · rw [if_neg h2] at h
        by_cases h3 : c = byte '}'
        · rw [if_pos h3] at h
          subst h3
          exact ⟨[], t, JWs_nil, Or.inr ⟨rfl, h⟩⟩
        · rw [if_neg h3] at h; exact absurd h (by decide)

/-- Behind the key of a member the scanner accepts white space, `:` and what it accepts
where a value begins. -/
theorem sound_EndValue_key (σ : List ParseState) (r : Bytes)
    (h : acc Step.stateEndValue (parseObjectKey :: σ) r = true) :
    ∃ b t, r = b ++ byte ':' :: t ∧ JWs b
      ∧ acc Step.stateBeginValue (parseObjectValue :: σ) t = true := by
  induction r with
  | nil => rw [acc_EndValue_cons_nil] at h; exact absurd h (by decide)
  | cons c t ih =>
    rw [acc_EndValue_key] at h
    by_cases h1 : isSpace c = true
    · rw [if_pos h1] at h
      obtain ⟨b, t2, rfl, hb, h2⟩ := ih h
      exact ⟨c :: b, t2, rfl, (JWs_cons c b).2 ⟨h1, hb⟩, h2⟩
    · rw [if_neg h1] at h
      by_cases h2 : c = byte ':'
      · rw [if_pos h2] at h
        subst h2
        exact ⟨[], t, rfl, JWs_nil, h⟩
      · rw [if_neg h2] at h; exact absurd h (by decide)

/-- Where the key of a member begins the scanner accepts white space and a string. -/
theorem sound_BeginString (σ : List ParseState) (w : Bytes)
    (h : acc Step.stateBeginString σ w = true) :
    ∃ a k rest, w = a ++ (k ++ rest) ∧ JWs a ∧ JString k
      ∧ acc Step.stateEndValue σ rest = true := by
  induction w with
  | nil => rw [acc_BeginString_nil] at h; exact absurd h (by decide)
  | cons c t ih =>
    rw [acc_BeginString] at h
    by_cases h1 : isSpace c = true
    · rw [if_pos h1] at h
      obtain ⟨a, k, rest, rfl, ha, hk, hr⟩ := ih h
      exact ⟨c :: a, k, rest, rfl, (JWs_cons c a).2 ⟨h1, ha⟩, hk, hr⟩
    · rw [if_neg h1] at h
      by_cases h2 : c = byte '"'
      · rw [if_pos h2] at h
        subst h2
        obtain ⟨body, rest, rfl, hb, hr⟩ := str_sound σ t.length t (le_refl _) h
        exact ⟨[], byte '"' :: body ++ [byte '"'], rest, by simp, JWs_nil,
          ⟨body, rfl, hb⟩, hr⟩
      · rw [if_neg h2] at h; exact absurd h (by decide)

/-- The step of the induction for values: with elements and members settled for shorter
inputs, a value is recognised. -/
theorem sound_value_step (n : Nat)
    (ih : ∀ w : Bytes, w.length ≤ n → ∀ σ,
      SoundValue σ w ∧ SoundElements σ w ∧ SoundMembers σ w)
    (w : Bytes) (hw : w.length ≤ n + 1) (σ : List ParseState) : SoundValue σ w := by
  intro h
  cases w with
  | nil => rw [acc_BeginValue_nil] at h; exact absurd h (by decide)
  | cons c t =>
    have hlen : t.length ≤ n := by simpa using hw
    have h0 := h
    rw [acc_BeginValue] at h
    by_cases h1 : isSpace c = true
    · rw [if_pos h1] at h
      obtain ⟨a, v, rest, rfl, ha, hv, hr⟩ := (ih t hlen σ).1 h
      exact ⟨c :: a, v, rest, rfl, (JWs_cons c a).2 ⟨h1, ha⟩, hv, hr⟩
    rw [if_neg h1] at h
    by_cases h2 : c = byte '{'
    · rw [if_pos h2] at h
      subst h2
      by_cases hd : σ.length + 1 ≤ maxNestingDepth
      swap
      · rw [if_neg hd] at h; exact absurd h (by decide)
      rw [if_pos hd] at h
      have hdep : maxNestingDepth - σ.length = (maxNestingDepth - (σ.length + 1)) + 1 := by
        omega
      rcases sound_BeginStringOrEmpty σ t h with ⟨a, rest, rfl, ha, hr⟩ | h3
      · refine ⟨[], byte '{' :: a ++ [byte '}'], rest, by simp, JWs_nil, ?_, hr⟩
        rw [hdep]
        exact JDerive.emptyObject _ a ha
      · obtain ⟨m, rest, rfl, hm, hr⟩ := (ih t hlen σ).2.2 h3
        refine ⟨[], byte '{' :: m ++ [byte '}'], rest, by simp, JWs_nil, ?_, hr⟩
        rw [hdep]
        exact JDerive.object _ m hm
    rw [if_neg h2] at h
    by_cases h3 : c = byte '['
    · rw [if_pos h3] at h
      subst h3
      by_cases hd : σ.length + 1 ≤ maxNestingDepth
      swap
      · rw [if_neg hd] at h; exact absurd h (by decide)
      rw [if_pos hd] at h
      have hdep : maxNestingDepth - σ.length = (maxNestingDepth - (σ.length + 1)) + 1 := by
        omega
      rcases sound_BeginValueOrEmpty σ t h with ⟨a, rest, rfl, ha, hr⟩ | h4
      · refine ⟨[], byte '[' :: a ++ [byte ']'], rest, by simp, JWs_nil, ?_, hr⟩
        rw [hdep]
        exact JDerive.emptyArray _ a ha
      · obtain ⟨e, rest, rfl, he, hr⟩ := (ih t hlen σ).2.1 h4
        refine ⟨[], byte '[' :: e ++ [byte ']'], rest, by simp, JWs_nil, ?_, hr⟩
        rw [hdep]
        exact JDerive.array _ e he
    rw [if_neg h3] at h
    by_cases h4 : c = byte '"'
    · rw [if_pos h4] at h
      subst h4
      obtain ⟨body, rest, rfl, hb, hr⟩ := str_sound σ t.length t (le_refl _) h
      exact ⟨[], byte '"' :: body ++ [byte '"'], rest, by simp, JWs_nil,
        JDerive.string _ _ ⟨body, rfl, hb⟩, hr⟩
    rw [if_neg h4] at h
    by_cases h5 : c = byte '-'
    · rw [if_pos h5] at h
      subst h5
      obtain ⟨m, rest, hm, hn, hr⟩ := sound_num_neg σ t h
      exact ⟨[], m, rest, hm, JWs_nil, JDerive.number _ _ hn, hr⟩
    rw [if_neg h5] at h
    by_cases h6 : c = byte '0'
    · subst h6
      obtain ⟨m, rest, hm, hn, hr⟩ := sound_num_digit σ _ t (by decide) h0
      exact ⟨[], m, rest, hm, JWs_nil, JDerive.number _ _ hn, hr⟩
    rw [if_neg h6] at h
    by_cases h7 : c = byte 't'
    · rw [if_pos h7] at h
      subst h7
      obtain ⟨rest, hm, hr⟩ := true_sound σ t h
      exact ⟨[], lit "true", rest, hm, JWs_nil, JDerive.litTrue _, hr⟩
    rw [if_neg h7] at h
    by_cases h8 : c = byte 'f'
    · rw [if_pos h8] at h
      subst h8
      obtain ⟨rest, hm, hr⟩ := false_sound σ t h
      exact ⟨[], lit "false", rest, hm, JWs_nil, JDerive.litFalse _, hr⟩
    rw [if_neg h8] at h
    by_cases h9 : c = byte 'n'
    · rw [if_pos h9] at h
      subst h9
      obtain ⟨rest, hm, hr⟩ := null_sound σ t h
      exact ⟨[], lit "null", rest, hm, JWs_nil, JDerive.litNull _, hr⟩
    rw [if_neg h9] at h
    by_cases h10 : byte '1' ≤ c ∧ c ≤ byte '9'
    · have hc : byte '0' ≤ c ∧ c ≤ byte '9' := by
        simp only [byte, Char.reduceToNat] at h10 ⊢
        omega
      obtain ⟨m, rest, hm, hn, hr⟩ := sound_num_digit σ c t hc h0
      exact ⟨[], m, rest, hm, JWs_nil, JDerive.number _ _ hn, hr⟩
    · rw [if_neg h10] at h; exact absurd h (by decide)

/-- What the scanner accepts is derived by the grammar: values, elements and members, by
induction on the length of the input. -/
theorem sound (n : Nat) :
    ∀ w : Bytes, w.length ≤ n → ∀ σ,
      SoundValue σ w ∧ SoundElements σ w ∧ SoundMembers σ w := by
  induction n with
  | zero =>
    intro w hw σ
    have : w = [] := List.length_eq_zero.1 (by omega)
    subst this
    refine ⟨fun h => ?_, fun h => ?_, fun h => ?_⟩
    · rw [acc_BeginValue_nil] at h; exact absurd h (by decide)
    · rw [acc_BeginValue_nil] at h; exact absurd h (by decide)
    · rw [acc_BeginString_nil] at h; exact absurd h (by decide)
  | succ n ih =>
    intro w hw σ
    have S1 := sound_value_step n ih
    refine ⟨S1 w hw σ, ?_, ?_⟩
    · intro h
      obtain ⟨a, v, r1, hw1, ha, hv, hr1⟩ := S1 w hw (parseArrayValue :: σ) h
      rw [List.length_cons] at hv
      obtain ⟨b, t, hb, h2⟩ := sound_EndValue_array σ r1 hr1
      rcases h2 with ⟨rfl, h3⟩ | ⟨rfl, h3⟩
      · have ht : t.length ≤ n := by
          have := congrArg List.length hw1
          simp only [List.length_append, List.length_cons] at this
          omega
        obtain ⟨e, rest, rfl, he, hr⟩ := (ih t ht σ).2.1 h3
        exact ⟨a ++ v ++ b ++ byte ',' :: e, rest, by rw [hw1]; simp,
          JDerive.elements _ a v b e ha hv hb he, hr⟩
      · exact ⟨a ++ v ++ b, t, by rw [hw1]; simp, JDerive.element _ a v b ha hv hb, h3⟩
    · intro h
      obtain ⟨a, k, r1, hw1, ha, hk, hr1⟩ := sound_BeginString (parseObjectKey :: σ) w h
      obtain ⟨b, r2, rfl, hb, hr2⟩ := sound_EndValue_key σ r1 hr1
      have h2len : r2.length ≤ n := by
        have := congrArg List.length hw1
        simp only [List.length_append, List.length_cons] at this
        omega
      obtain ⟨c, v, r3, rfl, hc, hv, hr3⟩ := (ih r2 h2len (parseObjectValue :: σ)).1 hr2
      rw [List.length_cons] at hv
      obtain ⟨e, r4, he, h4⟩ := sound_EndValue_value σ r3 hr3
      rcases h4 with ⟨rfl, h5⟩ | ⟨rfl, h5⟩
      · have h4len : r4.length ≤ n := by
          have := congrArg List.length hw1
          simp only [List.length_append, List.length_cons] at this
          omega
        obtain ⟨m, rest, rfl, hm, hr⟩ := (ih r4 h4len σ).2.2 h5
        exact ⟨a ++ k ++ b ++ byte ':' :: (c ++ v ++ e) ++ byte ',' :: m, rest,
          by rw [hw1]; simp,
          JDerive.members _ a k b c v e m ha hk hb hc hv he hm, hr⟩
      · exact ⟨a ++ k ++ b ++ byte ':' :: (c ++ v ++ e), r4, by rw [hw1]; simp,
          JDerive.member _ a k b c v e ha hk hb hc hv he, h5⟩

end json

/-! ### `IsJSON` and the grammar -/

/-- The scanner starts where a value begins, with an empty stack. -/
theorem IsJSON_eq_acc (b : Bytes) : IsJSON b = acc json.Step.stateBeginValue [] b := rfl

/-- The function `IsJSON` accepts exactly the JSON texts of the grammar in which arrays and
objects are nested at most `maxNestingDepth` deep. -/
theorem IsJSON_iff_JText (b : Bytes) : IsJSON b = true ↔ JText json.maxNestingDepth b := by
  rw [IsJSON_eq_acc]
  constructor
  · intro h
    obtain ⟨a, v, rest, rfl, ha, hv, hr⟩ := (json.sound b.length b (le_refl _) []).1 h
    have hr2 : JWs rest := by
      rw [show acc json.Step.stateEndValue [] rest = json.checkValidFrom cfgTop rest from
        json.acc_EndValue_nil rest] at hr
      exact (json.acc_Top rest).1 hr
    exact ⟨a, v, rest, by simp, ha, hv, hr2⟩
  · rintro ⟨a, v, r, rfl, ha, hv, hr⟩
    have hc := json.complete Kind.value _ v hv [] r (by simp) (json.NumEnd_of_JWs r hr)
    rw [List.append_assoc, json.acc_ws_BeginValue [] a _ ha, hc]
    rw [show acc json.Step.stateEndValue [] r = json.checkValidFrom cfgTop r from
      json.acc_EndValue_nil r]
    exact (json.acc_Top r).2 hr

/-! ### Arrays nested deeper than `maxNestingDepth` -/

/-- With `n` more levels allowed, the scanner rejects `n + 1` opening brackets in a row. -/
theorem acc_open_too_deep (x : Bytes) (n : Nat) :
    ∀ σ : List json.ParseState, σ.length + n = json.maxNestingDepth →
      acc json.Step.stateBeginValue σ (List.replicate (n + 1) (byte '[') ++ x) = false
      ∧ acc json.Step.stateBeginValueOrEmpty σ (List.replicate (n + 1) (byte '[') ++ x)
          = false := by
  induction n with
  | zero =>
    intro σ hσ
    have h1 : acc json.Step.stateBeginValue σ (List.replicate (0 + 1) (byte '[') ++ x)
        = false := by
      simp only [Nat.zero_add, List.replicate_one, List.singleton_append]
      rw [json.acc_BeginValue, if_neg (by decide), if_neg (by decide), if_pos rfl,
        if_neg (by omega)]
    refine ⟨h1, ?_⟩
    rw [← h1]
    simp only [Nat.zero_add, List.replicate_one, List.singleton_append]
    rw [json.acc_BeginValueOrEmpty, if_neg (by decide), if_neg (by decide)]
  | succ n ih =>
    intro σ hσ
    have h1 : acc json.Step.stateBeginValue σ (List.replicate (n + 1 + 1) (byte '[') ++ x)
        = false := by
      rw [List.replicate_succ, List.cons_append, json.acc_BeginValue, if_neg (by decide),
        if_neg (by decide), if_pos rfl, if_pos (by omega)]
      exact (ih (json.ParseState.parseArrayValue :: σ) (by simp; omega)).2
    refine ⟨h1, ?_⟩
    rw [← h1, List.replicate_succ, List.cons_append, json.acc_BeginValueOrEmpty,
      if_neg (by decide), if_neg (by decide)]

theorem nested_succ (n : Nat) : nested (n + 1) = byte '[' :: (nested n ++ [byte ']']) := by
  unfold nested
  rw [List.replicate_succ, List.replicate_succ' n (byte ']')]
  simp

/-- Empty arrays nested `n + 1` deep are a value of the grammar, of depth `n + 1`. -/
theorem nested_value (n : Nat) : JDerive Kind.value (n + 1) (nested (n + 1)) := by
  induction n with
  | zero => exact JDerive.emptyArray 0 [] JWs_nil
  | succ n ih =>
    rw [nested_succ (n + 1)]
    have he : JDerive Kind.elements (n + 1) (nested (n + 1)) := by
      have := JDerive.element (n + 1) [] (nested (n + 1)) [] JWs_nil ih JWs_nil
      simpa using this
    exact JDerive.array (n + 1) (nested (n + 1)) he

/-- A string of bytes below `RuneSelf` is well-formed UTF-8. -/
theorem ValidString_of_ascii (s : Bytes) (h : ∀ c ∈ s, c < 128) :
    utf8.ValidString s = true := by
  unfold utf8.ValidString
  induction s with
  | nil => rfl
  | cons c t ih =>
    have hc : c < 128 := h c (List.mem_cons_self _ _)
    have hd : utf8.DecodeRuneInString (c :: t) = (c, 1) := by
      simp [utf8.DecodeRuneInString, utf8.RuneSelf, hc]
    have hne : ¬ ((c, 1) : Nat × Nat) = (utf8.RuneError, 1) := by
      simp only [utf8.RuneError, Prod.mk.injEq, and_true]
      omega
    simp only [utf8.validFrom, hd, if_neg hne]
    exact ih (fun x hx => h x (List.mem_cons_of_mem _ hx))

/-- Empty arrays nested one level deeper than `maxNestingDepth` are a syntactically valid
JSON text. -/
theorem nested_valid : ValidJSON (nested 10001) := by
  refine ⟨10001, ⟨[], nested 10001, [], by simp, JWs_nil, nested_value 10000, JWs_nil⟩, ?_⟩
  apply ValidString_of_ascii
  intro c hc
  unfold nested at hc
  rcases List.mem_append.1 hc with h | h
  · rw [(List.mem_replicate.1 h).2]; decide
  · rw [(List.mem_replicate.1 h).2]; decide

/-- The function `IsJSON` rejects empty arrays nested one level deeper than
`maxNestingDepth`. -/
theorem nested_rejected : IsJSON (nested 10001) = false := by
  rw [IsJSON_eq_acc]
  exact (acc_open_too_deep (List.replicate 10001 (byte ']')) 10000 [] rfl).1

/-- Claim C12, refuted as stated, in both directions. 10001 opening brackets followed by
10001 closing brackets are a syntactically valid JSON text (empty arrays nested 10001 deep),
and `IsJSON` rejects it. The three bytes `22 FF 22`, a string whose only character is a byte
that is no UTF-8, are no syntactically valid JSON text, and `IsJSON` accepts them. -/
theorem C12_not_exactly_valid_JSON :
    (ValidJSON (nested 10001) ∧ ¬ IsJSON (nested 10001) = true)
    ∧ (IsJSON [0x22, 0xFF, 0x22] = true ∧ ¬ ValidJSON [0x22, 0xFF, 0x22]) := by
  refine ⟨⟨nested_valid, ?_⟩, by decide, ?_⟩
  · rw [nested_rejected]
    decide
  · rintro ⟨d, -, hv⟩
    exact absurd hv (by decide)

/-- Claim C12, amended: `IsJSON b` is true exactly when `b` follows the JSON grammar taken
on bytes (one value of any shape, white space allowed around it, nothing behind it) with
arrays and objects nested at most 10000 deep, the bytes inside strings not being checked
for UTF-8, so that `22 FF 22` is accepted; every syntactically valid JSON text nested at most
10000 deep is accepted, and on well-formed UTF-8 `IsJSON b` is true exactly for these; `42`
and `"hi"` are accepted, `not json` is rejected, and the answer is a Boolean in every
case. -/
theorem C12_IsJSON_iff_bounded_JSON_text :
    (∀ b : Bytes, IsJSON b = true ↔ JText 10000 b)
    ∧ (∀ b : Bytes, IsJSON b = false ↔ ¬ JText 10000 b)
    ∧ (∀ b : Bytes, ValidJSONWithin 10000 b → IsJSON b = true)
    ∧ (∀ b : Bytes, utf8.ValidString b = true →
        (IsJSON b = true ↔ ValidJSONWithin 10000 b))
    ∧ (JText 10000 [0x22, 0xFF, 0x22] ∧ IsJSON [0x22, 0xFF, 0x22] = true
        ∧ utf8.ValidString [0x22, 0xFF, 0x22] = false)
    ∧ IsJSON (lit "42") = true
    ∧ IsJSON (lit "\"hi\"") = true
    ∧ IsJSON (lit " \x7b\"a\": [1, -2.5e3, true, false, null, \"x\\n\"]\x7d\n") = true
    ∧ IsJSON (lit "not json") = false
    ∧ IsJSON (lit "42 43") = false := by
  have h : ∀ b : Bytes, IsJSON b = true ↔ JText 10000 b := IsJSON_iff_JText
  refine ⟨h, ?_, ?_, ?_, ⟨(h _).1 (by decide), by decide, by decide⟩,
    by decide, by decide, by decide, by decide, by decide⟩
  · intro b
    rw [← h b]
    cases IsJSON b <;> simp
  · intro b hb
    exact (h b).2 hb.1
  · intro b hu
    rw [h b]
    exact ⟨fun ht => ⟨ht, hu⟩, fun hv => hv.1⟩

/-- Claim C12 (amended) applied to the text `["é"]`, whose string holds the two bytes
`C3 A9`: it is well-formed UTF-8, `IsJSON` accepts it, and it is a syntactically valid JSON
text nested at most 10000 deep. -/
theorem C12_IsJSON_iff_bounded_JSON_text_witness :
    utf8.ValidString (lit "[\"" ++ [0xC3, 0xA9] ++ lit "\"]") = true
    ∧ IsJSON (lit "[\"" ++ [0xC3, 0xA9] ++ lit "\"]") = true
    ∧ ValidJSONWithin 10000 (lit "[\"" ++ [0xC3, 0xA9] ++ lit "\"]") :=
  ⟨by decide, by decide,
    (C12_IsJSON_iff_bounded_JSON_text.2.2.2.1 (lit "[\"" ++ [0xC3, 0xA9] ++ lit "\"]")
      (by decide)).1 (by decide)⟩

end Df
